import Mathlib

/-!
# B+tree internal page (`b_plus_tree_internal_page.cpp`) and crash recovery

A shallow embedding of `cmudb::BPlusTreeInternalPage` and of the buffer pool
operations its methods call, then of the write-ahead log and the recovery
phases that `log_manager_test.cpp` exercises, followed by theorems about
them.

Conventions of the embedding

* C `int` values (sizes, slot indexes, page ids) are `Int`; the quantities
  handled here are far from the 32-bit range, so no wrap-around is modelled
  except in `Init`, whose `max_size` is computed in unsigned arithmetic.
* `ValueType` is `page_id_t` (the only instantiation in the source), so a slot
  is a pair `K × Int`.
* The flexible array member `array` is the memory that follows the header; it
  is a total map from slot index to pair.  `size` says how many slots are
  occupied; cells at other indexes hold stale or uninitialised data.
* A failed `assert` and the dereference of a null `Page *` abort the call:
  such methods return `Option`, with `none` for the abort.
* `this` and `recipient` are pages the caller holds; the pages a method reaches
  through `FetchPage` (children, parent) live in the pool, a map from page id
  to frame.
-/

namespace cmudb

/-! ## Data model -/

/-- Page type tag of the common page header (`IndexPageType`). -/
inductive IndexPageType where
  | INVALID_INDEX_PAGE
  | LEAF_PAGE
  | INTERNAL_PAGE
  deriving DecidableEq, Repr

/-- The reserved page id (`INVALID_PAGE_ID`). -/
def INVALID_PAGE_ID : Int := -1

/-- A slot of an internal page: `std::pair<KeyType, page_id_t>`. -/
abbrev MappingType (K : Type) := K × Int

/-- An internal page: the header fields of `BPlusTreePage` that the code reads
or writes, and the slot array that follows the header. -/
structure BPlusTreeInternalPage (K : Type) where
  page_type : IndexPageType
  size : Int
  max_size : Int
  parent_page_id : Int
  page_id : Int
  array : Int → MappingType K

/-! ## Loops -/

/-- The loop `for (i = lo; ...; i++) s = body(i, s)` with `n` iterations left
and loop variable `i`. -/
def loopUp {σ : Type} (body : Int → σ → σ) : Nat → Int → σ → σ
  | 0, _, s => s
  | n + 1, i, s => loopUp body n (i + 1) (body i s)

/-- The loop `for (i = hi; ...; i--) s = body(i, s)` with `n` iterations left
and loop variable `i`. -/
def loopDown {σ : Type} (body : Int → σ → σ) : Nat → Int → σ → σ
  | 0, _, s => s
  | n + 1, i, s => loopDown body n (i - 1) (body i s)

/-- An ascending loop whose body may abort. -/
def loopUpM {σ : Type} (body : Int → σ → Option σ) : Nat → Int → σ → Option σ
  | 0, _, s => some s
  | n + 1, i, s =>
    match body i s with
    | none => none
    | some t => loopUpM body n (i + 1) t

/-! ## Header accessors and slot accessors -/

variable {K : Type}

/-- `GetSize()`. -/
def GetSize (p : BPlusTreeInternalPage K) : Int := p.size

/-- `SetSize(size)`. -/
def SetSize (p : BPlusTreeInternalPage K) (size : Int) : BPlusTreeInternalPage K :=
  { p with size := size }

/-- `IncreaseSize(amount)`. -/
def IncreaseSize (p : BPlusTreeInternalPage K) (amount : Int) : BPlusTreeInternalPage K :=
  { p with size := p.size + amount }

/-- `GetPageId()`. -/
def GetPageId (p : BPlusTreeInternalPage K) : Int := p.page_id

/-- `GetParentPageId()`. -/
def GetParentPageId (p : BPlusTreeInternalPage K) : Int := p.parent_page_id

/-- `SetParentPageId(parent_page_id)`. -/
def SetParentPageId (p : BPlusTreeInternalPage K) (parent_page_id : Int) :
    BPlusTreeInternalPage K :=
  { p with parent_page_id := parent_page_id }

/-- `KeyAt(index)`: `array[index].first`. -/
def KeyAt (p : BPlusTreeInternalPage K) (index : Int) : K := (p.array index).1

/-- `SetKeyAt(index, key)`: `array[index].first = key`. -/
def SetKeyAt (p : BPlusTreeInternalPage K) (index : Int) (key : K) :
    BPlusTreeInternalPage K :=
  { p with array := Function.update p.array index (key, (p.array index).2) }

/-- `ValueAt(index)`: `array[index].second`. -/
def ValueAt (p : BPlusTreeInternalPage K) (index : Int) : Int := (p.array index).2

/-- The search loop of `ValueIndex`: `n` slots left to inspect from slot `i`. -/
def valueIndexFrom (arr : Int → MappingType K) (value : Int) : Nat → Int → Int
  | 0, _ => -1
  | n + 1, i => if (arr i).2 = value then i else valueIndexFrom arr value n (i + 1)

/-- `ValueIndex(value)`: the first slot below `size` whose child is `value`,
or `-1`. -/
def ValueIndex (p : BPlusTreeInternalPage K) (value : Int) : Int :=
  valueIndexFrom p.array value (GetSize p).toNat 0

/-! ## Lookup -/

/-- `Lookup(key, comparator)`: scan slots `1 .. size - 1`, remember the last
slot whose key compares `<= 0` against `key`, return that slot's child. -/
def Lookup (p : BPlusTreeInternalPage K) (key : K) (comparator : K → K → Int) : Int :=
  let e := GetSize p
  let foundIndex :=
    loopUp (fun b found => if comparator (p.array b).1 key ≤ 0 then b else found)
      (e - 1).toNat 1 0
  (p.array foundIndex).2

/-! ## Init and insertion -/

/-- Sizes fixed at compile time by declarations outside the source file:
`PAGE_SIZE`, `sizeof(B_PLUS_TREE_INTERNAL_PAGE_TYPE)` (the header) and
`sizeof(MappingType)` (one slot), all in bytes. -/
structure Layout where
  PAGE_SIZE : Nat
  header_size : Nat
  slot_size : Nat

/-- Modulus of `size_t` arithmetic. -/
def SIZE_T_MOD : Nat := 2 ^ 64

/-- Conversion of an unsigned value to a 32-bit `int`. -/
def toInt32 (n : Nat) : Int :=
  if n % 2 ^ 32 < 2 ^ 31 then ((n % 2 ^ 32 : Nat) : Int) else ((n % 2 ^ 32 : Nat) : Int) - 2 ^ 32

/-- The initialiser of `Init`:
`int size = (PAGE_SIZE - sizeof(page)) / sizeof(MappingType) - 1`, evaluated in
`size_t` arithmetic and converted to `int`. -/
def initMaxSize (L : Layout) : Int :=
  toInt32
    (((L.PAGE_SIZE % SIZE_T_MOD + SIZE_T_MOD - L.header_size % SIZE_T_MOD) % SIZE_T_MOD /
        (L.slot_size % SIZE_T_MOD) + SIZE_T_MOD - 1) % SIZE_T_MOD)

/-- `Init(page_id, parent_id)`: sets the type, size 1, the two ids and the
maximal size; the slot array is left as it is. -/
def Init (L : Layout) (p : BPlusTreeInternalPage K) (page_id parent_id : Int) :
    BPlusTreeInternalPage K :=
  let p1 : BPlusTreeInternalPage K := { p with page_type := IndexPageType.INTERNAL_PAGE }
  let p2 := SetSize p1 1
  let p3 : BPlusTreeInternalPage K := { p2 with page_id := page_id }
  let p4 := SetParentPageId p3 parent_id
  { p4 with max_size := initMaxSize L }

/-- `PopulateNewRoot(old_value, new_key, new_value)`; `none` when
`assert(GetSize() == 1)` fails. -/
def PopulateNewRoot (p : BPlusTreeInternalPage K) (old_value : Int) (new_key : K)
    (new_value : Int) : Option (BPlusTreeInternalPage K) :=
  if GetSize p = 1 then
    let a1 := Function.update p.array 0 ((p.array 0).1, old_value)
    let a2 := Function.update a1 1 (new_key, (a1 1).2)
    let a3 := Function.update a2 1 ((a2 1).1, new_value)
    some (IncreaseSize { p with array := a3 } 1)
  else none

/-- `InsertNodeAfter(old_value, new_key, new_value)`: returns the new size and
the page; `none` when `assert(preIndex != -1)` fails. -/
def InsertNodeAfter (p : BPlusTreeInternalPage K) (old_value : Int) (new_key : K)
    (new_value : Int) : Option (Int × BPlusTreeInternalPage K) :=
  let preIndex := ValueIndex p old_value
  if preIndex = -1 then none
  else
    let a1 :=
      loopDown (fun i arr => Function.update arr i ((arr (i - 1)).1, (arr (i - 1)).2))
        (GetSize p - preIndex).toNat (GetSize p) p.array
    let a2 := Function.update a1 (preIndex + 1) (new_key, (a1 (preIndex + 1)).2)
    let a3 := Function.update a2 (preIndex + 1) ((a2 (preIndex + 1)).1, new_value)
    let p1 := IncreaseSize { p with array := a3 } 1
    some (GetSize p1, p1)

/-! ## Remove -/

/-- `Remove(index)`: shift the slots after `index` one place down, then
decrease the size by one. -/
def Remove (p : BPlusTreeInternalPage K) (index : Int) : BPlusTreeInternalPage K :=
  let a1 :=
    loopUp (fun i arr => Function.update arr i (arr (i + 1)))
      (GetSize p - 1 - index).toNat index p.array
  IncreaseSize { p with array := a1 } (-1)

/-- `RemoveAndReturnOnlyChild()`: returns the child and the page; `none` when
`assert(GetSize() == 2)` fails. -/
def RemoveAndReturnOnlyChild (p : BPlusTreeInternalPage K) :
    Option (Int × BPlusTreeInternalPage K) :=
  if GetSize p = 2 then
    let v := (p.array 1).2
    let a1 := Function.update p.array 1 ((p.array 1).1, INVALID_PAGE_ID)
    some (v, IncreaseSize { p with array := a1 } (-1))
  else none

/-- `PushUpIndex()`: returns the pair of slot 1 and the page after the pair's
child was stored in slot 0 and slot 1 removed. -/
def PushUpIndex (p : BPlusTreeInternalPage K) : MappingType K × BPlusTreeInternalPage K :=
  let pair := p.array 1
  let a1 := Function.update p.array 0 ((p.array 0).1, pair.2)
  (pair, Remove { p with array := a1 } 1)

/-! ## Copy helpers -/

/-- `CopyHalfFrom(items, size, bpm)`: `items[i]` goes to slot `1 + i`. -/
def CopyHalfFrom (p : BPlusTreeInternalPage K) (items : Int → MappingType K) (size : Int) :
    BPlusTreeInternalPage K :=
  let a1 := loopUp (fun i arr => Function.update arr (1 + i) (items i)) size.toNat 0 p.array
  IncreaseSize { p with array := a1 } size

/-- `CopyAllFrom(items, size, bpm)`: `items[i]` goes to slot `GetSize() + i`. -/
def CopyAllFrom (p : BPlusTreeInternalPage K) (items : Int → MappingType K) (size : Int) :
    BPlusTreeInternalPage K :=
  let startIndex := GetSize p
  let a1 :=
    loopUp (fun i arr => Function.update arr (startIndex + i) (items i)) size.toNat 0 p.array
  IncreaseSize { p with array := a1 } size

/-- `CopyLastFrom(pair, bpm)`: `pair` goes to slot `GetSize()`. -/
def CopyLastFrom (p : BPlusTreeInternalPage K) (pair : MappingType K) :
    BPlusTreeInternalPage K :=
  IncreaseSize { p with array := Function.update p.array (GetSize p) pair } 1

/-- `CopyFirstFrom(pair, parent_index, bpm)`: shift every slot one place up and
store `pair` in slot 0. -/
def CopyFirstFrom (p : BPlusTreeInternalPage K) (pair : MappingType K) :
    BPlusTreeInternalPage K :=
  let a1 :=
    loopDown (fun i arr => Function.update arr i (arr (i - 1))) (GetSize p).toNat (GetSize p)
      p.array
  IncreaseSize { p with array := Function.update a1 0 pair } 1

/-! ## Buffer pool -/

/-- Modelled from the spec: a frame of the buffer pool manager, which is
implemented outside `b_plus_tree_internal_page.cpp`: the page it holds (read
through the tree-page header and slot layout), its pin count and its dirty
flag. -/
structure Frame (K : Type) where
  data : BPlusTreeInternalPage K
  pin_count : Int
  is_dirty : Bool

/-- Modelled from the spec: the buffer pool manager as a map from page id to
the frame holding that page; `none` for a page that `FetchPage` cannot
provide (it returns `nullptr`). -/
abbrev BufferPoolManager (K : Type) := Int → Option (Frame K)

/-- Modelled from the spec: `FetchPage(page_id)`; a successful fetch increments
the pin count and hands out the page, whose `Page::GetPageId()` is `page_id`;
`none` stands for `nullptr`. -/
def FetchPage (bpm : BufferPoolManager K) (page_id : Int) :
    Option (BPlusTreeInternalPage K × BufferPoolManager K) :=
  match bpm page_id with
  | none => none
  | some f =>
    some (f.data, Function.update bpm page_id (some { f with pin_count := f.pin_count + 1 }))

/-- Modelled from the spec: `UnpinPage(page_id, is_dirty)` decrements the pin
count and ORs the dirty flag. -/
def UnpinPage (bpm : BufferPoolManager K) (page_id : Int) (is_dirty : Bool) :
    BufferPoolManager K :=
  match bpm page_id with
  | none => bpm
  | some f =>
    Function.update bpm page_id
      (some { f with pin_count := f.pin_count - 1, is_dirty := f.is_dirty || is_dirty })

/-- A write through the pointer `page->GetData()` of the fetched page
`page_id`: the page held by the frame becomes `g` of it. -/
def writePage (bpm : BufferPoolManager K) (page_id : Int)
    (g : BPlusTreeInternalPage K → BPlusTreeInternalPage K) : BufferPoolManager K :=
  match bpm page_id with
  | none => bpm
  | some f => Function.update bpm page_id (some { f with data := g f.data })

/-- The sequence every move method runs on a child:
`page = FetchPage(child); node = page->GetData();
node->SetParentPageId(parent); UnpinPage(child, true)`;
`none` when the fetch gives `nullptr`, which the code dereferences. -/
def fetchSetParentUnpin (bpm : BufferPoolManager K) (child parent : Int) :
    Option (BufferPoolManager K) :=
  match FetchPage bpm child with
  | none => none
  | some (_, b1) =>
    some (UnpinPage (writePage b1 child (fun node => SetParentPageId node parent)) child true)

/-- What the fetch / set parent / unpin sequence leaves in the frame of a
child: the parent id is the new one, the pin count is back to its old value,
the frame is dirty. -/
def reparented (parent : Int) (f : Frame K) : Frame K :=
  ⟨SetParentPageId f.data parent, f.pin_count, true⟩

/-! ## Split, merge and redistribution

The donor (`this`) and the recipient are held by the caller and are passed and
returned next to the pool, which holds the pages reached through `FetchPage`
(the children and the parent). -/

/-- Result of a move method: the donor (`this`), the recipient and the pool. -/
structure MoveResult (K : Type) where
  self : BPlusTreeInternalPage K
  recipient : BPlusTreeInternalPage K
  bpm : BufferPoolManager K

/-- `MoveHalfTo(recipient, bpm)`. -/
def MoveHalfTo (self recipient : BPlusTreeInternalPage K) (bpm : BufferPoolManager K) :
    Option (MoveResult K) :=
  let splitIndex := Int.tdiv (GetSize self + 1) 2
  let recipient1 :=
    CopyHalfFrom recipient (fun i => self.array (splitIndex + i)) (GetSize self - splitIndex)
  match
    loopUpM (fun i b => fetchSetParentUnpin b (ValueAt self i) (GetPageId recipient1))
      (GetSize self - splitIndex).toNat splitIndex bpm with
  | none => none
  | some b1 => some ⟨IncreaseSize self (-1 * (GetSize self - splitIndex)), recipient1, b1⟩

/-- `MoveAllTo(recipient, index_in_parent, bpm)`; `none` also when
`assert(parentNode->ValueAt(index_in_parent) == GetPageId())` fails. -/
def MoveAllTo (self recipient : BPlusTreeInternalPage K) (index_in_parent : Int)
    (bpm : BufferPoolManager K) : Option (MoveResult K) :=
  match FetchPage bpm (GetParentPageId self) with
  | none => none
  | some (parentNode, b1) =>
    if ValueAt parentNode index_in_parent = GetPageId self then
      let b2 := UnpinPage b1 (GetParentPageId self) true
      let recipient1 := CopyAllFrom recipient (fun i => self.array (0 + i)) (GetSize self)
      match
        loopUpM (fun i b => fetchSetParentUnpin b (ValueAt self i) (GetPageId recipient1))
          (GetSize self).toNat 0 b2 with
      | none => none
      | some b3 => some ⟨SetSize self 0, recipient1, b3⟩
    else none

/-- `MoveFirstToEndOf(recipient, bpm)`. -/
def MoveFirstToEndOf (self recipient : BPlusTreeInternalPage K) (bpm : BufferPoolManager K) :
    Option (MoveResult K) :=
  let recipient1 := CopyLastFrom recipient (self.array 0)
  match fetchSetParentUnpin bpm (self.array 0).2 (GetPageId recipient1) with
  | none => none
  | some b1 =>
    let self1 := Remove self 0
    match FetchPage b1 (GetParentPageId self1) with
    | none => none
    | some (parentNode, b2) =>
      let ourPageIdInParentIndex := ValueIndex parentNode (GetPageId self1)
      let b3 :=
        writePage b2 (GetParentPageId self1)
          (fun node => SetKeyAt node ourPageIdInParentIndex (KeyAt self1 0))
      some ⟨self1, recipient1, UnpinPage b3 (GetParentPageId self1) true⟩

/-- `MoveLastToFrontOf(recipient, parent_index, bpm)`. -/
def MoveLastToFrontOf (self recipient : BPlusTreeInternalPage K) (parent_index : Int)
    (bpm : BufferPoolManager K) : Option (MoveResult K) :=
  let pair := self.array (GetSize self - 1)
  let recipient1 := CopyLastFrom recipient pair
  match fetchSetParentUnpin bpm pair.2 (GetPageId recipient1) with
  | none => none
  | some b1 =>
    match FetchPage b1 (GetParentPageId self) with
    | none => none
    | some (_, b2) =>
      let b3 := writePage b2 (GetParentPageId self) (fun node => SetKeyAt node parent_index pair.1)
      let b4 := UnpinPage b3 (GetParentPageId self) true
      let self1 := Remove self (GetSize self - 1)
      some ⟨IncreaseSize self1 (-1), recipient1, b4⟩

/-! ## Vocabulary of the statements -/

/-- The `parent_page_id` stored in the page `q` of the pool, when the pool
provides that page. -/
def parentOf (bpm : BufferPoolManager K) (q : Int) : Option Int :=
  (bpm q).map (fun f => GetParentPageId f.data)

/-- The frame of the parent page after a move method fetched it, wrote `g` to
it and unpinned it as dirty. -/
def rewritten (g : BPlusTreeInternalPage K → BPlusTreeInternalPage K) (f : Frame K) : Frame K :=
  ⟨g f.data, f.pin_count, true⟩

/-- Child ids pairwise distinct: no two occupied slots of the donor hold the
same child, and no occupied slot of the donor holds a child that an occupied
slot of the recipient holds. -/
def childrenDistinct (self recipient : BPlusTreeInternalPage K) : Prop :=
  (∀ i j, 0 ≤ i → i < self.size → 0 ≤ j → j < self.size →
    (self.array i).2 = (self.array j).2 → i = j) ∧
  (∀ i j, 0 ≤ i → i < self.size → 0 ≤ j → j < recipient.size →
    (self.array i).2 ≠ (recipient.array j).2)

/-! ## Sample data -/

/-- A page of size 4: children 100..103, keys 10, 20, 30 in slots 1..3. -/
def samplePage : BPlusTreeInternalPage Int :=
  ⟨IndexPageType.INTERNAL_PAGE, 4, 8, 1, 7,
    fun i => if i = 1 then (10, 101) else if i = 2 then (20, 102)
      else if i = 3 then (30, 103) else (0, 100)⟩

/-- The comparator of the samples: the sign of `a - b`. -/
def sampleComparator (a b : Int) : Int := a - b

/-- The byte sizes of the 8-byte-key instantiation: 4096-byte pages, a 24-byte
header, 12-byte slots. -/
def sampleLayout : Layout := ⟨4096, 24, 12⟩

/-- A page whose memory was never written: every field zero. -/
def blankPage : BPlusTreeInternalPage Int :=
  ⟨IndexPageType.INVALID_INDEX_PAGE, 0, 0, 0, 0, fun _ => (0, 0)⟩

/-- The parent of the sample pages: page 1, a root of size 3 whose slots hold
the children 6, 7 and 8 with the separators 40 (for page 7) and 80. -/
def sampleParent : BPlusTreeInternalPage Int :=
  ⟨IndexPageType.INTERNAL_PAGE, 3, 8, -1, 1,
    fun i => if i = 1 then (40, 7) else if i = 2 then (80, 8) else (0, 6)⟩

/-- The left sibling of the sample page: page 6, of size 2, children 90, 91. -/
def sampleSibling : BPlusTreeInternalPage Int :=
  ⟨IndexPageType.INTERNAL_PAGE, 2, 8, 1, 6,
    fun i => if i = 1 then (5, 91) else (0, 90)⟩

/-- The right sibling of the sample page: page 8, of size 2, children 110,
111. -/
def sampleRightSibling : BPlusTreeInternalPage Int :=
  ⟨IndexPageType.INTERNAL_PAGE, 2, 8, 1, 8,
    fun i => if i = 1 then (90, 111) else (0, 110)⟩

/-- A pool providing the pages 1..200 and no other page: page 1 is
`sampleParent`; a page `i` from 2 to 200 has id `i` and no slots, and its
parent is page 6 for `i` in 90..99, page 8 for `i` in 110..119 and page 7
otherwise; every frame has pin count 1 and is clean. -/
def samplePool : BufferPoolManager Int :=
  fun i =>
    if i = 1 then some ⟨sampleParent, 1, false⟩
    else if 2 ≤ i ∧ i ≤ 200 then
      some ⟨⟨IndexPageType.INTERNAL_PAGE, 0, 8,
        if 90 ≤ i ∧ i ≤ 99 then 6 else if 110 ≤ i ∧ i ≤ 119 then 8 else 7, i,
        fun _ => (0, 0)⟩, 1, false⟩
    else none

/-- A root of size 1: only the dummy slot 0, whose child is page 7. -/
def onlyChildRoot : BPlusTreeInternalPage Int :=
  ⟨IndexPageType.INTERNAL_PAGE, 1, 8, -1, 1, fun _ => (0, 7)⟩

/-- A root of size 2: the dummy slot 0 with child 6 and the pair (40, 7) in
slot 1. -/
def twoSlotRoot : BPlusTreeInternalPage Int :=
  ⟨IndexPageType.INTERNAL_PAGE, 2, 8, -1, 1, fun i => if i = 1 then (40, 7) else (0, 6)⟩

/-- An overflowing page: `max_size` 3 and size 4, the slots of `samplePage`. -/
def overflowPage : BPlusTreeInternalPage Int :=
  ⟨IndexPageType.INTERNAL_PAGE, 4, 3, 1, 7, samplePage.array⟩

/-! ## Write-ahead log records

The log manager, the table heap and the recovery manager are exercised by
`log_manager_test.cpp` and implemented elsewhere; the definitions of this part
and of the next follow the specification of the engine. -/

/-- The reserved log sequence number. -/
def INVALID_LSN : Int := -1

/-- Modelled from the spec: a record id, `(page_id, slot)`, locating a tuple on
a heap page. -/
structure RID where
  page_id : Int
  slot_num : Int
  deriving DecidableEq

/-- Modelled from the spec: a tuple as the log and the heap see it, its
bytes. -/
abbrev Tuple := List Nat

/-- Modelled from the spec: the type of a log record with the payload of that
type, as listed in the table of log record payloads. -/
inductive LogBody where
  | BEGIN
  | COMMIT
  | ABORT
  | NEWPAGE (prev_page_id : Int)
  | INSERT (rid : RID) (tuple : Tuple)
  | APPLYDELETE (rid : RID) (tuple : Tuple)
  | MARKDELETE (rid : RID)
  | ROLLBACKDELETE (rid : RID)
  | UPDATE (rid : RID) (old_tuple new_tuple : Tuple)
  deriving DecidableEq

/-- Modelled from the spec: a log record; the common fields `lsn`, `txn_id`
and `prev_lsn` and the typed payload (the fields `size` and `type` of the
common part are functions of the payload). -/
structure LogRecord where
  lsn : Int
  txn_id : Int
  prev_lsn : Int
  body : LogBody
  deriving DecidableEq

/-- Modelled from the spec: the common part of a serialised record, five
4-byte fields `size`, `lsn`, `txn_id`, `prev_lsn`, `type`. -/
def HEADER_SIZE : Nat := 20

/-- Modelled from the spec: bytes of the payload: a page id is 4 bytes, a
record id 8 bytes, a tuple is its 4-byte size followed by its bytes. -/
def payloadSize : LogBody → Nat
  | LogBody.BEGIN => 0
  | LogBody.COMMIT => 0
  | LogBody.ABORT => 0
  | LogBody.NEWPAGE _ => 4
  | LogBody.INSERT _ t => 8 + (4 + t.length)
  | LogBody.APPLYDELETE _ t => 8 + (4 + t.length)
  | LogBody.MARKDELETE _ => 8
  | LogBody.ROLLBACKDELETE _ => 8
  | LogBody.UPDATE _ o n => 8 + (4 + o.length) + (4 + n.length)

/-- Modelled from the spec: the `size` field of a record, its total bytes
including the common part. -/
def recordSize (r : LogRecord) : Nat := HEADER_SIZE + payloadSize r.body

/-- Modelled from the spec: a 4-byte field, little-endian two's complement. -/
def encodeInt32 (v : Int) : List Nat :=
  [(v % 2 ^ 32).toNat % 256, (v % 2 ^ 32).toNat / 256 % 256,
    (v % 2 ^ 32).toNat / 65536 % 256, (v % 2 ^ 32).toNat / 16777216 % 256]

/-- Modelled from the spec: the 8 bytes of a record id. -/
def encodeRID (rid : RID) : List Nat := encodeInt32 rid.page_id ++ encodeInt32 rid.slot_num

/-- Modelled from the spec: a tuple in a payload, `tuple_size` then
`tuple_bytes`. -/
def encodeTuple (t : Tuple) : List Nat := encodeInt32 t.length ++ t

/-- Modelled from the spec: the serialised payload of a record. -/
def encodePayload : LogBody → List Nat
  | LogBody.BEGIN => []
  | LogBody.COMMIT => []
  | LogBody.ABORT => []
  | LogBody.NEWPAGE prev_page_id => encodeInt32 prev_page_id
  | LogBody.INSERT rid t => encodeRID rid ++ encodeTuple t
  | LogBody.APPLYDELETE rid t => encodeRID rid ++ encodeTuple t
  | LogBody.MARKDELETE rid => encodeRID rid
  | LogBody.ROLLBACKDELETE rid => encodeRID rid
  | LogBody.UPDATE rid o n => encodeRID rid ++ encodeTuple o ++ encodeTuple n

/-- Modelled from the spec: a serialised record: `size`, `lsn`, `txn_id`,
`prev_lsn`, `type`, then the payload; `typeCode` numbers the record types. -/
def serializeRecord (typeCode : LogBody → Int) (r : LogRecord) : List Nat :=
  encodeInt32 (recordSize r) ++ encodeInt32 r.lsn ++ encodeInt32 r.txn_id ++
    encodeInt32 r.prev_lsn ++ encodeInt32 (typeCode r.body) ++ encodePayload r.body

/-- Modelled from the spec: the log file, the serialised records one after the
other from byte offset 0. -/
def serializeLog (typeCode : LogBody → Int) : List LogRecord → List Nat
  | [] => []
  | r :: rs => serializeRecord typeCode r ++ serializeLog typeCode rs

/-- Modelled from the spec: the byte offset at which each record of the log
starts, the first at `start`. -/
def recordOffsets : Nat → List LogRecord → List Nat
  | _, [] => []
  | start, r :: rs => start :: recordOffsets (start + recordSize r) rs

/-- The read of the test, `*reinterpret_cast<int32_t *>(buffer + offset)`, on
the bytes that `ReadLog(buffer, PAGE_SIZE, 0)` delivered. -/
def readInt32 (buffer : List Nat) (offset : Nat) : Int :=
  match buffer.drop offset with
  | b0 :: b1 :: b2 :: b3 :: _ => toInt32 (b0 + 256 * b1 + 65536 * b2 + 16777216 * b3)
  | _ => 0

/-- The log of a fresh database whose first transaction begins, creates the
first page of the table and inserts `tuple` at `rid`: the records get the
LSNs 0, 1, 2 and are chained through `prev_lsn`. -/
def firstInsertLog (txn_id : Int) (rid : RID) (tuple : Tuple) : List LogRecord :=
  [⟨0, txn_id, INVALID_LSN, LogBody.BEGIN⟩,
    ⟨1, txn_id, 0, LogBody.NEWPAGE INVALID_PAGE_ID⟩,
    ⟨2, txn_id, 1, LogBody.INSERT rid tuple⟩]

/-! ## Heap pages and recovery -/

/-- Modelled from the spec: a slot of a heap page: no tuple, a tuple, or a
tuple marked as deleted by `mark_delete`. -/
inductive Slot where
  | empty
  | live (t : Tuple)
  | marked (t : Tuple)
  deriving DecidableEq

/-- Modelled from the spec: a heap page: the LSN of the last update that
modified it, the forward pointer of the page chain, the slots. -/
structure TablePage where
  lsn : Int
  next_page_id : Int
  slots : Int → Slot

/-- Modelled from the spec: the pages of the data file as recovery fetches
them, by page id. -/
abbrev Disk := Int → TablePage

/-- A page that was never written. -/
def freshPage : TablePage := ⟨INVALID_LSN, INVALID_PAGE_ID, fun _ => Slot.empty⟩

/-- The data file of a fresh database. -/
def freshDisk : Disk := fun _ => freshPage

/-- Modelled from the spec: `mark_delete` on a slot. -/
def markDelete : Slot → Slot
  | Slot.live t => Slot.marked t
  | s => s

/-- Modelled from the spec: `rollback_delete` on a slot. -/
def rollbackDelete : Slot → Slot
  | Slot.marked t => Slot.live t
  | s => s

/-- Modelled from the spec: reinstalling a tuple image in a slot that holds a
tuple. -/
def reinstall (image : Tuple) : Slot → Slot
  | Slot.live _ => Slot.live image
  | Slot.marked _ => Slot.marked image
  | Slot.empty => Slot.empty

/-- The record id a record acts on, for the tuple records. -/
def ridOf : LogBody → Option RID
  | LogBody.INSERT rid _ => some rid
  | LogBody.APPLYDELETE rid _ => some rid
  | LogBody.MARKDELETE rid => some rid
  | LogBody.ROLLBACKDELETE rid => some rid
  | LogBody.UPDATE rid _ _ => some rid
  | _ => none

/-- Modelled from the spec: the action of redo on the slot of a tuple record:
re-insert the tuple, re-apply the delete or the mark, reinstall the new
image. -/
def redoSlot : LogBody → Slot → Slot
  | LogBody.INSERT _ t, _ => Slot.live t
  | LogBody.APPLYDELETE _ _, _ => Slot.empty
  | LogBody.MARKDELETE _, s => markDelete s
  | LogBody.ROLLBACKDELETE _, s => rollbackDelete s
  | LogBody.UPDATE _ _ n, s => reinstall n s
  | _, s => s

/-- Modelled from the spec: the compensating action of undo on the slot of a
tuple record: delete the inserted tuple, restore the deleted tuple (as
`apply_delete` found it, marked), take the mark back or set it again,
reinstall the old image. -/
def undoSlot : LogBody → Slot → Slot
  | LogBody.INSERT _ _, _ => Slot.empty
  | LogBody.APPLYDELETE _ t, _ => Slot.marked t
  | LogBody.MARKDELETE _, s => rollbackDelete s
  | LogBody.ROLLBACKDELETE _, s => markDelete s
  | LogBody.UPDATE _ o _, s => reinstall o s
  | _, s => s

/-- A write to the slot `rid` of the data file. -/
def setSlot (d : Disk) (rid : RID) (f : Slot → Slot) : Disk :=
  Function.update d rid.page_id
    { d rid.page_id with
      slots := Function.update (d rid.page_id).slots rid.slot_num
        (f ((d rid.page_id).slots rid.slot_num)) }

/-- A write to the `next_page_id` of page `p`. -/
def setNext (d : Disk) (p next : Int) : Disk :=
  Function.update d p { d p with next_page_id := next }

/-- A write to the LSN of page `p`. -/
def setLsn (d : Disk) (p lsn : Int) : Disk :=
  Function.update d p { d p with lsn := lsn }

/-- Modelled from the spec: the page a record updates: the page of its record
id, for `NEWPAGE` the page it announces. The record stores only
`prev_page_id`; `newPageId lsn` is the id that `allocate_page` gave to the page
announced by the record with that LSN. -/
def targetPage (newPageId : Int → Int) (r : LogRecord) : Option Int :=
  match r.body with
  | LogBody.NEWPAGE _ => some (newPageId r.lsn)
  | b => (ridOf b).map (fun rid => rid.page_id)

/-- Modelled from the spec: the action of a record on the data file, without
the LSN: the slot action of a tuple record; for `NEWPAGE`, threading the new
page into its predecessor's next pointer. -/
def redoAction (newPageId : Int → Int) (r : LogRecord) (d : Disk) : Disk :=
  match r.body with
  | LogBody.NEWPAGE prev_page_id =>
    if prev_page_id = INVALID_PAGE_ID then d else setNext d prev_page_id (newPageId r.lsn)
  | b =>
    match ridOf b with
    | some rid => setSlot d rid (redoSlot b)
    | none => d

/-- Modelled from the spec: the effect of a logged update in normal operation:
the action, and the page's LSN becomes the record's. -/
def applyRecord (newPageId : Int → Int) (r : LogRecord) (d : Disk) : Disk :=
  match targetPage newPageId r with
  | some p => setLsn (redoAction newPageId r d) p r.lsn
  | none => d

/-- Modelled from the spec: redo of one record: fetch the page; if
`page.lsn < record.lsn` apply the action and set `page.lsn = record.lsn`,
otherwise skip. -/
def redoRecord (newPageId : Int → Int) (r : LogRecord) (d : Disk) : Disk :=
  match targetPage newPageId r with
  | some p => if (d p).lsn < r.lsn then setLsn (redoAction newPageId r d) p r.lsn else d
  | none => d

/-- Modelled from the spec: the tables of the analysis phase: the active
transaction table `txn_id → lastLSN` and the dirty page table
`page_id → recLSN`. -/
structure AnalysisTables where
  att : List (Int × Int)
  dpt : List (Int × Int)

/-- Whether a record ends its transaction. -/
def endsTransaction : LogBody → Bool
  | LogBody.COMMIT => true
  | LogBody.ABORT => true
  | _ => false

/-- Modelled from the spec: one step of the analysis scan: the record's
transaction enters the ATT with `lastLSN` the record's LSN, or leaves it on
`COMMIT` / `ABORT`; the page of a mutation record enters the DPT with
`recLSN` the record's LSN unless it is there already. -/
def analysisStep (newPageId : Int → Int) (t : AnalysisTables) (r : LogRecord) :
    AnalysisTables :=
  { att :=
      if endsTransaction r.body then t.att.filter (fun e => e.1 ≠ r.txn_id)
      else (r.txn_id, r.lsn) :: t.att.filter (fun e => e.1 ≠ r.txn_id)
    dpt :=
      match targetPage newPageId r with
      | some p => if t.dpt.any (fun e => e.1 = p) then t.dpt else t.dpt ++ [(p, r.lsn)]
      | none => t.dpt }

/-- Modelled from the spec: the analysis phase, a forward scan of the log. -/
def Analysis (newPageId : Int → Int) (log : List LogRecord) : AnalysisTables :=
  log.foldl (analysisStep newPageId) ⟨[], []⟩

/-- Modelled from the spec: `min(recLSN across DPT)`, where redo starts. -/
def redoStart : List (Int × Int) → Option Int
  | [] => none
  | e :: es =>
    match redoStart es with
    | none => some e.2
    | some m => some (min e.2 m)

/-- Modelled from the spec: the redo phase: scan forward from the smallest
`recLSN` of the DPT and redo each record. -/
def Redo (newPageId : Int → Int) (log : List LogRecord) (d : Disk) : Disk :=
  match redoStart (Analysis newPageId log).dpt with
  | none => d
  | some start =>
    (log.filter (fun r => start ≤ r.lsn)).foldl (fun d r => redoRecord newPageId r d) d

/-- Modelled from the spec: the compensating action of a record on the data
file: the slot compensation of a tuple record; for `NEWPAGE`, unlinking the
page from its predecessor. Undo writes no log record and no LSN. -/
def undoAction (r : LogRecord) (d : Disk) : Disk :=
  match r.body with
  | LogBody.NEWPAGE prev_page_id =>
    if prev_page_id = INVALID_PAGE_ID then d else setNext d prev_page_id INVALID_PAGE_ID
  | b =>
    match ridOf b with
    | some rid => setSlot d rid (undoSlot b)
    | none => d

/-- The record of the log with a given LSN. -/
def findRecord (log : List LogRecord) (lsn : Int) : Option LogRecord :=
  log.find? (fun r => r.lsn = lsn)

/-- Modelled from the spec: the walk of undo along one transaction's
`prev_lsn` chain, from `lsn` backward, compensating each record; `fuel`
bounds the number of records visited. -/
def undoChain (log : List LogRecord) : Nat → Int → Disk → Disk
  | 0, _, d => d
  | fuel + 1, lsn, d =>
    match findRecord log lsn with
    | none => d
    | some r => undoChain log fuel r.prev_lsn (undoAction r d)

/-- Modelled from the spec: the undo phase: for each loser of the ATT, walk its
chain from `lastLSN` backward. A chain has at most as many records as the
log. -/
def Undo (newPageId : Int → Int) (log : List LogRecord) (d : Disk) : Disk :=
  (Analysis newPageId log).att.foldl (fun d e => undoChain log log.length e.2 d) d

/-- Modelled from the spec: `get_tuple(rid, out)`: the tuple of the slot, or
`NotFound` (`none`) when the slot holds no tuple or a tuple marked deleted. -/
def GetTuple (d : Disk) (rid : RID) : Option Tuple :=
  match (d rid.page_id).slots rid.slot_num with
  | Slot.live t => some t
  | _ => none

/-- Modelled from the spec: the data file found at restart after a crash with
durable log `log`: page `p` was last written to disk when it reflected the
records up to LSN `cut p` (write-ahead logging: those records are durable),
so it holds the effect of exactly the records of the log that update it and
have an LSN of at most `cut p`. -/
def crashImage (newPageId : Int → Int) (cut : Int → Int) (log : List LogRecord) : Disk :=
  log.foldl
    (fun d r =>
      match targetPage newPageId r with
      | some p => if r.lsn ≤ cut p then applyRecord newPageId r d else d
      | none => d)
    freshDisk

/-- The last LSN a transaction wrote in a stretch of the log, `INVALID_LSN`
when it wrote none. -/
def lastLsnOf (txn_id : Int) (log : List LogRecord) : Int :=
  match (log.filter (fun r => r.txn_id = txn_id)).getLast? with
  | some r => r.lsn
  | none => INVALID_LSN

/-- The `prev_lsn` discipline of the transaction manager on the records
`rest` that follow the records `pre`: each record's `prev_lsn` is the LSN of
the record its transaction wrote before it, `INVALID_LSN` for the first. -/
def chainedAfter (pre : List LogRecord) : List LogRecord → Bool
  | [] => true
  | r :: rs => decide (r.prev_lsn = lastLsnOf r.txn_id pre) && chainedAfter (pre ++ [r]) rs

/-- A log as the log manager writes it: LSNs are non-negative and strictly
increasing, and the records of each transaction are chained through
`prev_lsn`. -/
def wellFormedLog (log : List LogRecord) : Prop :=
  log.Pairwise (fun a b => a.lsn < b.lsn) ∧ (∀ r ∈ log, 0 ≤ r.lsn) ∧ chainedAfter [] log = true

/-- The transaction `txn_id` committed before the crash: the last record it
wrote to the log is its `COMMIT` record. -/
def committedIn (log : List LogRecord) (txn_id : Int) : Prop :=
  ∃ c, (log.filter (fun r => r.txn_id = txn_id)).getLast? = some c ∧ c.body = LogBody.COMMIT

/-- The transaction `txn_id` had not finished at the crash: the log holds
neither a `COMMIT` nor an `ABORT` record of it. -/
def unfinishedIn (log : List LogRecord) (txn_id : Int) : Prop :=
  ∀ r ∈ log, r.txn_id = txn_id → endsTransaction r.body = false

/-- The transaction `txn_id` finished before the crash: the last record it
wrote to the log is its `COMMIT` or its `ABORT` record. -/
def finishedIn (log : List LogRecord) (txn_id : Int) : Prop :=
  ∃ c, (log.filter (fun r => r.txn_id = txn_id)).getLast? = some c ∧
    endsTransaction c.body = true

/-- The records of the log that act on the slot `rid`, in log order. -/
def recordsOn (log : List LogRecord) (rid : RID) : List LogRecord :=
  log.filter (fun r => ridOf r.body = some rid)

/-- Modelled from the spec: whether the table operation that writes a record
can take place on a slot: `insert_tuple` fills an empty slot, `mark_delete`
marks a tuple, `apply_delete` removes the marked tuple whose image it logs,
`rollback_delete` unmarks a marked tuple, `update_tuple` replaces the tuple
whose old image it logs. -/
def applicable : LogBody → Slot → Bool
  | LogBody.INSERT _ _, s => decide (s = Slot.empty)
  | LogBody.MARKDELETE _, Slot.live _ => true
  | LogBody.MARKDELETE _, _ => false
  | LogBody.APPLYDELETE _ t, s => decide (s = Slot.marked t)
  | LogBody.ROLLBACKDELETE _, Slot.marked _ => true
  | LogBody.ROLLBACKDELETE _, _ => false
  | LogBody.UPDATE _ o _, s => decide (s = Slot.live o)
  | _, _ => true

/-- The records `rs`, written one after the other on a slot that holds `s`,
each record by an operation that could take place. -/
def validFrom : Slot → List LogRecord → Bool
  | _, [] => true
  | s, r :: rs => applicable r.body s && validFrom (redoSlot r.body s) rs

/-- The slot after the records `rs` were applied to the empty slot of a fresh
page. -/
def slotAfter (rs : List LogRecord) : Slot :=
  rs.foldl (fun s r => redoSlot r.body s) Slot.empty

/-! ## Vocabulary of the recovery statements -/

/-- The slot `rid` of the data file. -/
def slotAt (d : Disk) (rid : RID) : Slot := (d rid.page_id).slots rid.slot_num

/-- The slots of page `p` after the action of a record with payload `b`. -/
def slotsAfter (p : Int) (b : LogBody) (slots : Int → Slot) : Int → Slot :=
  match ridOf b with
  | some rid =>
    if rid.page_id = p then
      Function.update slots rid.slot_num (redoSlot b (slots rid.slot_num))
    else slots
  | none => slots

/-- The LSN and the slots of page `p` after `applyRecord`, as a function of its
LSN and slots before. -/
def applyLocal (newPageId : Int → Int) (p : Int) (v : Int × (Int → Slot)) (r : LogRecord) :
    Int × (Int → Slot) :=
  if targetPage newPageId r = some p then (r.lsn, slotsAfter p r.body v.2) else v

/-- The LSN and the slots of page `p` after `redoRecord`. -/
def redoLocal (newPageId : Int → Int) (p : Int) (v : Int × (Int → Slot)) (r : LogRecord) :
    Int × (Int → Slot) :=
  if targetPage newPageId r = some p ∧ v.1 < r.lsn then (r.lsn, slotsAfter p r.body v.2) else v

/-- The LSN and the slots of page `p` after a step of `crashImage` with the
page written up to LSN `c`. -/
def imageLocal (newPageId : Int → Int) (p c : Int) (v : Int × (Int → Slot)) (r : LogRecord) :
    Int × (Int → Slot) :=
  if targetPage newPageId r = some p ∧ r.lsn ≤ c then (r.lsn, slotsAfter p r.body v.2) else v

/-- The LSN and the slots of page `p` of the data file. -/
def pageView (d : Disk) (p : Int) : Int × (Int → Slot) := ((d p).lsn, (d p).slots)

/-- The records that `undoChain` visits, in the order of the visit. -/
def chainRecords (log : List LogRecord) : Nat → Int → List LogRecord
  | 0, _ => []
  | fuel + 1, lsn =>
    match findRecord log lsn with
    | none => []
    | some r => r :: chainRecords log fuel r.prev_lsn

/-- The history of the log replayed on the fresh data file: every logged
update applied in log order. -/
def replay (newPageId : Int → Int) (log : List LogRecord) : Disk :=
  log.foldl (fun d r => applyRecord newPageId r d) freshDisk

/-! ## Sample logs -/

/-- The record id of the samples: slot 0 of page 0. -/
def sampleRid : RID := ⟨0, 0⟩

/-- The tuple of the samples, three bytes. -/
def sampleTuple : Tuple := [7, 8, 9]

/-- The log of the redo test: transaction 0 begins, creates the first page,
inserts the sample tuple and commits. -/
def committedInsertLog : List LogRecord :=
  [⟨0, 0, INVALID_LSN, LogBody.BEGIN⟩,
    ⟨1, 0, 0, LogBody.NEWPAGE INVALID_PAGE_ID⟩,
    ⟨2, 0, 1, LogBody.INSERT sampleRid sampleTuple⟩,
    ⟨3, 0, 2, LogBody.COMMIT⟩]

/-- The log of the two undo tests in one: after the committed insert of
transaction 0, transaction 1 begins, inserts a tuple in slot 1, mark-deletes
and apply-deletes the tuple of transaction 0, and has not committed at the
crash. -/
def loserLog : List LogRecord :=
  committedInsertLog ++
    [⟨4, 1, INVALID_LSN, LogBody.BEGIN⟩,
      ⟨5, 1, 4, LogBody.INSERT ⟨0, 1⟩ [1, 2]⟩,
      ⟨6, 1, 5, LogBody.MARKDELETE sampleRid⟩,
      ⟨7, 1, 6, LogBody.APPLYDELETE sampleRid sampleTuple⟩]

/-- A log in which, after the committed insert of transaction 0, transaction
1 mark-deletes the tuple, rolls the mark back and aborts, and transaction 2
mark-deletes the tuple and has not finished at the crash. -/
def abortedDeleteLog : List LogRecord :=
  committedInsertLog ++
    [⟨4, 1, INVALID_LSN, LogBody.BEGIN⟩,
      ⟨5, 1, 4, LogBody.MARKDELETE sampleRid⟩,
      ⟨6, 1, 5, LogBody.ROLLBACKDELETE sampleRid⟩,
      ⟨7, 1, 6, LogBody.ABORT⟩,
      ⟨8, 2, INVALID_LSN, LogBody.BEGIN⟩,
      ⟨9, 2, 8, LogBody.MARKDELETE sampleRid⟩]

/-! ## Ordered keys, pool observations and `QueueUpChildren` -/

/-- A three-way comparator (negative: less, zero: equal, positive: greater)
that is a strict total order: a key compares equal to itself, swapping the
arguments swaps the sign, "less" is transitive, and two keys that compare
equal are the same key. -/
def strictTotalOrder (comparator : K → K → Int) : Prop :=
  (∀ a, comparator a a = 0) ∧
  (∀ a b, comparator a b < 0 ↔ 0 < comparator b a) ∧
  (∀ a b c, comparator a b < 0 → comparator b c < 0 → comparator a c < 0) ∧
  (∀ a b, comparator a b = 0 → a = b)

/-- The keys of the slots `1 .. size - 1` are strictly ascending under the
comparator (slot 0 holds no key). -/
def keysAscending (p : BPlusTreeInternalPage K) (comparator : K → K → Int) : Prop :=
  ∀ i j, 1 ≤ i → i < j → j < GetSize p → comparator (KeyAt p i) (KeyAt p j) < 0

/-- The pin count of the frame holding `page_id`, when the pool provides the
page. -/
def pinCount (bpm : BufferPoolManager K) (page_id : Int) : Option Int :=
  (bpm page_id).map (fun f => f.pin_count)

/-- The dirty flag of the frame holding `page_id`, when the pool provides the
page. -/
def dirtyFlag (bpm : BufferPoolManager K) (page_id : Int) : Option Bool :=
  (bpm page_id).map (fun f => f.is_dirty)

/-- The exception types the page code raises. -/
inductive ExceptionType where
  | EXCEPTION_TYPE_INDEX
  deriving DecidableEq, Repr

/-- The state `QueueUpChildren` leaves behind: the queue, the buffer pool
manager (of state type `σ`), and the exception it raised, if any. -/
structure QueueUpResult (K σ : Type) where
  queue : List (BPlusTreeInternalPage K)
  bpm : σ
  raised : Option ExceptionType

/-- The loop of `QueueUpChildren` from slot `i`, `n` iterations left:
`page = FetchPage(array[i].second); if (page == nullptr) throw
Exception(EXCEPTION_TYPE_INDEX, ...); queue->push(page->GetData())`.
The buffer pool manager is implemented outside this file, so its `FetchPage`
is the parameter `fetch`: from a pool state and a page id it gives `none` for
`nullptr`, or the page and the pool state after the fetch. A fetched page is
not unpinned; the throw leaves the loop with the queue and the pool as they
are at that point. -/
def queueUpFrom {σ : Type} (fetch : σ → Int → Option (BPlusTreeInternalPage K × σ))
    (arr : Int → MappingType K) :
    Nat → Int → List (BPlusTreeInternalPage K) → σ → QueueUpResult K σ
  | 0, _, queue, bpm => ⟨queue, bpm, none⟩
  | n + 1, i, queue, bpm =>
    match fetch bpm (arr i).2 with
    | none => ⟨queue, bpm, some ExceptionType.EXCEPTION_TYPE_INDEX⟩
    | some (node, b1) => queueUpFrom fetch arr n (i + 1) (queue ++ [node]) b1

/-- `QueueUpChildren(queue, buffer_pool_manager)`:
`for (int i = 0; i < GetSize(); i++)` fetch the child of slot `i` and push it
at the back of the queue; an index exception when a fetch gives `nullptr`. -/
def QueueUpChildren {σ : Type} (fetch : σ → Int → Option (BPlusTreeInternalPage K × σ))
    (p : BPlusTreeInternalPage K) (queue : List (BPlusTreeInternalPage K)) (bpm : σ) :
    QueueUpResult K σ :=
  queueUpFrom fetch p.array (GetSize p).toNat 0 queue bpm

/-- The fetches of the loop of `QueueUpChildren` before slot `i`, in the order
the loop performs them: `s 0` is the pool at the call, and for every slot
`j < i` the fetch of the child of slot `j` in the pool `s j` returns the page
`nd j` and leaves the pool `s (j + 1)`. -/
def fetchesBefore {σ : Type} (fetch : σ → Int → Option (BPlusTreeInternalPage K × σ))
    (p : BPlusTreeInternalPage K) (bpm : σ) (s : Nat → σ)
    (nd : Nat → BPlusTreeInternalPage K) (i : Nat) : Prop :=
  s 0 = bpm ∧ ∀ j : Nat, j < i → fetch (s j) (ValueAt p j) = some (nd j, s (j + 1))

/-- Modelled from the spec: a buffer pool with a fixed number of frames. The
frames in use hold a page id each with the page, its pin count and its dirty
flag, in replacement order (least recently used first); `free` counts the
frames that hold no page yet; `disk` is the page store behind the pool. -/
structure FixedPool (K : Type) where
  frames : List (Int × Frame K)
  free : Nat
  disk : Int → BPlusTreeInternalPage K

/-- Modelled from the spec: `fetch(page_id)` on the fixed-capacity pool. A
resident page gets its pin count incremented and is returned. Otherwise the
page is read from disk into a frame with pin count 1: a free frame if there
is one, else the least recently used unpinned frame, which is written back
first when dirty. When every frame is pinned there is no victim and the fetch
gives no page (`nullptr`). -/
def FixedPool.FetchPage (pool : FixedPool K) (page_id : Int) :
    Option (BPlusTreeInternalPage K × FixedPool K) :=
  match pool.frames.find? (fun e => decide (e.1 = page_id)) with
  | some e =>
    some (e.2.data,
      { pool with
        frames := pool.frames.map (fun x =>
          if x.1 = page_id then (x.1, { x.2 with pin_count := x.2.pin_count + 1 }) else x) })
  | none =>
    if 0 < pool.free then
      some (pool.disk page_id,
        { pool with
          frames := pool.frames ++ [(page_id, ⟨pool.disk page_id, 1, false⟩)]
          free := pool.free - 1 })
    else
      match pool.frames.find? (fun e => decide (e.2.pin_count = 0)) with
      | none => none
      | some v =>
        let disk1 := if v.2.is_dirty then Function.update pool.disk v.1 v.2.data else pool.disk
        some (disk1 page_id,
          { frames := pool.frames.filter (fun e => decide (e.1 ≠ v.1)) ++
              [(page_id, ⟨disk1 page_id, 1, false⟩)]
            free := pool.free
            disk := disk1 })

/-- A pool of `capacity` frames, all free, over a disk whose page `i` has id
`i` and no slots. -/
def emptyPool (capacity : Nat) : FixedPool Int :=
  ⟨[], capacity, fun i => ⟨IndexPageType.INTERNAL_PAGE, 0, 8, 7, i, fun _ => (0, 0)⟩⟩

/-! ## Theorems: Lookup -/

/-- The scan of `Lookup` returns the initial index when no inspected slot
matches, and otherwise the largest inspected slot that matches. -/
theorem lookup_scan (P : Int → Prop) [DecidablePred P] (n : Nat) (lo f0 : Int) :
    ((∀ j, lo ≤ j → j < lo + n → ¬ P j) ∧
        loopUp (fun b found => if P b then b else found) n lo f0 = f0) ∨
    (∃ r, lo ≤ r ∧ r < lo + n ∧ P r ∧ (∀ j, r < j → j < lo + n → ¬ P j) ∧
        loopUp (fun b found => if P b then b else found) n lo f0 = r) := by
  induction n generalizing lo f0 with
  | zero =>
    left
    refine ⟨fun j h1 h2 => ?_, rfl⟩
    simp at h2
    omega
  | succ n ih =>
    simp only [loopUp]
    by_cases hP : P lo
    · simp only [hP, if_true]
      rcases ih (lo + 1) lo with ⟨hnone, heq⟩ | ⟨r, h1, h2, h3, h4, heq⟩
      · right
        refine ⟨lo, le_refl _, by push_cast; omega, hP, fun j h1 h2 => ?_, heq⟩
        exact hnone j (by omega) (by push_cast at h2; omega)
      · right
        refine ⟨r, by omega, by push_cast; omega, h3, fun j h5 h6 => ?_, heq⟩
        exact h4 j h5 (by push_cast at h6; omega)
    · simp only [hP, if_false]
      rcases ih (lo + 1) f0 with ⟨hnone, heq⟩ | ⟨r, h1, h2, h3, h4, heq⟩
      · left
        refine ⟨fun j h1 h2 => ?_, heq⟩
        by_cases hj : j = lo
        · subst hj; exact hP
        · exact hnone j (by omega) (by push_cast at h2; omega)
      · right
        refine ⟨r, by omega, by push_cast; omega, h3, fun j h5 h6 => ?_, heq⟩
        exact h4 j h5 (by push_cast at h6; omega)

/-- The scan of `Lookup` does not depend on slot 0 when it starts at slot 1. -/
theorem lookup_scan_congr (P Q : Int → Prop) [DecidablePred P] [DecidablePred Q]
    (n : Nat) (lo f0 : Int) (h : ∀ j, lo ≤ j → (P j ↔ Q j)) :
    loopUp (fun b found => if P b then b else found) n lo f0 =
      loopUp (fun b found => if Q b then b else found) n lo f0 := by
  induction n generalizing lo f0 with
  | zero => rfl
  | succ n ih =>
    simp only [loopUp]
    have hlo := h lo (le_refl _)
    by_cases hP : P lo
    · have hQ : Q lo := hlo.mp hP
      simp only [hP, hQ, if_true]
      exact ih (lo + 1) lo (fun j hj => h j (by omega))
    · have hQ : ¬ Q lo := fun hq => hP (hlo.mpr hq)
      simp only [hP, hQ, if_false]
      exact ih (lo + 1) f0 (fun j hj => h j (by omega))

/-- C1. On a page of size at least 1, `Lookup` returns the child of the largest
slot `i` in `1 .. size - 1` whose key compares `<= 0` against the search key,
and the child of slot 0 when there is no such slot; the result does not depend
on the key stored in slot 0. -/
theorem Lookup_largest_slot (p : BPlusTreeInternalPage K) (key : K)
    (comparator : K → K → Int) (hsize : 1 ≤ p.size) :
    (∀ i, 1 ≤ i → i < p.size → comparator (p.array i).1 key ≤ 0 →
        (∀ j, i < j → j < p.size → ¬ comparator (p.array j).1 key ≤ 0) →
        Lookup p key comparator = (p.array i).2) ∧
    ((∀ i, 1 ≤ i → i < p.size → ¬ comparator (p.array i).1 key ≤ 0) →
        Lookup p key comparator = (p.array 0).2) ∧
    (∀ k0 : K,
        Lookup { p with array := Function.update p.array 0 (k0, (p.array 0).2) } key comparator =
          Lookup p key comparator) := by
  have hn : (1 : Int) + ((p.size - 1).toNat : Nat) = p.size := by omega
  refine ⟨fun i hi1 hi2 hle hmax => ?_, fun hnone => ?_, fun k0 => ?_⟩
  · unfold Lookup GetSize
    rcases lookup_scan (fun b => comparator (p.array b).1 key ≤ 0) (p.size - 1).toNat 1 0 with
      ⟨hno, _⟩ | ⟨r, h1, h2, h3, h4, heq⟩
    · exact absurd hle (hno i hi1 (by omega))
    · simp only [heq]
      have hri : r = i := by
        rcases lt_trichotomy r i with hlt | heq2 | hgt
        · exact absurd hle (h4 i hlt (by omega))
        · exact heq2
        · exact absurd h3 (hmax r hgt (by omega))
      rw [hri]
  · unfold Lookup GetSize
    rcases lookup_scan (fun b => comparator (p.array b).1 key ≤ 0) (p.size - 1).toNat 1 0 with
      ⟨_, heq⟩ | ⟨r, h1, h2, h3, _, _⟩
    · simp only [heq]
    · exact absurd h3 (hnone r h1 (by omega))
  · unfold Lookup GetSize
    simp only
    have hc := lookup_scan_congr
      (fun b => comparator ((Function.update p.array 0 (k0, (p.array 0).2)) b).1 key ≤ 0)
      (fun b => comparator (p.array b).1 key ≤ 0) (p.size - 1).toNat 1 0
      (fun j hj => by
        have : j ≠ 0 := by omega
        simp only [Function.update_noteq this])
    rw [hc]
    by_cases h0 :
        loopUp (fun b found => if comparator (p.array b).1 key ≤ 0 then b else found)
          (p.size - 1).toNat 1 0 = 0
    · rw [h0]; simp
    · rw [Function.update_noteq h0]

/-- C1 at the sample page: the search key 25 is routed to the child of slot 2. -/
theorem Lookup_largest_slot_witness :
    (1 : Int) ≤ samplePage.size ∧ Lookup samplePage 25 sampleComparator = 102 :=
  ⟨by decide,
    (Lookup_largest_slot samplePage 25 sampleComparator (by decide)).1 2 (by decide)
      (by decide) (by decide)
      (fun j h1 h2 => by
        have hj : j = 3 := by
          have : samplePage.size = 4 := rfl
          omega
        subst hj
        decide)⟩

/-! ## Theorems: array loops and ValueIndex -/

/-- The shifting loop of `InsertNodeAfter` and `CopyFirstFrom`: after `n`
iterations from slot `hi` downwards, slots `hi - n + 1 .. hi` hold what their
left neighbour held, the other slots are unchanged. -/
theorem loopDown_shift (n : Nat) (hi : Int) (arr : Int → MappingType K) (j : Int) :
    loopDown (fun i a => Function.update a i (a (i - 1))) n hi arr j =
      if hi - n < j ∧ j ≤ hi then arr (j - 1) else arr j := by
  induction n generalizing hi arr with
  | zero =>
    simp only [loopDown]
    rw [if_neg (by push_cast; omega)]
  | succ n ih =>
    simp only [loopDown]
    rw [ih]
    by_cases hj : hi - 1 - (n : Int) < j ∧ j ≤ hi - 1
    · rw [if_pos hj, if_pos (by push_cast; omega)]
      exact Function.update_noteq (by omega) _ _
    · rw [if_neg hj]
      by_cases hjh : j = hi
      · subst hjh
        rw [if_pos (by push_cast; omega)]
        exact Function.update_same _ _ _
      · rw [if_neg (by push_cast; omega)]
        exact Function.update_noteq hjh _ _

/-- The shifting loop of `Remove`: after `n` iterations from slot `lo` upwards,
slots `lo .. lo + n - 1` hold what their right neighbour held, the other slots
are unchanged. -/
theorem loopUp_shift (n : Nat) (lo : Int) (arr : Int → MappingType K) (j : Int) :
    loopUp (fun i a => Function.update a i (a (i + 1))) n lo arr j =
      if lo ≤ j ∧ j < lo + n then arr (j + 1) else arr j := by
  induction n generalizing lo arr with
  | zero =>
    simp only [loopUp]
    rw [if_neg (by push_cast; omega)]
  | succ n ih =>
    simp only [loopUp]
    rw [ih]
    by_cases hj : lo + 1 ≤ j ∧ j < lo + 1 + (n : Int)
    · rw [if_pos hj, if_pos (by push_cast; omega)]
      exact Function.update_noteq (by omega) _ _
    · rw [if_neg hj]
      by_cases hjl : j = lo
      · subst hjl
        rw [if_pos (by push_cast; omega)]
        exact Function.update_same _ _ _
      · rw [if_neg (by push_cast; omega)]
        exact Function.update_noteq hjl _ _

/-- The copying loops of `CopyHalfFrom` and `CopyAllFrom`: after `n`
iterations, slot `base + i` holds `items i` for `lo <= i < lo + n`, the other
slots are unchanged. -/
theorem loopUp_copy (items : Int → MappingType K) (base : Int) (n : Nat) (lo : Int)
    (arr : Int → MappingType K) (j : Int) :
    loopUp (fun i a => Function.update a (base + i) (items i)) n lo arr j =
      if base + lo ≤ j ∧ j < base + lo + n then items (j - base) else arr j := by
  induction n generalizing lo arr with
  | zero =>
    simp only [loopUp]
    rw [if_neg (by push_cast; omega)]
  | succ n ih =>
    simp only [loopUp]
    rw [ih]
    by_cases hj : base + (lo + 1) ≤ j ∧ j < base + (lo + 1) + (n : Int)
    · rw [if_pos hj, if_pos (by push_cast; omega)]
    · rw [if_neg hj]
      by_cases hjl : j = base + lo
      · subst hjl
        rw [if_pos (by push_cast; omega)]
        have : base + lo - base = lo := by omega
        rw [this]
        exact Function.update_same _ _ _
      · rw [if_neg (by push_cast; omega)]
        exact Function.update_noteq hjl _ _

/-- The search of `ValueIndex` either finds no slot and returns `-1`, or returns
the first slot of the range whose child is the value. -/
theorem valueIndexFrom_spec (arr : Int → MappingType K) (v : Int) (n : Nat) (lo : Int) :
    (valueIndexFrom arr v n lo = -1 ∧ ∀ j, lo ≤ j → j < lo + n → (arr j).2 ≠ v) ∨
    (lo ≤ valueIndexFrom arr v n lo ∧ valueIndexFrom arr v n lo < lo + n ∧
      (arr (valueIndexFrom arr v n lo)).2 = v ∧
      ∀ j, lo ≤ j → j < valueIndexFrom arr v n lo → (arr j).2 ≠ v) := by
  induction n generalizing lo with
  | zero =>
    left
    refine ⟨rfl, fun j h1 h2 => ?_⟩
    simp at h2
    omega
  | succ n ih =>
    simp only [valueIndexFrom]
    by_cases h : (arr lo).2 = v
    · right
      rw [if_pos h]
      exact ⟨le_refl _, by push_cast; omega, h, fun j h1 h2 => by omega⟩
    · rw [if_neg h]
      rcases ih (lo + 1) with ⟨h1, h2⟩ | ⟨h1, h2, h3, h4⟩
      · left
        refine ⟨h1, fun j hj1 hj2 => ?_⟩
        by_cases hjl : j = lo
        · subst hjl; exact h
        · exact h2 j (by omega) (by push_cast at hj2; omega)
      · right
        refine ⟨by omega, by push_cast; omega, h3, fun j hj1 hj2 => ?_⟩
        by_cases hjl : j = lo
        · subst hjl; exact h
        · exact h4 j (by omega) hj2

/-- When the value occurs below `size`, `ValueIndex` returns the first slot
holding it. -/
theorem ValueIndex_first (p : BPlusTreeInternalPage K) (v : Int)
    (h : ∃ i, 0 ≤ i ∧ i < p.size ∧ (p.array i).2 = v) :
    0 ≤ ValueIndex p v ∧ ValueIndex p v < p.size ∧ (p.array (ValueIndex p v)).2 = v ∧
      ∀ j, 0 ≤ j → j < ValueIndex p v → (p.array j).2 ≠ v := by
  obtain ⟨i, hi0, hi1, hiv⟩ := h
  unfold ValueIndex GetSize
  have hn : ((p.size.toNat : Nat) : Int) = p.size := by omega
  rcases valueIndexFrom_spec p.array v p.size.toNat 0 with ⟨_, h2⟩ | ⟨h1, h2, h3, h4⟩
  · exact absurd hiv (h2 i hi0 (by omega))
  · exact ⟨h1, by omega, h3, h4⟩

/-! ## Theorems: Remove and the copy helpers -/

/-- Slots of a page after `Remove(index)`. -/
theorem Remove_array (p : BPlusTreeInternalPage K) (index j : Int) :
    (Remove p index).array j =
      if index ≤ j ∧ j < p.size - 1 then p.array (j + 1) else p.array j := by
  have hiff : (index ≤ j ∧ j < index + ((p.size - 1 - index).toNat : Int)) ↔
      (index ≤ j ∧ j < p.size - 1) := by omega
  simp only [Remove, IncreaseSize, GetSize, loopUp_shift, hiff]

/-- Size of a page after `Remove(index)`. -/
theorem Remove_size (p : BPlusTreeInternalPage K) (index : Int) :
    (Remove p index).size = p.size - 1 := by
  simp only [Remove, IncreaseSize]
  omega

/-- Slots of a page after `CopyHalfFrom(items, size)`. -/
theorem CopyHalfFrom_array (p : BPlusTreeInternalPage K) (items : Int → MappingType K)
    (size j : Int) :
    (CopyHalfFrom p items size).array j =
      if 1 ≤ j ∧ j < 1 + size then items (j - 1) else p.array j := by
  have hiff : (1 + 0 ≤ j ∧ j < 1 + 0 + ((size.toNat : Nat) : Int)) ↔ (1 ≤ j ∧ j < 1 + size) := by
    omega
  simp only [CopyHalfFrom, IncreaseSize, loopUp_copy, hiff]

/-- Slots of a page after `CopyAllFrom(items, size)`. -/
theorem CopyAllFrom_array (p : BPlusTreeInternalPage K) (items : Int → MappingType K)
    (size j : Int) :
    (CopyAllFrom p items size).array j =
      if p.size ≤ j ∧ j < p.size + size then items (j - p.size) else p.array j := by
  have hiff : (p.size + 0 ≤ j ∧ j < p.size + 0 + ((size.toNat : Nat) : Int)) ↔
      (p.size ≤ j ∧ j < p.size + size) := by
    omega
  simp only [CopyAllFrom, IncreaseSize, GetSize, loopUp_copy, hiff]

/-! ## Theorems: the buffer pool -/

/-- The fetch / set parent / unpin sequence on a page the pool provides. -/
theorem fetchSetParentUnpin_eq (bpm : BufferPoolManager K) (child parent : Int) (f : Frame K)
    (h : bpm child = some f) :
    fetchSetParentUnpin bpm child parent =
      some (Function.update bpm child (some (reparented parent f))) := by
  simp only [fetchSetParentUnpin, FetchPage, h, writePage, UnpinPage, Function.update_same,
    Function.update_idem, reparented, Bool.or_true, add_sub_cancel_right]

/-- The fetch / set parent / unpin sequence aborts on a page the pool cannot
provide. -/
theorem fetchSetParentUnpin_none (bpm : BufferPoolManager K) (child parent : Int)
    (h : bpm child = none) : fetchSetParentUnpin bpm child parent = none := by
  simp only [fetchSetParentUnpin, FetchPage, h]

/-- The reparenting loop of the move methods over slots `lo .. lo + n - 1`,
all of whose children the pool provides: it completes; the frame of every
child of the range is `reparented`; every other frame is untouched. -/
theorem reparent_loop (child : Int → Int) (parent : Int) (n : Nat) (lo : Int)
    (bpm : BufferPoolManager K)
    (hres : ∀ i, lo ≤ i → i < lo + n → (bpm (child i)).isSome) :
    ∃ b, loopUpM (fun i b => fetchSetParentUnpin b (child i) parent) n lo bpm = some b ∧
      (∀ q, (∃ i, lo ≤ i ∧ i < lo + n ∧ child i = q) → b q = (bpm q).map (reparented parent)) ∧
      (∀ q, (∀ i, lo ≤ i → i < lo + n → child i ≠ q) → b q = bpm q) := by
  induction n generalizing lo bpm with
  | zero =>
    refine ⟨bpm, rfl, fun q hq => ?_, fun q _ => rfl⟩
    obtain ⟨i, h1, h2, _⟩ := hq
    simp at h2
    omega
  | succ n ih =>
    have hlo := hres lo (le_refl _) (by push_cast; omega)
    obtain ⟨f, hf⟩ := Option.isSome_iff_exists.mp hlo
    have hres1 : ∀ i, lo + 1 ≤ i → i < lo + 1 + (n : Int) →
        ((Function.update bpm (child lo) (some (reparented parent f))) (child i)).isSome := by
      intro i h1 h2
      by_cases hc : child i = child lo
      · rw [hc, Function.update_same]; rfl
      · rw [Function.update_noteq hc]
        exact hres i (by omega) (by push_cast; omega)
    obtain ⟨b, hb, hin, hout⟩ := ih (lo + 1) _ hres1
    refine ⟨b, ?_, fun q hq => ?_, fun q hq => ?_⟩
    · simp only [loopUpM, fetchSetParentUnpin_eq bpm (child lo) parent f hf]
      exact hb
    · by_cases hlater : ∃ i, lo + 1 ≤ i ∧ i < lo + 1 + (n : Int) ∧ child i = q
      · rw [hin q hlater]
        by_cases hc : q = child lo
        · subst hc
          rw [Function.update_same, hf]
          rfl
        · rw [Function.update_noteq hc]
      · have hq0 : child lo = q := by
          obtain ⟨i, h1, h2, h3⟩ := hq
          by_cases hil : i = lo
          · subst hil; exact h3
          · exact absurd ⟨i, by omega, by push_cast at h2; omega, h3⟩ hlater
        rw [hout q (fun i h1 h2 h3 => hlater ⟨i, h1, h2, h3⟩), ← hq0, Function.update_same, hf]
        rfl
    · have hne : q ≠ child lo := fun h => hq lo (le_refl _) (by push_cast; omega) h.symm
      rw [hout q (fun i h1 h2 => hq i (by omega) (by push_cast; omega)),
        Function.update_noteq hne]

/-! ## Theorems: InsertNodeAfter -/

/-- The value of `InsertNodeAfter` when its assertion holds. -/
theorem InsertNodeAfter_eq (p : BPlusTreeInternalPage K) (old_value : Int) (new_key : K)
    (new_value : Int) (hne : ValueIndex p old_value ≠ -1) :
    InsertNodeAfter p old_value new_key new_value =
      some (p.size + 1,
        { p with
          size := p.size + 1
          array :=
            Function.update
              (loopDown (fun i a => Function.update a i (a (i - 1)))
                (p.size - ValueIndex p old_value).toNat p.size p.array)
              (ValueIndex p old_value + 1) (new_key, new_value) }) := by
  unfold InsertNodeAfter
  simp only [if_neg hne, GetSize, IncreaseSize, Prod.mk.eta, Function.update_same,
    Function.update_idem]

/-- C2. When the child array of a page of size `n` contains `old_value`, with
first occurrence at slot `pidx`, `InsertNodeAfter` returns `n + 1`, which is the
new size, stores the new pair in slot `pidx + 1`, leaves slots `0 .. pidx`
unchanged and moves every old slot `j > pidx` to slot `j + 1`. -/
theorem InsertNodeAfter_after_first_match (p : BPlusTreeInternalPage K) (old_value : Int)
    (new_key : K) (new_value : Int)
    (h : ∃ i, 0 ≤ i ∧ i < p.size ∧ (p.array i).2 = old_value) :
    ∃ pidx q,
      0 ≤ pidx ∧ pidx < p.size ∧ (p.array pidx).2 = old_value ∧
      (∀ j, 0 ≤ j → j < pidx → (p.array j).2 ≠ old_value) ∧
      InsertNodeAfter p old_value new_key new_value = some (p.size + 1, q) ∧
      q.size = p.size + 1 ∧
      q.array (pidx + 1) = (new_key, new_value) ∧
      (∀ j, 0 ≤ j → j ≤ pidx → q.array j = p.array j) ∧
      (∀ j, pidx < j → j < p.size → q.array (j + 1) = p.array j) := by
  obtain ⟨h0, h1, h2, h3⟩ := ValueIndex_first p old_value h
  have hne : ValueIndex p old_value ≠ -1 := by omega
  refine ⟨ValueIndex p old_value, _, h0, h1, h2, h3,
    InsertNodeAfter_eq p old_value new_key new_value hne, rfl, ?_, ?_, ?_⟩
  · simp only [Function.update_same]
  · intro j hj0 hj1
    simp only
    rw [Function.update_noteq (by omega), loopDown_shift, if_neg (by omega)]
  · intro j hj0 hj1
    simp only
    rw [Function.update_noteq (by omega), loopDown_shift, if_pos (by omega)]
    congr 1
    omega

/-- C2 at the sample page: inserting after child 101 (slot 1) returns 5. -/
theorem InsertNodeAfter_after_first_match_witness :
    (∃ i, 0 ≤ i ∧ i < samplePage.size ∧ (samplePage.array i).2 = 101) ∧
    (InsertNodeAfter samplePage 101 15 150).map Prod.fst = some 5 :=
  ⟨⟨1, by decide, by decide, by decide⟩, by
    obtain ⟨pidx, q, _, _, _, _, heq, _⟩ :=
      InsertNodeAfter_after_first_match samplePage 101 15 150
        ⟨1, by decide, by decide, by decide⟩
    rw [heq]
    rfl⟩

/-! ## Theorems: PopulateNewRoot -/

/-- C4. On a page fresh from `Init` the assertion `GetSize() == 1` of
`PopulateNewRoot` holds, and the call leaves size 2, `old_value` as the child
of slot 0 and the pair `(new_key, new_value)` in slot 1. -/
theorem PopulateNewRoot_after_Init (L : Layout) (blank : BPlusTreeInternalPage K)
    (page_id parent_id old_value : Int) (new_key : K) (new_value : Int) :
    GetSize (Init L blank page_id parent_id) = 1 ∧
    ∃ q, PopulateNewRoot (Init L blank page_id parent_id) old_value new_key new_value = some q ∧
      q.size = 2 ∧ (q.array 0).2 = old_value ∧ q.array 1 = (new_key, new_value) := by
  refine ⟨rfl, _, if_pos rfl, rfl, ?_, ?_⟩
  · simp only [IncreaseSize]
    rw [Function.update_noteq (by decide), Function.update_noteq (by decide),
      Function.update_same]
  · simp only [IncreaseSize, Function.update_same]

/-! ## Theorems: the move methods in closed form -/

/-- A fetch of a page the pool provides. -/
theorem FetchPage_eq (bpm : BufferPoolManager K) (page_id : Int) (f : Frame K)
    (h : bpm page_id = some f) :
    FetchPage bpm page_id =
      some (f.data,
        Function.update bpm page_id (some { f with pin_count := f.pin_count + 1 })) := by
  simp only [FetchPage, h]

/-- Fetching a page the pool provides, writing `g` to it and unpinning it as
dirty leaves `rewritten g` in its frame. -/
theorem fetch_write_unpin (bpm : BufferPoolManager K) (page_id : Int) (f : Frame K)
    (g : BPlusTreeInternalPage K → BPlusTreeInternalPage K) :
    UnpinPage
        (writePage (Function.update bpm page_id (some { f with pin_count := f.pin_count + 1 }))
          page_id g)
        page_id true =
      Function.update bpm page_id (some (rewritten g f)) := by
  simp only [writePage, UnpinPage, Function.update_same, Function.update_idem, rewritten,
    Bool.or_true, add_sub_cancel_right]

/-- The parent id read in an updated pool. -/
theorem parentOf_update (bpm : BufferPoolManager K) (page_id q : Int) (f : Frame K) :
    parentOf (Function.update bpm page_id (some f)) q =
      if q = page_id then some f.data.parent_page_id else parentOf bpm q := by
  by_cases h : q = page_id
  · subst h
    simp only [parentOf, Function.update_same, if_true, Option.map, GetParentPageId]
  · simp only [parentOf, Function.update_noteq h, if_neg h]

/-- The value of `MoveFirstToEndOf` when the pool provides the child of slot 0
(frame `f0`) and, after that child was reparented, the parent (frame `fp`). -/
theorem MoveFirstToEndOf_eq (self recipient : BPlusTreeInternalPage K)
    (bpm : BufferPoolManager K) (f0 fp : Frame K) (h0 : bpm (self.array 0).2 = some f0)
    (hp : Function.update bpm (self.array 0).2 (some (reparented recipient.page_id f0))
        self.parent_page_id = some fp) :
    MoveFirstToEndOf self recipient bpm =
      some ⟨Remove self 0, CopyLastFrom recipient (self.array 0),
        Function.update
          (Function.update bpm (self.array 0).2 (some (reparented recipient.page_id f0)))
          self.parent_page_id
          (some (rewritten
            (fun node =>
              SetKeyAt node (ValueIndex fp.data self.page_id) (KeyAt (Remove self 0) 0)) fp))⟩ := by
  have hrec : GetPageId (CopyLastFrom recipient (self.array 0)) = recipient.page_id := rfl
  have hpar : GetParentPageId (Remove self 0) = self.parent_page_id := rfl
  have hid : GetPageId (Remove self 0) = self.page_id := rfl
  simp only [MoveFirstToEndOf, hrec, hpar, hid,
    fetchSetParentUnpin_eq bpm (self.array 0).2 recipient.page_id f0 h0,
    FetchPage_eq _ self.parent_page_id fp hp, fetch_write_unpin]

/-- The value of `MoveLastToFrontOf` when the pool provides the child of the
last slot (frame `f0`) and, after that child was reparented, the parent
(frame `fp`). -/
theorem MoveLastToFrontOf_eq (self recipient : BPlusTreeInternalPage K) (parent_index : Int)
    (bpm : BufferPoolManager K) (f0 fp : Frame K)
    (h0 : bpm (self.array (self.size - 1)).2 = some f0)
    (hp : Function.update bpm (self.array (self.size - 1)).2
        (some (reparented recipient.page_id f0)) self.parent_page_id = some fp) :
    MoveLastToFrontOf self recipient parent_index bpm =
      some ⟨IncreaseSize (Remove self (self.size - 1)) (-1),
        CopyLastFrom recipient (self.array (self.size - 1)),
        Function.update
          (Function.update bpm (self.array (self.size - 1)).2
            (some (reparented recipient.page_id f0)))
          self.parent_page_id
          (some (rewritten
            (fun node => SetKeyAt node parent_index (self.array (self.size - 1)).1) fp))⟩ := by
  have hrec : GetPageId (CopyLastFrom recipient (self.array (self.size - 1))) =
      recipient.page_id := rfl
  simp only [MoveLastToFrontOf, GetSize, hrec, GetParentPageId,
    fetchSetParentUnpin_eq bpm (self.array (self.size - 1)).2 recipient.page_id f0 h0,
    FetchPage_eq _ self.parent_page_id fp hp, fetch_write_unpin]

/-- The value of `MoveAllTo` when the pool provides the parent (frame `fp`),
the parent's slot `index_in_parent` holds the donor's page id and the pool
provides every child of the donor: the parent's frame is only marked dirty
before the children are `reparented`. -/
theorem MoveAllTo_eq (self recipient : BPlusTreeInternalPage K) (index_in_parent : Int)
    (bpm : BufferPoolManager K) (fp : Frame K) (hn : 0 ≤ self.size)
    (hp : bpm self.parent_page_id = some fp)
    (hidx : (fp.data.array index_in_parent).2 = self.page_id)
    (hres : ∀ i, 0 ≤ i → i < self.size → (bpm (self.array i).2).isSome) :
    ∃ b,
      MoveAllTo self recipient index_in_parent bpm =
        some ⟨SetSize self 0, CopyAllFrom recipient (fun i => self.array (0 + i)) self.size, b⟩ ∧
      (∀ q, (∃ i, 0 ≤ i ∧ i < self.size ∧ (self.array i).2 = q) →
        b q = ((Function.update bpm self.parent_page_id (some (rewritten id fp))) q).map
          (reparented recipient.page_id)) ∧
      (∀ q, (∀ i, 0 ≤ i → i < self.size → (self.array i).2 ≠ q) →
        b q = (Function.update bpm self.parent_page_id (some (rewritten id fp))) q) := by
  have hcast : (0 : Int) + ((self.size.toNat : Nat) : Int) = self.size := by omega
  have hres1 : ∀ i, (0 : Int) ≤ i → i < 0 + ((self.size.toNat : Nat) : Int) →
      ((Function.update bpm self.parent_page_id (some (rewritten id fp)))
        ((fun i => (self.array i).2) i)).isSome := by
    intro i h1 h2
    by_cases hc : (self.array i).2 = self.parent_page_id
    · show ((Function.update bpm self.parent_page_id (some (rewritten id fp)))
          (self.array i).2).isSome = true
      rw [hc, Function.update_same]
      rfl
    · show ((Function.update bpm self.parent_page_id (some (rewritten id fp)))
          (self.array i).2).isSome = true
      rw [Function.update_noteq hc]
      exact hres i h1 (by omega)
  obtain ⟨b, hb, hin, hout⟩ :=
    reparent_loop (fun i => (self.array i).2) recipient.page_id self.size.toNat 0 _ hres1
  have hunpin : UnpinPage
      (Function.update bpm self.parent_page_id (some { fp with pin_count := fp.pin_count + 1 }))
      self.parent_page_id true =
      Function.update bpm self.parent_page_id (some (rewritten id fp)) := by
    simp only [UnpinPage, Function.update_same, Function.update_idem, rewritten, Bool.or_true,
      add_sub_cancel_right, id]
  have hrec : GetPageId (CopyAllFrom recipient (fun i => self.array (0 + i)) self.size) =
      recipient.page_id := rfl
  refine ⟨b, ?_, fun q hq => ?_, fun q hq => ?_⟩
  · simp only [MoveAllTo, GetParentPageId, FetchPage_eq bpm self.parent_page_id fp hp, ValueAt,
      hidx, GetPageId, if_true, hunpin, GetSize]
    simp only [GetPageId] at hrec
    rw [hrec, hb]
  · obtain ⟨i, h1, h2, h3⟩ := hq
    exact hin q ⟨i, h1, by omega, h3⟩
  · exact hout q (fun i h1 h2 => hq i h1 (by omega))

/-- A frame rewritten by a function that keeps `parent_page_id` shows the same
parent ids as before. -/
theorem parentOf_rewritten (bpm : BufferPoolManager K) (page_id q : Int) (fp : Frame K)
    (g : BPlusTreeInternalPage K → BPlusTreeInternalPage K)
    (hp : bpm page_id = some fp)
    (hg : (g fp.data).parent_page_id = fp.data.parent_page_id) :
    parentOf (Function.update bpm page_id (some (rewritten g fp))) q = parentOf bpm q := by
  rw [parentOf_update]
  by_cases h : q = page_id
  · subst h
    simp only [if_true, parentOf, hp, Option.map, GetParentPageId, rewritten, hg]
  · rw [if_neg h]

/-- A `reparented` frame shows the new parent id. -/
theorem parentOf_reparented (b bpm : BufferPoolManager K) (parent q : Int)
    (hb : b q = (bpm q).map (reparented parent)) (hq : (bpm q).isSome) :
    parentOf b q = some parent := by
  obtain ⟨f, hf⟩ := Option.isSome_iff_exists.mp hq
  simp only [parentOf, hb, hf, Option.map, reparented, GetParentPageId, SetParentPageId]

/-! ## Theorems: MoveHalfTo and PushUpIndex -/

/-- The value of `MoveHalfTo` when the pool provides the children of the moved
slots: the donor shrinks to the split index, the recipient receives the upper
half from slot 1 on, the moved children are `reparented`, the other frames are
untouched. -/
theorem MoveHalfTo_eq (self recipient : BPlusTreeInternalPage K) (bpm : BufferPoolManager K)
    (hn : 0 ≤ self.size)
    (hres : ∀ i, (self.size + 1) / 2 ≤ i → i < self.size → (bpm (self.array i).2).isSome) :
    ∃ b,
      MoveHalfTo self recipient bpm =
        some ⟨IncreaseSize self (-1 * (self.size - (self.size + 1) / 2)),
          CopyHalfFrom recipient (fun i => self.array ((self.size + 1) / 2 + i))
            (self.size - (self.size + 1) / 2), b⟩ ∧
      (∀ q, (∃ i, (self.size + 1) / 2 ≤ i ∧ i < self.size ∧ (self.array i).2 = q) →
        b q = (bpm q).map (reparented recipient.page_id)) ∧
      (∀ q, (∀ i, (self.size + 1) / 2 ≤ i → i < self.size → (self.array i).2 ≠ q) →
        b q = bpm q) := by
  have hs : Int.tdiv (self.size + 1) 2 = (self.size + 1) / 2 :=
    Int.tdiv_eq_ediv (by omega) (by omega)
  have hcast : (self.size + 1) / 2 + (((self.size - (self.size + 1) / 2).toNat : Nat) : Int) =
      self.size := by omega
  obtain ⟨b, hb, hin, hout⟩ :=
    reparent_loop (fun i => (self.array i).2) recipient.page_id
      (self.size - (self.size + 1) / 2).toNat ((self.size + 1) / 2) bpm
      (fun i h1 h2 => hres i h1 (by omega))
  refine ⟨b, ?_, fun q hq => ?_, fun q hq => ?_⟩
  · simp only [MoveHalfTo, GetSize, hs, ValueAt, GetPageId, CopyHalfFrom, IncreaseSize]
    rw [hb]
  · obtain ⟨i, h1, h2, h3⟩ := hq
    exact hin q ⟨i, h1, by omega, h3⟩
  · exact hout q (fun i h1 h2 => hq i h1 (by omega))

/-- C3. For a donor of size `n >= 2` and a recipient fresh from `Init`, with
the pool providing the children of the moved slots, `MoveHalfTo` then
`PushUpIndex` on the recipient pushes the middle entry up: with
`s = (n + 1) / 2` the donor keeps its slots `0 .. s - 1` and has size `s`,
`PushUpIndex` returns the donor's old slot `s`, the recipient's slot 0 gets that
pair's child, the recipient's slots `1 ..` hold the donor's old slots
`s + 1 .. n - 1` and its size is `n - s`; and on a donor whose keys are
strictly ascending under the comparator, a strict total order, no slot `>= 1`
of either page stores the pushed key. -/
theorem MoveHalfTo_PushUpIndex_pushes_middle (L : Layout)
    (self blank : BPlusTreeInternalPage K) (page_id parent_id : Int)
    (bpm : BufferPoolManager K) (hn : 2 ≤ self.size)
    (hres : ∀ i, (self.size + 1) / 2 ≤ i → i < self.size → (bpm (self.array i).2).isSome) :
    ∃ r, MoveHalfTo self (Init L blank page_id parent_id) bpm = some r ∧
      r.self.size = (self.size + 1) / 2 ∧
      (∀ j, 0 ≤ j → j < (self.size + 1) / 2 → r.self.array j = self.array j) ∧
      (PushUpIndex r.recipient).1 = self.array ((self.size + 1) / 2) ∧
      ((PushUpIndex r.recipient).2.array 0).2 = (self.array ((self.size + 1) / 2)).2 ∧
      (PushUpIndex r.recipient).2.size = self.size - (self.size + 1) / 2 ∧
      (∀ j, 1 ≤ j → j < self.size - (self.size + 1) / 2 →
        (PushUpIndex r.recipient).2.array j = self.array ((self.size + 1) / 2 + j)) ∧
      (∀ comparator : K → K → Int, strictTotalOrder comparator →
        keysAscending self comparator →
        (∀ j, 1 ≤ j → j < r.self.size →
          (r.self.array j).1 ≠ (PushUpIndex r.recipient).1.1) ∧
        (∀ j, 1 ≤ j → j < (PushUpIndex r.recipient).2.size →
          ((PushUpIndex r.recipient).2.array j).1 ≠ (PushUpIndex r.recipient).1.1)) := by
  obtain ⟨b, hb, _, _⟩ := MoveHalfTo_eq self (Init L blank page_id parent_id) bpm (by omega) hres
  have hpair : (PushUpIndex (CopyHalfFrom (Init L blank page_id parent_id)
      (fun i => self.array ((self.size + 1) / 2 + i)) (self.size - (self.size + 1) / 2))).1 =
      self.array ((self.size + 1) / 2) := by
    simp only [PushUpIndex, CopyHalfFrom_array]
    rw [if_pos (by omega)]
    simp
  have hsize : (PushUpIndex (CopyHalfFrom (Init L blank page_id parent_id)
      (fun i => self.array ((self.size + 1) / 2 + i)) (self.size - (self.size + 1) / 2))).2.size =
      self.size - (self.size + 1) / 2 := by
    simp only [PushUpIndex, Remove_size, CopyHalfFrom, IncreaseSize, Init, SetSize,
      SetParentPageId]
    omega
  have hslots : ∀ j, 1 ≤ j → j < self.size - (self.size + 1) / 2 →
      (PushUpIndex (CopyHalfFrom (Init L blank page_id parent_id)
        (fun i => self.array ((self.size + 1) / 2 + i))
        (self.size - (self.size + 1) / 2))).2.array j =
      self.array ((self.size + 1) / 2 + j) := by
    intro j h1 h2
    simp only [PushUpIndex, Remove_array]
    rw [if_pos (by
      simp only [CopyHalfFrom, IncreaseSize, Init, SetSize, SetParentPageId]
      omega)]
    rw [Function.update_noteq (by omega), CopyHalfFrom_array, if_pos (by omega)]
    simp
  have hord : ∀ comparator : K → K → Int, strictTotalOrder comparator →
      keysAscending self comparator →
      ∀ i, 1 ≤ i → i < self.size → i ≠ (self.size + 1) / 2 →
        (self.array i).1 ≠ (self.array ((self.size + 1) / 2)).1 := by
    intro comparator hcmp hasc i h1 h2 h3 heq
    have hrefl := hcmp.1 (self.array ((self.size + 1) / 2)).1
    rcases lt_or_gt_of_ne h3 with hlt | hgt
    · have h := hasc i ((self.size + 1) / 2) h1 hlt (by show _ < self.size; omega)
      simp only [KeyAt] at h
      rw [heq, hrefl] at h
      omega
    · have h := hasc ((self.size + 1) / 2) i (by omega) hgt h2
      simp only [KeyAt] at h
      rw [heq, hrefl] at h
      omega
  refine ⟨_, hb, ?_, fun j _ _ => rfl, hpair, ?_, hsize, hslots, fun comparator hcmp hasc =>
    ⟨?_, ?_⟩⟩
  · simp only [IncreaseSize]
    omega
  · have h0 := congrArg Prod.snd hpair
    simp only [PushUpIndex] at h0
    simp only [PushUpIndex, Remove_array]
    rw [if_neg (by omega), Function.update_same]
    exact h0
  · intro j h1 h2
    rw [hpair]
    simp only [IncreaseSize] at h2
    exact hord comparator hcmp hasc j h1 (by omega) (by omega)
  · intro j h1 h2
    rw [hsize] at h2
    rw [hpair, hslots j h1 h2]
    exact hord comparator hcmp hasc _ (by omega) (by omega) (by omega)

/-- The comparator `a - b` on the integers is a strict total order. -/
theorem sampleComparator_strictTotalOrder : strictTotalOrder sampleComparator := by
  unfold strictTotalOrder sampleComparator
  refine ⟨fun a => by omega, fun a b => by omega, fun a b c h1 h2 => by omega,
    fun a b h => by omega⟩

/-- The keys 10, 20, 30 of `samplePage` are strictly ascending. -/
theorem samplePage_keysAscending : keysAscending samplePage sampleComparator := by
  intro i j hi hij hj
  have hj' : j < 4 := hj
  have hj0 : 1 < j := by omega
  interval_cases j <;> interval_cases i <;> decide

/-- C3 at the sample page (size 4, split index 2): the donor keeps two slots,
the pair of slot 2 is pushed up, the recipient keeps the child of slot 2 in
slot 0 and the pair of slot 3 in slot 1, and the pushed key 20 is the key of
neither slot 1 of the donor nor slot 1 of the recipient. -/
theorem MoveHalfTo_PushUpIndex_pushes_middle_witness :
    (2 : Int) ≤ samplePage.size ∧
    (∀ i, (samplePage.size + 1) / 2 ≤ i → i < samplePage.size →
      (samplePool (samplePage.array i).2).isSome) ∧
    ∃ r, MoveHalfTo samplePage (Init sampleLayout blankPage 9 1) samplePool = some r ∧
      r.self.size = 2 ∧ (PushUpIndex r.recipient).1 = (20, 102) ∧
      (PushUpIndex r.recipient).2.size = 2 ∧
      (r.self.array 1).1 ≠ (PushUpIndex r.recipient).1.1 ∧
      ((PushUpIndex r.recipient).2.array 1).1 ≠ (PushUpIndex r.recipient).1.1 :=
  have hres : ∀ i, (samplePage.size + 1) / 2 ≤ i → i < samplePage.size →
      (samplePool (samplePage.array i).2).isSome := by
    intro i h1 h2
    have hsz : samplePage.size = 4 := rfl
    rw [hsz] at h1 h2
    have hi : i = 2 ∨ i = 3 := by omega
    rcases hi with hi | hi <;> subst hi <;> decide
  ⟨by decide, hres, by
    obtain ⟨r, hr, h1, _, h3, _, h5, _, h7⟩ :=
      MoveHalfTo_PushUpIndex_pushes_middle sampleLayout samplePage blankPage 9 1 samplePool
        (by decide) hres
    obtain ⟨h8, h9⟩ := h7 sampleComparator sampleComparator_strictTotalOrder
      samplePage_keysAscending
    exact ⟨r, hr, h1, h3, h5, h8 1 (by decide) (by rw [h1]; decide),
      h9 1 (by decide) (by rw [h5]; decide)⟩⟩

/-! ## Theorems: parent pointers of the children -/

/-- C5. With the child ids pairwise distinct and the pool providing the pages
a method fetches (for `MoveHalfTo` the children of the moved slots only, no
parent), each of `MoveHalfTo`, `MoveAllTo`, `MoveFirstToEndOf` and
`MoveLastToFrontOf` completes, leaves `parent_page_id` equal to the recipient's
page id in every child of a slot moved to the recipient, and leaves unchanged
the `parent_page_id` of every child of a slot the donor retains or the
recipient already held. -/
theorem move_methods_reparent_moved_children (self recipient : BPlusTreeInternalPage K)
    (index_in_parent parent_index : Int) (bpm : BufferPoolManager K)
    (hn : 1 ≤ self.size)
    (hdist : childrenDistinct self recipient) :
    ((∀ i, (self.size + 1) / 2 ≤ i → i < self.size → (bpm (self.array i).2).isSome) →
      ∃ r, MoveHalfTo self recipient bpm = some r ∧
      (∀ i, (self.size + 1) / 2 ≤ i → i < self.size →
        parentOf r.bpm (self.array i).2 = some recipient.page_id) ∧
      (∀ i, 0 ≤ i → i < (self.size + 1) / 2 →
        parentOf r.bpm (self.array i).2 = parentOf bpm (self.array i).2) ∧
      (∀ j, 0 ≤ j → j < recipient.size →
        parentOf r.bpm (recipient.array j).2 = parentOf bpm (recipient.array j).2)) ∧
    ((∀ i, 0 ≤ i → i < self.size → (bpm (self.array i).2).isSome) →
      (∃ fp, bpm self.parent_page_id = some fp ∧
        (fp.data.array index_in_parent).2 = self.page_id) →
      ∃ r, MoveAllTo self recipient index_in_parent bpm = some r ∧
      (∀ i, 0 ≤ i → i < self.size →
        parentOf r.bpm (self.array i).2 = some recipient.page_id) ∧
      (∀ j, 0 ≤ j → j < recipient.size →
        parentOf r.bpm (recipient.array j).2 = parentOf bpm (recipient.array j).2)) ∧
    ((bpm (self.array 0).2).isSome → (bpm self.parent_page_id).isSome →
      ∃ r, MoveFirstToEndOf self recipient bpm = some r ∧
      parentOf r.bpm (self.array 0).2 = some recipient.page_id ∧
      (∀ i, 1 ≤ i → i < self.size →
        parentOf r.bpm (self.array i).2 = parentOf bpm (self.array i).2) ∧
      (∀ j, 0 ≤ j → j < recipient.size →
        parentOf r.bpm (recipient.array j).2 = parentOf bpm (recipient.array j).2)) ∧
    ((bpm (self.array (self.size - 1)).2).isSome → (bpm self.parent_page_id).isSome →
      ∃ r, MoveLastToFrontOf self recipient parent_index bpm = some r ∧
      parentOf r.bpm (self.array (self.size - 1)).2 = some recipient.page_id ∧
      (∀ i, 0 ≤ i → i < self.size - 1 →
        parentOf r.bpm (self.array i).2 = parentOf bpm (self.array i).2) ∧
      (∀ j, 0 ≤ j → j < recipient.size →
        parentOf r.bpm (recipient.array j).2 = parentOf bpm (recipient.array j).2)) := by
  obtain ⟨hd1, hd2⟩ := hdist
  have hsplit : 0 ≤ (self.size + 1) / 2 := by omega
  -- a single moved slot `m`, as in the two redistribution methods
  have hone : ∀ (m : Int) (g : Frame K → BPlusTreeInternalPage K → BPlusTreeInternalPage K),
      (bpm (self.array m).2).isSome → (bpm self.parent_page_id).isSome →
      (∀ f d, (g f d).parent_page_id = d.parent_page_id) →
      ∃ f0 fq, bpm (self.array m).2 = some f0 ∧
        Function.update bpm (self.array m).2 (some (reparented recipient.page_id f0))
          self.parent_page_id = some fq ∧
        (∀ q, parentOf
            (Function.update
              (Function.update bpm (self.array m).2 (some (reparented recipient.page_id f0)))
              self.parent_page_id (some (rewritten (g fq) fq))) q =
          if q = (self.array m).2 then some recipient.page_id else parentOf bpm q) := by
    intro m g hm hpp hg
    obtain ⟨f0, hf0⟩ := Option.isSome_iff_exists.mp hm
    obtain ⟨fp, hfp⟩ := Option.isSome_iff_exists.mp hpp
    have hq : ∃ fq, Function.update bpm (self.array m).2
        (some (reparented recipient.page_id f0)) self.parent_page_id = some fq := by
      by_cases hc : self.parent_page_id = (self.array m).2
      · exact ⟨_, by rw [hc, Function.update_same]⟩
      · exact ⟨fp, by rw [Function.update_noteq hc, hfp]⟩
    obtain ⟨fq, hfq⟩ := hq
    refine ⟨f0, fq, hf0, hfq, fun q => ?_⟩
    rw [parentOf_rewritten _ _ _ _ _ hfq (hg fq fq.data), parentOf_update]
    rfl
  refine ⟨fun hres => ?_, fun hres hpar => ?_, fun h0 hpp => ?_, fun h0 hpp => ?_⟩
  · obtain ⟨b, hb, hin, hout⟩ := MoveHalfTo_eq self recipient bpm (by omega) hres
    refine ⟨_, hb, fun i h1 h2 => ?_, fun i h1 h2 => ?_, fun j h1 h2 => ?_⟩
    · exact parentOf_reparented _ bpm _ _ (hin _ ⟨i, h1, h2, rfl⟩) (hres i h1 h2)
    · have hq := hout (self.array i).2 (fun i1 h3 h4 heq => by
        have := hd1 i1 i (by omega) h4 h1 (by omega) heq
        omega)
      simp only [parentOf, hq]
    · have hq := hout (recipient.array j).2 (fun i1 h3 h4 heq =>
        hd2 i1 j (by omega) h4 h1 h2 heq)
      simp only [parentOf, hq]
  · obtain ⟨fp, hfp, hidx⟩ := hpar
    obtain ⟨b, hb, hin, hout⟩ := MoveAllTo_eq self recipient index_in_parent bpm fp (by omega)
      hfp hidx hres
    have hsame : ∀ q, parentOf (Function.update bpm self.parent_page_id
        (some (rewritten id fp))) q = parentOf bpm q :=
      fun q => parentOf_rewritten bpm _ q fp id hfp rfl
    refine ⟨_, hb, fun i h1 h2 => ?_, fun j h1 h2 => ?_⟩
    · refine parentOf_reparented _ _ _ _ (hin _ ⟨i, h1, h2, rfl⟩) ?_
      by_cases hc : (self.array i).2 = self.parent_page_id
      · rw [hc, Function.update_same]; rfl
      · rw [Function.update_noteq hc]; exact hres i h1 h2
    · have hq := hout (recipient.array j).2 (fun i1 h3 h4 heq => hd2 i1 j h3 h4 h1 h2 heq)
      have hq2 : parentOf b (recipient.array j).2 =
          parentOf (Function.update bpm self.parent_page_id (some (rewritten id fp)))
            (recipient.array j).2 := by
        simp only [parentOf, hq]
      exact hq2.trans (hsame _)
  · obtain ⟨f0, fq, hf0, hfq, hq⟩ :=
      hone 0 (fun fq node =>
        SetKeyAt node (ValueIndex fq.data self.page_id) (KeyAt (Remove self 0) 0))
        h0 hpp (fun _ _ => rfl)
    refine ⟨_, MoveFirstToEndOf_eq self recipient bpm f0 fq hf0 hfq, ?_, fun i h1 h2 => ?_,
      fun j h1 h2 => ?_⟩
    · exact (hq _).trans (if_pos rfl)
    · refine (hq _).trans (if_neg (fun heq => ?_))
      have := hd1 i 0 (by omega) h2 (le_refl _) (by omega) heq
      omega
    · exact (hq _).trans (if_neg (fun heq => hd2 0 j (le_refl _) (by omega) h1 h2 heq.symm))
  · obtain ⟨f0, fq, hf0, hfq, hq⟩ :=
      hone (self.size - 1) (fun _ node =>
        SetKeyAt node parent_index (self.array (self.size - 1)).1)
        h0 hpp (fun _ _ => rfl)
    refine ⟨_, MoveLastToFrontOf_eq self recipient parent_index bpm f0 fq hf0 hfq, ?_,
      fun i h1 h2 => ?_, fun j h1 h2 => ?_⟩
    · exact (hq _).trans (if_pos rfl)
    · refine (hq _).trans (if_neg (fun heq => ?_))
      have := hd1 i (self.size - 1) h1 (by omega) (by omega) (by omega) heq
      omega
    · exact (hq _).trans
        (if_neg (fun heq => hd2 (self.size - 1) j (by omega) (by omega) h1 h2 heq.symm))

/-- The sample page and its sibling have pairwise distinct children. -/
theorem sample_childrenDistinct : childrenDistinct samplePage sampleSibling := by
  have hs : samplePage.size = 4 := rfl
  have hr : sampleSibling.size = 2 := rfl
  refine ⟨fun i j h1 h2 h3 h4 heq => ?_, fun i j h1 h2 h3 h4 heq => ?_⟩
  · rw [hs] at h2 h4
    interval_cases i <;> interval_cases j <;> first | rfl | exact absurd heq (by decide)
  · rw [hs] at h2
    rw [hr] at h4
    interval_cases i <;> interval_cases j <;> exact absurd heq (by decide)

/-- The sample pool provides every child of the sample page. -/
theorem sample_children_resident :
    ∀ i, 0 ≤ i → i < samplePage.size → (samplePool (samplePage.array i).2).isSome := by
  intro i h1 h2
  have hs : samplePage.size = 4 := rfl
  rw [hs] at h2
  interval_cases i <;> decide

/-- The root `sampleParent` and a fresh page 9 have pairwise distinct
children. -/
theorem sample_root_childrenDistinct :
    childrenDistinct sampleParent (Init sampleLayout blankPage 9 INVALID_PAGE_ID) := by
  refine ⟨fun i j h1 h2 h3 h4 heq => ?_, fun i j h1 h2 h3 h4 heq => ?_⟩
  · have hs : sampleParent.size = 3 := rfl
    rw [hs] at h2 h4
    interval_cases i <;> interval_cases j <;> first | rfl | exact absurd heq (by decide)
  · have hs : sampleParent.size = 3 := rfl
    have hr : (Init sampleLayout blankPage 9 INVALID_PAGE_ID).size = 1 := rfl
    rw [hs] at h2
    rw [hr] at h4
    interval_cases i <;> interval_cases j <;> exact absurd heq (by decide)

/-- C5 at the sample pages. A root split: `MoveHalfTo` from the root
`sampleParent`, whose parent id is invalid and which the pool need not hold a
parent for, to a fresh page 9 gives the moved child 8 the parent 9 and leaves
the retained child 7 with its parent. A redistribution: after
`MoveFirstToEndOf` from the sample page to its left sibling (page 6), the
moved child 100 has parent 6 and the retained child 101 keeps its parent 7. -/
theorem move_methods_reparent_moved_children_witness :
    (samplePool sampleParent.parent_page_id = none ∧
      ∃ r, MoveHalfTo sampleParent (Init sampleLayout blankPage 9 INVALID_PAGE_ID) samplePool =
          some r ∧
        parentOf r.bpm 8 = some 9 ∧ parentOf r.bpm 7 = some 7) ∧
    ∃ r, MoveFirstToEndOf samplePage sampleSibling samplePool = some r ∧
      parentOf r.bpm 100 = some 6 ∧ parentOf r.bpm 101 = some 7 :=
  ⟨⟨rfl, by
    obtain ⟨r, hr, h0, h1, _⟩ :=
      (move_methods_reparent_moved_children sampleParent
        (Init sampleLayout blankPage 9 INVALID_PAGE_ID) 0 0 samplePool (by decide)
        sample_root_childrenDistinct).1
        (fun i h1 h2 => by
          have hs : sampleParent.size = 3 := rfl
          rw [hs] at h1 h2
          have hi : i = 2 := by omega
          rw [hi]
          decide)
    exact ⟨r, hr, h0 2 (by decide) (by decide),
      (h1 1 (by decide) (by decide)).trans (by decide)⟩⟩, by
    obtain ⟨r, hr, h0, h1, _⟩ :=
      (move_methods_reparent_moved_children samplePage sampleSibling 1 1 samplePool (by decide)
        sample_childrenDistinct).2.2.1 (by decide) (by decide)
    exact ⟨r, hr, h0, (h1 1 (by decide) (by decide)).trans (by decide)⟩⟩

/-! ## Theorems: MoveAllTo -/

/-- C6. For a donor of size `m` and a recipient of size `r`, when the parent's
child at `index_in_parent` is the donor's page id (and the pool provides the
parent and the donor's children), `MoveAllTo` leaves the recipient with size
`r + m`, its first `r` slots unchanged and its slots `r .. r + m - 1` equal to
the donor's slots `0 .. m - 1` in order, slot 0 included with the key stored
there, and leaves the donor with size 0. -/
theorem MoveAllTo_moves_all (self recipient : BPlusTreeInternalPage K) (index_in_parent : Int)
    (bpm : BufferPoolManager K) (fp : Frame K) (hm : 0 ≤ self.size)
    (hp : bpm (GetParentPageId self) = some fp)
    (hidx : ValueAt fp.data index_in_parent = GetPageId self)
    (hres : ∀ i, 0 ≤ i → i < self.size → (bpm (self.array i).2).isSome) :
    ∃ r, MoveAllTo self recipient index_in_parent bpm = some r ∧
      r.recipient.size = recipient.size + self.size ∧
      (∀ j, 0 ≤ j → j < recipient.size → r.recipient.array j = recipient.array j) ∧
      (∀ i, 0 ≤ i → i < self.size → r.recipient.array (recipient.size + i) = self.array i) ∧
      r.self.size = 0 := by
  obtain ⟨b, hb, _, _⟩ := MoveAllTo_eq self recipient index_in_parent bpm fp hm hp hidx hres
  refine ⟨_, hb, rfl, fun j h1 h2 => ?_, fun i h1 h2 => ?_, rfl⟩
  · simp only [CopyAllFrom_array]
    rw [if_neg (by omega)]
  · simp only [CopyAllFrom_array]
    rw [if_pos (by omega)]
    simp

/-- C6 at the sample pages: merging the sample page (size 4) into its left
sibling (size 2) gives the sibling size 6 with the donor's slot 0 in slot 2. -/
theorem MoveAllTo_moves_all_witness :
    (0 : Int) ≤ samplePage.size ∧
    samplePool (GetParentPageId samplePage) = some ⟨sampleParent, 1, false⟩ ∧
    ValueAt sampleParent 1 = GetPageId samplePage ∧
    (∀ i, 0 ≤ i → i < samplePage.size → (samplePool (samplePage.array i).2).isSome) ∧
    ∃ r, MoveAllTo samplePage sampleSibling 1 samplePool = some r ∧
      r.recipient.size = 6 ∧ r.recipient.array 2 = (0, 100) ∧ r.self.size = 0 :=
  ⟨by decide, rfl, rfl, sample_children_resident, by
    obtain ⟨r, hr, h1, _, h3, h4⟩ :=
      MoveAllTo_moves_all samplePage sampleSibling 1 samplePool ⟨sampleParent, 1, false⟩
        (by decide) rfl rfl sample_children_resident
    exact ⟨r, hr, h1, h3 0 (by decide) (by decide), h4⟩⟩

/-- The parent after `MoveAllTo`, when its id is not the id of a child of the
donor: its frame holds the same page as before the call (same size, same
slots); only the dirty flag is set. -/
theorem MoveAllTo_parent_frame (self recipient : BPlusTreeInternalPage K)
    (index_in_parent : Int) (bpm : BufferPoolManager K) (fp : Frame K) (hm : 0 ≤ self.size)
    (hp : bpm (GetParentPageId self) = some fp)
    (hidx : ValueAt fp.data index_in_parent = GetPageId self)
    (hres : ∀ i, 0 ≤ i → i < self.size → (bpm (self.array i).2).isSome)
    (hnot : ∀ i, 0 ≤ i → i < self.size → (self.array i).2 ≠ GetParentPageId self) :
    ∃ r, MoveAllTo self recipient index_in_parent bpm = some r ∧
      r.bpm (GetParentPageId self) = some ⟨fp.data, fp.pin_count, true⟩ := by
  obtain ⟨b, hb, _, hout⟩ := MoveAllTo_eq self recipient index_in_parent bpm fp hm hp hidx hres
  refine ⟨_, hb, ?_⟩
  have h1 := hout (GetParentPageId self) hnot
  simp only [GetParentPageId, Function.update_same] at h1
  exact h1

/-- C7 at the sample pages: `MoveAllTo` of the sample page (page 7, slot 1 of
its parent) into its left sibling returns with the parent as it was: the
parent still has size 3 and its slot 1 still holds the child 7. -/
theorem MoveAllTo_leaves_parent_unchanged_sample :
    (samplePool 1).map (fun f => (GetSize f.data, ValueAt f.data 1)) = some (3, 7) ∧
    ∃ r, MoveAllTo samplePage sampleSibling 1 samplePool = some r ∧
      (r.bpm 1).map (fun f => (GetSize f.data, ValueAt f.data 1)) = some (3, 7) := by
  obtain ⟨r, hr, hpar⟩ :=
    MoveAllTo_parent_frame samplePage sampleSibling 1 samplePool ⟨sampleParent, 1, false⟩
      (by decide) rfl rfl sample_children_resident
      (fun i h1 h2 => by
        have hs : samplePage.size = 4 := rfl
        rw [hs] at h2
        interval_cases i <;> decide)
  refine ⟨rfl, r, hr, ?_⟩
  have hpar1 : r.bpm 1 = some ⟨sampleParent, 1, true⟩ := hpar
  rw [hpar1]
  rfl

/-! ## Theorems: MoveFirstToEndOf -/

/-- Writing a frame into the pool keeps the pages the pool provides. -/
theorem update_provides (bpm : BufferPoolManager K) (c q : Int) (F : Frame K)
    (h : (bpm q).isSome) : ∃ fq, Function.update bpm c (some F) q = some fq := by
  by_cases hc : q = c
  · exact ⟨F, by rw [hc, Function.update_same]⟩
  · obtain ⟨f, hf⟩ := Option.isSome_iff_exists.mp h
    exact ⟨f, by rw [Function.update_noteq hc, hf]⟩

/-- `ValueIndex` reads the size and the slots only. -/
theorem ValueIndex_congr (a b : BPlusTreeInternalPage K) (v : Int) (harr : a.array = b.array)
    (hsize : a.size = b.size) : ValueIndex a v = ValueIndex b v := by
  simp only [ValueIndex, GetSize, harr, hsize]

/-- The recipient after `MoveFirstToEndOf`, when the pool provides the child of
slot 0 and the parent: it is the old recipient with the donor's slot-0 pair
stored behind its last slot. -/
theorem MoveFirstToEndOf_recipient (self recipient : BPlusTreeInternalPage K)
    (bpm : BufferPoolManager K) (h0 : (bpm (ValueAt self 0)).isSome)
    (hp : (bpm (GetParentPageId self)).isSome) :
    ∃ r, MoveFirstToEndOf self recipient bpm = some r ∧
      r.recipient = CopyLastFrom recipient (self.array 0) := by
  obtain ⟨f0, hf0⟩ := Option.isSome_iff_exists.mp h0
  obtain ⟨fq, hfq⟩ :=
    update_provides bpm (self.array 0).2 self.parent_page_id (reparented recipient.page_id f0) hp
  exact ⟨_, MoveFirstToEndOf_eq self recipient bpm f0 fq hf0 hfq, rfl⟩

/-- C8 (amended). When the pool provides the child of slot 0 and the parent,
`MoveFirstToEndOf` appends to the recipient this page's old slot-0 pair as it
is: the appended pair has the key this page stored in slot 0 and this page's
old slot-0 child. -/
theorem MoveFirstToEndOf_appends_slot_zero (self recipient : BPlusTreeInternalPage K)
    (bpm : BufferPoolManager K) (h0 : (bpm (ValueAt self 0)).isSome)
    (hp : (bpm (GetParentPageId self)).isSome) :
    ∃ r, MoveFirstToEndOf self recipient bpm = some r ∧
      r.recipient.size = recipient.size + 1 ∧
      KeyAt r.recipient recipient.size = KeyAt self 0 ∧
      ValueAt r.recipient recipient.size = ValueAt self 0 := by
  obtain ⟨r, hr, hrec⟩ := MoveFirstToEndOf_recipient self recipient bpm h0 hp
  refine ⟨r, hr, ?_, ?_, ?_⟩
  · rw [hrec]; rfl
  · rw [hrec]
    simp only [KeyAt, CopyLastFrom, IncreaseSize, GetSize, Function.update_same]
  · rw [hrec]
    simp only [ValueAt, CopyLastFrom, IncreaseSize, GetSize, Function.update_same]

/-- C8 (amended) at the sample pages. -/
theorem MoveFirstToEndOf_appends_slot_zero_witness :
    (samplePool (ValueAt samplePage 0)).isSome ∧
    (samplePool (GetParentPageId samplePage)).isSome ∧
    ∃ r, MoveFirstToEndOf samplePage sampleSibling samplePool = some r ∧
      r.recipient.size = 3 ∧ KeyAt r.recipient 2 = 0 ∧ ValueAt r.recipient 2 = 100 :=
  ⟨by decide, by decide,
    MoveFirstToEndOf_appends_slot_zero samplePage sampleSibling samplePool (by decide)
      (by decide)⟩

/-- C8 as stated fails at the sample pages: the sample page (page 7) has size
4 and its parent holds the separator 40 in the slot whose child is page 7, yet
the pair appended to the sibling has the key 0 that the sample page stored in
slot 0, not 40. -/
theorem MoveFirstToEndOf_separator_counterexample :
    (2 : Int) ≤ samplePage.size ∧
    (samplePool (GetParentPageId samplePage)).map
        (fun f => KeyAt f.data (ValueIndex f.data (GetPageId samplePage))) = some 40 ∧
    ∃ r, MoveFirstToEndOf samplePage sampleSibling samplePool = some r ∧
      KeyAt r.recipient sampleSibling.size = 0 ∧ KeyAt r.recipient sampleSibling.size ≠ 40 := by
  obtain ⟨r, hr, hrec⟩ :=
    MoveFirstToEndOf_recipient samplePage sampleSibling samplePool (by decide) (by decide)
  refine ⟨by decide, by decide, r, hr, ?_, ?_⟩
  · rw [hrec]
    decide
  · rw [hrec]
    decide

/-- C9. For a page of size at least 2 whose id occurs in its parent's child
array (the pool providing the parent and the child of slot 0),
`MoveFirstToEndOf` leaves in the parent, at the first slot whose child is this
page, the key this page held in slot 1, which is now the key of this page's
slot 0; that slot's child, every other slot of the parent and the parent's
size are unchanged. -/
theorem MoveFirstToEndOf_updates_separator (self recipient : BPlusTreeInternalPage K)
    (bpm : BufferPoolManager K) (fp : Frame K) (hn : 2 ≤ self.size)
    (h0 : (bpm (ValueAt self 0)).isSome)
    (hp : bpm (GetParentPageId self) = some fp)
    (hin : ∃ i, 0 ≤ i ∧ i < fp.data.size ∧ ValueAt fp.data i = GetPageId self) :
    ∃ r fp1, MoveFirstToEndOf self recipient bpm = some r ∧
      r.bpm (GetParentPageId self) = some fp1 ∧
      0 ≤ ValueIndex fp.data (GetPageId self) ∧
      ValueIndex fp.data (GetPageId self) < fp.data.size ∧
      ValueAt fp.data (ValueIndex fp.data (GetPageId self)) = GetPageId self ∧
      KeyAt r.self 0 = KeyAt self 1 ∧
      KeyAt fp1.data (ValueIndex fp.data (GetPageId self)) = KeyAt r.self 0 ∧
      ValueAt fp1.data (ValueIndex fp.data (GetPageId self)) = GetPageId self ∧
      (∀ j, j ≠ ValueIndex fp.data (GetPageId self) → fp1.data.array j = fp.data.array j) ∧
      fp1.data.size = fp.data.size := by
  obtain ⟨hi0, hi1, hiv, _⟩ := ValueIndex_first fp.data (GetPageId self) hin
  obtain ⟨f0, hf0⟩ := Option.isSome_iff_exists.mp h0
  have hfq : ∃ fq, Function.update bpm (self.array 0).2
      (some (reparented recipient.page_id f0)) self.parent_page_id = some fq ∧
      fq.data.array = fp.data.array ∧ fq.data.size = fp.data.size := by
    by_cases hc : self.parent_page_id = (self.array 0).2
    · refine ⟨reparented recipient.page_id f0, by rw [hc, Function.update_same], ?_, ?_⟩
      · have hfp : f0 = fp := by
          have h1 : bpm (self.array 0).2 = some fp := by rw [← hc]; exact hp
          exact Option.some.inj (hf0.symm.trans h1)
        rw [hfp]; rfl
      · have hfp : f0 = fp := by
          have h1 : bpm (self.array 0).2 = some fp := by rw [← hc]; exact hp
          exact Option.some.inj (hf0.symm.trans h1)
        rw [hfp]; rfl
    · exact ⟨fp, by rw [Function.update_noteq hc]; exact hp, rfl, rfl⟩
  obtain ⟨fq, hfq, harr, hsize⟩ := hfq
  have hvi : ValueIndex fq.data self.page_id = ValueIndex fp.data (GetPageId self) :=
    ValueIndex_congr fq.data fp.data _ harr hsize
  have hkey : KeyAt (Remove self 0) 0 = KeyAt self 1 := by
    simp only [KeyAt, Remove_array]
    rw [if_pos (by omega)]
    rfl
  refine ⟨_, _, MoveFirstToEndOf_eq self recipient bpm f0 fq hf0 hfq,
    Function.update_same _ _ _, hi0, hi1, hiv, hkey, ?_, ?_, fun j hj => ?_, ?_⟩
  · simp only [rewritten, SetKeyAt, KeyAt, hvi, Function.update_same]
  · simp only [rewritten, SetKeyAt, ValueAt, hvi, Function.update_same, harr]
    exact hiv
  · simp only [rewritten, SetKeyAt, hvi]
    rw [Function.update_noteq hj, harr]
  · simp only [rewritten, SetKeyAt]
    exact hsize

/-- C9 at the sample pages: the parent's separator for the sample page, 40
before the call, is 10 after it, the key the sample page held in slot 1. -/
theorem MoveFirstToEndOf_updates_separator_witness :
    (2 : Int) ≤ samplePage.size ∧ (samplePool (ValueAt samplePage 0)).isSome ∧
    samplePool (GetParentPageId samplePage) = some ⟨sampleParent, 1, false⟩ ∧
    (∃ i, 0 ≤ i ∧ i < sampleParent.size ∧ ValueAt sampleParent i = GetPageId samplePage) ∧
    ∃ r fp1, MoveFirstToEndOf samplePage sampleSibling samplePool = some r ∧
      r.bpm 1 = some fp1 ∧ KeyAt fp1.data 1 = 10 :=
  have hin : ∃ i, 0 ≤ i ∧ i < sampleParent.size ∧ ValueAt sampleParent i = GetPageId samplePage :=
    ⟨1, by decide, by decide, rfl⟩
  ⟨by decide, by decide, rfl, hin, by
    obtain ⟨r, fp1, hr, hb, _, _, _, h6, h7, _⟩ :=
      MoveFirstToEndOf_updates_separator samplePage sampleSibling samplePool
        ⟨sampleParent, 1, false⟩ (by decide) (by decide) rfl hin
    exact ⟨r, fp1, hr, hb, (h7.trans h6).trans (by decide)⟩⟩

/-! ## Theorems: MoveLastToFrontOf -/

/-- Sizes after `MoveLastToFrontOf` when the pool provides the child of the
last slot and the parent: the recipient grows by one and the donor shrinks by
two, once in `Remove` and once more in the `IncreaseSize(-1)` that follows. -/
theorem MoveLastToFrontOf_sizes (self recipient : BPlusTreeInternalPage K) (parent_index : Int)
    (bpm : BufferPoolManager K) (h0 : (bpm (ValueAt self (GetSize self - 1))).isSome)
    (hp : (bpm (GetParentPageId self)).isSome) :
    ∃ r, MoveLastToFrontOf self recipient parent_index bpm = some r ∧
      r.self.size = self.size - 2 ∧ r.recipient.size = recipient.size + 1 := by
  obtain ⟨f0, hf0⟩ := Option.isSome_iff_exists.mp h0
  obtain ⟨fq, hfq⟩ :=
    update_provides bpm (self.array (self.size - 1)).2 self.parent_page_id
      (reparented recipient.page_id f0) hp
  refine ⟨_, MoveLastToFrontOf_eq self recipient parent_index bpm f0 fq hf0 hfq, ?_, rfl⟩
  simp only [IncreaseSize, Remove_size]
  omega

/-- C10 at the sample pages: `MoveLastToFrontOf` from the sample page (size 4)
to its right sibling (size 2, slot 2 of the parent) leaves the sample page with
size 2, not 3, and the sibling with size 3. -/
theorem MoveLastToFrontOf_size_sample :
    samplePage.size = 4 ∧ sampleRightSibling.size = 2 ∧
    ∃ r, MoveLastToFrontOf samplePage sampleRightSibling 2 samplePool = some r ∧
      r.self.size = 2 ∧ r.recipient.size = 3 := by
  obtain ⟨r, hr, h1, h2⟩ :=
    MoveLastToFrontOf_sizes samplePage sampleRightSibling 2 samplePool (by decide) (by decide)
  exact ⟨rfl, rfl, r, hr, h1, h2⟩

/-- The recipient after `MoveLastToFrontOf`, when the pool provides the child
of the last slot and the parent: it is the old recipient with the donor's last
pair stored behind its last slot by `CopyLastFrom`. -/
theorem MoveLastToFrontOf_recipient (self recipient : BPlusTreeInternalPage K)
    (parent_index : Int) (bpm : BufferPoolManager K)
    (h0 : (bpm (ValueAt self (GetSize self - 1))).isSome)
    (hp : (bpm (GetParentPageId self)).isSome) :
    ∃ r, MoveLastToFrontOf self recipient parent_index bpm = some r ∧
      r.recipient = CopyLastFrom recipient (self.array (self.size - 1)) := by
  obtain ⟨f0, hf0⟩ := Option.isSome_iff_exists.mp h0
  obtain ⟨fq, hfq⟩ :=
    update_provides bpm (self.array (self.size - 1)).2 self.parent_page_id
      (reparented recipient.page_id f0) hp
  exact ⟨_, MoveLastToFrontOf_eq self recipient parent_index bpm f0 fq hf0 hfq, rfl⟩

/-- C11 at the sample pages: `MoveLastToFrontOf` from the sample page (last
pair `(30, 103)`) to its right sibling (slots `(0, 110)`, `(90, 111)`) leaves
the sibling's slots 0 and 1 where they were and stores the moved pair behind
them in slot 2: slot 0's child is still 110, not 103. -/
theorem MoveLastToFrontOf_appends_at_tail_sample :
    samplePage.array (samplePage.size - 1) = (30, 103) ∧
    ∃ r, MoveLastToFrontOf samplePage sampleRightSibling 2 samplePool = some r ∧
      r.recipient.array 0 = (0, 110) ∧ r.recipient.array 1 = (90, 111) ∧
      r.recipient.array 2 = (30, 103) ∧ ValueAt r.recipient 0 ≠ 103 := by
  obtain ⟨r, hr, hrec⟩ :=
    MoveLastToFrontOf_recipient samplePage sampleRightSibling 2 samplePool (by decide)
      (by decide)
  refine ⟨by decide, r, hr, ?_, ?_, ?_, ?_⟩ <;> rw [hrec] <;> decide

/-! ## Theorems: RemoveAndReturnOnlyChild -/

/-- The value of `RemoveAndReturnOnlyChild` on a page of size 2. -/
theorem RemoveAndReturnOnlyChild_eq (p : BPlusTreeInternalPage K) (h : p.size = 2) :
    RemoveAndReturnOnlyChild p =
      some ((p.array 1).2,
        { p with
          size := 1
          array := Function.update p.array 1 ((p.array 1).1, INVALID_PAGE_ID) }) := by
  simp only [RemoveAndReturnOnlyChild, GetSize, h, if_true, IncreaseSize]
  rfl

/-- The assertion of `RemoveAndReturnOnlyChild` fails on every size but 2. -/
theorem RemoveAndReturnOnlyChild_none (p : BPlusTreeInternalPage K) (h : p.size ≠ 2) :
    RemoveAndReturnOnlyChild p = none := by
  simp only [RemoveAndReturnOnlyChild, GetSize, if_neg h]

/-- C12 (amended). On a root of size 2, the dummy slot 0 plus one key/value
pair, `RemoveAndReturnOnlyChild` succeeds and returns the child held in slot 1;
on a root of size 1, whose only child is held in slot 0, its assertion
fails. -/
theorem RemoveAndReturnOnlyChild_returns_slot_one (p : BPlusTreeInternalPage K) :
    (p.size = 2 → (RemoveAndReturnOnlyChild p).map Prod.fst = some (ValueAt p 1)) ∧
    (p.size = 1 → RemoveAndReturnOnlyChild p = none) := by
  refine ⟨fun h => ?_, fun h => ?_⟩
  · rw [RemoveAndReturnOnlyChild_eq p h]
    rfl
  · exact RemoveAndReturnOnlyChild_none p (by omega)

/-- C12 as stated fails on the root of size 1 whose slot 0 holds the child 7:
the assertion of `RemoveAndReturnOnlyChild` does not hold and no child is
returned. -/
theorem RemoveAndReturnOnlyChild_size_one_counterexample :
    onlyChildRoot.size = 1 ∧ ValueAt onlyChildRoot 0 = 7 ∧
    RemoveAndReturnOnlyChild onlyChildRoot = none := by
  refine ⟨rfl, rfl, ?_⟩
  exact RemoveAndReturnOnlyChild_none onlyChildRoot (by decide)

/-- C19. On a page of size exactly 2 `RemoveAndReturnOnlyChild` returns the
child of slot 1 and leaves the page with size 1, slot 0's child unchanged and
slot 1's child equal to `INVALID_PAGE_ID`; on a page of any other size its
assertion fails. -/
theorem RemoveAndReturnOnlyChild_spec (p : BPlusTreeInternalPage K) :
    (p.size = 2 →
      ∃ q, RemoveAndReturnOnlyChild p = some (ValueAt p 1, q) ∧ q.size = 1 ∧
        ValueAt q 0 = ValueAt p 0 ∧ ValueAt q 1 = INVALID_PAGE_ID) ∧
    (p.size ≠ 2 → RemoveAndReturnOnlyChild p = none) := by
  refine ⟨fun h => ⟨_, RemoveAndReturnOnlyChild_eq p h, rfl, ?_, ?_⟩,
    RemoveAndReturnOnlyChild_none p⟩
  · simp only [ValueAt]
    rw [Function.update_noteq (by decide)]
  · simp only [ValueAt, Function.update_same]

/-! ## Theorems: Remove -/

/-- C16. `Remove(i)` on a page of size `n`, for `0 <= i < n` and in fact for
every index, leaves size `n - 1`, the slots below `i` unchanged and every old
slot `j > i` in slot `j - 1`. -/
theorem Remove_shifts_down (p : BPlusTreeInternalPage K) (i : Int) :
    (Remove p i).size = p.size - 1 ∧
    (∀ j, 0 ≤ j → j < i → (Remove p i).array j = p.array j) ∧
    (∀ j, i < j → j < p.size → (Remove p i).array (j - 1) = p.array j) := by
  refine ⟨Remove_size p i, fun j hj0 hj1 => ?_, fun j hj0 hj1 => ?_⟩
  · rw [Remove_array, if_neg (by omega)]
  · rw [Remove_array, if_pos (by omega)]
    congr 1
    omega

/-- C16 at the sample page: removing slot 1 leaves size 3 and moves the pair
of slot 2 to slot 1. -/
theorem Remove_shifts_down_witness :
    (0 : Int) ≤ 1 ∧ (1 : Int) < samplePage.size ∧
    (Remove samplePage 1).size = 3 ∧ (Remove samplePage 1).array 1 = (20, 102) := by
  obtain ⟨h1, _, h3⟩ := Remove_shifts_down samplePage 1
  exact ⟨by decide, by decide, h1, h3 2 (by decide) (by decide)⟩

/-! ## Theorems: ValueIndex -/

/-- C17. `ValueIndex(v)` returns the smallest slot in `[0, size)` whose child
is `v`, and `-1` exactly when no slot in `[0, size)` has child `v`; so
`ValueAt(ValueIndex(v)) = v` whenever the result is not `-1`, and
`ValueIndex(ValueAt(i)) = i` for every `i` in `[0, size)` when the children are
pairwise distinct. -/
theorem ValueIndex_spec (p : BPlusTreeInternalPage K) (v : Int) :
    ((∃ i, 0 ≤ i ∧ i < p.size ∧ ValueAt p i = v) →
      0 ≤ ValueIndex p v ∧ ValueIndex p v < p.size ∧ ValueAt p (ValueIndex p v) = v ∧
        ∀ j, 0 ≤ j → j < ValueIndex p v → ValueAt p j ≠ v) ∧
    (ValueIndex p v = -1 ↔ ∀ i, 0 ≤ i → i < p.size → ValueAt p i ≠ v) ∧
    (ValueIndex p v ≠ -1 → ValueAt p (ValueIndex p v) = v) ∧
    ((∀ i j, 0 ≤ i → i < p.size → 0 ≤ j → j < p.size → ValueAt p i = ValueAt p j → i = j) →
      ∀ i, 0 ≤ i → i < p.size → ValueIndex p (ValueAt p i) = i) := by
  have hcases := valueIndexFrom_spec p.array v p.size.toNat 0
  have hn : ∀ j : Int, j < 0 + ((p.size.toNat : Nat) : Int) → 0 ≤ j → j < p.size := by
    intro j h1 h2
    omega
  refine ⟨ValueIndex_first p v, ⟨fun h i hi0 hi1 hv => ?_, fun h => ?_⟩, fun h => ?_,
    fun hdist i hi0 hi1 => ?_⟩
  · have := (ValueIndex_first p v ⟨i, hi0, hi1, hv⟩).1
    omega
  · rcases hcases with ⟨h1, _⟩ | ⟨h1, h2, h3, _⟩
    · exact h1
    · exact absurd h3 (h _ h1 (hn _ h2 h1))
  · rcases hcases with ⟨h1, _⟩ | ⟨_, _, h3, _⟩
    · exact absurd h1 h
    · exact h3
  · obtain ⟨h1, h2, h3, _⟩ := ValueIndex_first p (ValueAt p i) ⟨i, hi0, hi1, rfl⟩
    exact hdist _ _ h1 h2 hi0 hi1 h3

/-! ## Theorems: Init -/

/-- The initialiser of `Init` for byte sizes in range: the unsigned
computation gives `(PAGE_SIZE - header_size) / slot_size - 1`. -/
theorem initMaxSize_eq (L : Layout) (hslot : 1 ≤ L.slot_size) (hslot2 : L.slot_size < 2 ^ 64)
    (hhdr : L.header_size ≤ L.PAGE_SIZE) (hpage : L.PAGE_SIZE < 2 ^ 31) :
    initMaxSize L = (((L.PAGE_SIZE - L.header_size) / L.slot_size : Nat) : Int) - 1 := by
  have hq : (L.PAGE_SIZE - L.header_size) / L.slot_size ≤ L.PAGE_SIZE - L.header_size :=
    Nat.div_le_self _ _
  have h1 : L.PAGE_SIZE % SIZE_T_MOD = L.PAGE_SIZE := Nat.mod_eq_of_lt (by
    unfold SIZE_T_MOD; omega)
  have h2 : L.header_size % SIZE_T_MOD = L.header_size := Nat.mod_eq_of_lt (by
    unfold SIZE_T_MOD; omega)
  have h3 : L.slot_size % SIZE_T_MOD = L.slot_size := Nat.mod_eq_of_lt (by
    unfold SIZE_T_MOD; omega)
  have h4 : (L.PAGE_SIZE + SIZE_T_MOD - L.header_size) % SIZE_T_MOD =
      L.PAGE_SIZE - L.header_size := by
    unfold SIZE_T_MOD
    omega
  unfold initMaxSize
  rw [h1, h2, h3, h4]
  generalize (L.PAGE_SIZE - L.header_size) / L.slot_size = q at hq ⊢
  unfold toInt32 SIZE_T_MOD
  by_cases hq0 : q = 0
  · subst hq0
    have h5 : ((0 : Nat) + 2 ^ 64 - 1) % 2 ^ 64 % 2 ^ 32 = 2 ^ 32 - 1 := by omega
    rw [h5, if_neg (by omega)]
    omega
  · have h5 : (q + 2 ^ 64 - 1) % 2 ^ 64 = q - 1 := by omega
    rw [h5]
    have h6 : (q - 1) % 2 ^ 32 = q - 1 := by omega
    rw [h6, if_pos (by omega)]
    omega

/-- C15. `Init(page_id, parent_id)` sets the page type to internal, the size to
1, the page id and the parent page id to its arguments and `max_size` to
`(PAGE_SIZE - header_size) / slot_size - 1` by integer division, so that
`header_size + (max_size + 1) * slot_size <= PAGE_SIZE`; the byte sizes are
those of a C++ build: a slot of at least one byte whose size is a `size_t`
value, a header that fits in the page and a page size that fits in an
`int`. -/
theorem Init_sets_header (L : Layout) (blank : BPlusTreeInternalPage K) (page_id parent_id : Int)
    (hslot : 1 ≤ L.slot_size) (hslot2 : L.slot_size < 2 ^ 64)
    (hhdr : L.header_size ≤ L.PAGE_SIZE) (hpage : L.PAGE_SIZE < 2 ^ 31) :
    (Init L blank page_id parent_id).page_type = IndexPageType.INTERNAL_PAGE ∧
    (Init L blank page_id parent_id).size = 1 ∧
    (Init L blank page_id parent_id).page_id = page_id ∧
    (Init L blank page_id parent_id).parent_page_id = parent_id ∧
    (Init L blank page_id parent_id).max_size =
      (((L.PAGE_SIZE - L.header_size) / L.slot_size : Nat) : Int) - 1 ∧
    (L.header_size : Int) + ((Init L blank page_id parent_id).max_size + 1) * L.slot_size ≤
      L.PAGE_SIZE := by
  have hmax : (Init L blank page_id parent_id).max_size =
      (((L.PAGE_SIZE - L.header_size) / L.slot_size : Nat) : Int) - 1 := by
    have h := initMaxSize_eq L hslot hslot2 hhdr hpage
    simp only [Init, SetSize, SetParentPageId]
    exact h
  refine ⟨rfl, rfl, rfl, rfl, hmax, ?_⟩
  rw [hmax]
  have hle : (L.PAGE_SIZE - L.header_size) / L.slot_size * L.slot_size ≤
      L.PAGE_SIZE - L.header_size := Nat.div_mul_le_self _ _
  have hcast : ((((L.PAGE_SIZE - L.header_size) / L.slot_size : Nat) : Int) - 1 + 1) *
      (L.slot_size : Int) =
      (((L.PAGE_SIZE - L.header_size) / L.slot_size * L.slot_size : Nat) : Int) := by
    push_cast
    ring
  rw [hcast]
  omega

/-- C15 at the byte sizes of the 8-byte-key instantiation: `max_size` is
`(4096 - 24) / 12 - 1 = 338`. -/
theorem Init_sets_header_witness :
    1 ≤ sampleLayout.slot_size ∧ sampleLayout.slot_size < 2 ^ 64 ∧
    sampleLayout.header_size ≤ sampleLayout.PAGE_SIZE ∧ sampleLayout.PAGE_SIZE < 2 ^ 31 ∧
    (Init sampleLayout blankPage 9 1).size = 1 ∧
    (Init sampleLayout blankPage 9 1).max_size = 338 := by
  obtain ⟨_, h2, _, _, h5, _⟩ :=
    Init_sets_header sampleLayout blankPage 9 1 (by decide) (by decide) (by decide) (by decide)
  exact ⟨by decide, by decide, by decide, by decide, h2, h5.trans (by decide)⟩

/-! ## Theorems: occupancy after a split -/

/-- C20. For `max_size >= 1`, splitting a page of size `max_size + 1` by
`MoveHalfTo` into a recipient fresh from `Init` and calling `PushUpIndex` on
the recipient leaves the donor with `(max_size + 2) / 2` slots and the
recipient with `max_size + 1 - (max_size + 2) / 2` slots, both between
`(max_size + 1) / 2`, the ceiling of `max_size / 2`, and `max_size`. -/
theorem split_keeps_occupancy (L : Layout) (self blank : BPlusTreeInternalPage K)
    (page_id parent_id : Int) (bpm : BufferPoolManager K) (hmax : 1 ≤ self.max_size)
    (hsize : self.size = self.max_size + 1)
    (hres : ∀ i, (self.size + 1) / 2 ≤ i → i < self.size → (bpm (self.array i).2).isSome) :
    ∃ r, MoveHalfTo self (Init L blank page_id parent_id) bpm = some r ∧
      r.self.size = (self.max_size + 2) / 2 ∧
      (PushUpIndex r.recipient).2.size = self.max_size + 1 - (self.max_size + 2) / 2 ∧
      (self.max_size + 1) / 2 ≤ r.self.size ∧ r.self.size ≤ self.max_size ∧
      (self.max_size + 1) / 2 ≤ (PushUpIndex r.recipient).2.size ∧
      (PushUpIndex r.recipient).2.size ≤ self.max_size := by
  obtain ⟨b, hb, _, _⟩ := MoveHalfTo_eq self (Init L blank page_id parent_id) bpm (by omega) hres
  have hdonor : (IncreaseSize self (-1 * (self.size - (self.size + 1) / 2))).size =
      (self.max_size + 2) / 2 := by
    simp only [IncreaseSize]
    omega
  have hrec : (PushUpIndex (CopyHalfFrom (Init L blank page_id parent_id)
      (fun i => self.array ((self.size + 1) / 2 + i)) (self.size - (self.size + 1) / 2))).2.size =
      self.max_size + 1 - (self.max_size + 2) / 2 := by
    simp only [PushUpIndex, Remove_size, CopyHalfFrom, IncreaseSize, Init, SetSize,
      SetParentPageId]
    omega
  refine ⟨_, hb, hdonor, hrec, ?_, ?_, ?_, ?_⟩
  · rw [hdonor]; omega
  · rw [hdonor]; omega
  · rw [hrec]; omega
  · rw [hrec]; omega

/-- C20 at the overflowing sample page (`max_size` 3, size 4): both halves
have 2 slots. -/
theorem split_keeps_occupancy_witness :
    1 ≤ overflowPage.max_size ∧ overflowPage.size = overflowPage.max_size + 1 ∧
    (∀ i, (overflowPage.size + 1) / 2 ≤ i → i < overflowPage.size →
      (samplePool (overflowPage.array i).2).isSome) ∧
    ∃ r, MoveHalfTo overflowPage (Init sampleLayout blankPage 9 1) samplePool = some r ∧
      r.self.size = 2 ∧ (PushUpIndex r.recipient).2.size = 2 :=
  have hres : ∀ i, (overflowPage.size + 1) / 2 ≤ i → i < overflowPage.size →
      (samplePool (overflowPage.array i).2).isSome := by
    intro i h1 h2
    have hsz : overflowPage.size = 4 := rfl
    rw [hsz] at h1 h2
    have hi : i = 2 ∨ i = 3 := by omega
    rcases hi with hi | hi <;> subst hi <;> decide
  ⟨by decide, rfl, hres, by
    obtain ⟨r, hr, h1, h2, _⟩ :=
      split_keeps_occupancy sampleLayout overflowPage blankPage 9 1 samplePool (by decide) rfl
        hres
    exact ⟨r, hr, h1, h2⟩⟩

/-! ## Theorems: the serialised log -/

/-- Reading back a 4-byte field that holds a value below `2 ^ 31`. -/
theorem toInt32_bytes (v : Nat) (h : v < 2 ^ 31) :
    toInt32
        ((((v : Int) % 2 ^ 32).toNat % 256) + 256 * (((v : Int) % 2 ^ 32).toNat / 256 % 256) +
          65536 * (((v : Int) % 2 ^ 32).toNat / 65536 % 256) +
          16777216 * (((v : Int) % 2 ^ 32).toNat / 16777216 % 256)) = v := by
  have hu : ((v : Int) % 2 ^ 32).toNat = v := by omega
  rw [hu]
  have hsum : v % 256 + 256 * (v / 256 % 256) + 65536 * (v / 65536 % 256) +
      16777216 * (v / 16777216 % 256) = v := by omega
  rw [hsum]
  unfold toInt32
  have hmod : v % 2 ^ 32 = v := by omega
  rw [hmod, if_pos h]

/-- C18. The `INSERT` record of a tuple of `L` bytes has size `L + 32`: the
20-byte common part, the 8-byte record id, the 4-byte tuple size and the
tuple; in the log of a fresh database whose first transaction begins, creates
the first page and inserts the tuple, the `BEGIN` record of 20 bytes starts at
offset 0, the `NEWPAGE` record of 24 bytes at offset 20 and the `INSERT`
record at offset 44, and the 4-byte fields read at these offsets of the log
file are the three sizes. -/
theorem insert_record_size_and_offset (typeCode : LogBody → Int) (txn_id : Int) (rid : RID)
    (tuple : Tuple) (hlen : tuple.length + 32 < 2 ^ 31) :
    (∀ lsn txn prev_lsn, recordSize ⟨lsn, txn, prev_lsn, LogBody.INSERT rid tuple⟩ =
      tuple.length + 32) ∧
    (firstInsertLog txn_id rid tuple).map recordSize = [20, 24, tuple.length + 32] ∧
    recordOffsets 0 (firstInsertLog txn_id rid tuple) = [0, 20, 44] ∧
    readInt32 (serializeLog typeCode (firstInsertLog txn_id rid tuple)) 0 = 20 ∧
    readInt32 (serializeLog typeCode (firstInsertLog txn_id rid tuple)) 20 = 24 ∧
    readInt32 (serializeLog typeCode (firstInsertLog txn_id rid tuple)) 44 =
      tuple.length + 32 := by
  have hsize : ∀ lsn txn prev_lsn,
      recordSize ⟨lsn, txn, prev_lsn, LogBody.INSERT rid tuple⟩ = tuple.length + 32 := by
    intro lsn txn prev_lsn
    simp only [recordSize, HEADER_SIZE, payloadSize]
    omega
  refine ⟨hsize, ?_, ?_, ?_, ?_, ?_⟩
  · simp only [firstInsertLog, List.map, hsize]
    rfl
  · simp only [firstInsertLog, recordOffsets, hsize]
    rfl
  · simp only [firstInsertLog, serializeLog, serializeRecord, encodeInt32, List.cons_append,
      List.nil_append, readInt32, List.drop]
    exact toInt32_bytes 20 (by omega)
  · simp only [firstInsertLog, serializeLog, serializeRecord, encodeInt32, encodePayload,
      List.cons_append, List.nil_append, List.append_nil, readInt32, List.drop]
    exact toInt32_bytes 24 (by omega)
  · simp only [firstInsertLog, serializeLog, serializeRecord, encodeInt32, encodePayload,
      List.cons_append, List.nil_append, List.append_nil, readInt32, List.drop, hsize]
    have h := toInt32_bytes (tuple.length + 32) hlen
    push_cast at h
    exact h

/-- C18 at the tuple of the three bytes 7, 8, 9: its `INSERT` record has size
35 and the field read at offset 44 of the log file is 35. -/
theorem insert_record_size_and_offset_witness :
    [7, 8, 9].length + 32 < 2 ^ 31 ∧
    recordSize ⟨2, 0, 1, LogBody.INSERT ⟨0, 0⟩ [7, 8, 9]⟩ = 35 ∧
    readInt32 (serializeLog (fun _ => 0) (firstInsertLog 0 ⟨0, 0⟩ [7, 8, 9])) 44 = 35 := by
  obtain ⟨h1, _, _, _, _, h6⟩ :=
    insert_record_size_and_offset (fun _ => 0) 0 ⟨0, 0⟩ [7, 8, 9] (by decide)
  exact ⟨by decide, h1 2 0 1, h6⟩

/-! ## Theorems: redo repeats history -/

/-- The action of a record leaves the LSN of every page as it was and changes
the slots of page `p` as `slotsAfter` says. -/
theorem redoAction_page (newPageId : Int → Int) (r : LogRecord) (d : Disk) (p : Int) :
    (redoAction newPageId r d p).lsn = (d p).lsn ∧
    (redoAction newPageId r d p).slots = slotsAfter p r.body (d p).slots := by
  cases hb : r.body with
  | NEWPAGE prev =>
    simp only [redoAction, hb, slotsAfter, ridOf]
    by_cases hprev : prev = INVALID_PAGE_ID
    · simp only [hprev, if_true, and_self]
    · simp only [hprev, if_false, setNext]
      by_cases hp : p = prev
      · subst hp
        simp only [Function.update_same, and_self]
      · simp only [Function.update_noteq hp, and_self]
  | BEGIN => simp only [redoAction, hb, slotsAfter, ridOf, and_self]
  | COMMIT => simp only [redoAction, hb, slotsAfter, ridOf, and_self]
  | ABORT => simp only [redoAction, hb, slotsAfter, ridOf, and_self]
  | INSERT rid t =>
    simp only [redoAction, hb, slotsAfter, ridOf, setSlot]
    by_cases hp : rid.page_id = p
    · subst hp
      simp only [Function.update_same, if_true, and_self]
    · simp only [Function.update_noteq (Ne.symm hp), if_neg hp, and_self]
  | APPLYDELETE rid t =>
    simp only [redoAction, hb, slotsAfter, ridOf, setSlot]
    by_cases hp : rid.page_id = p
    · subst hp
      simp only [Function.update_same, if_true, and_self]
    · simp only [Function.update_noteq (Ne.symm hp), if_neg hp, and_self]
  | MARKDELETE rid =>
    simp only [redoAction, hb, slotsAfter, ridOf, setSlot]
    by_cases hp : rid.page_id = p
    · subst hp
      simp only [Function.update_same, if_true, and_self]
    · simp only [Function.update_noteq (Ne.symm hp), if_neg hp, and_self]
  | ROLLBACKDELETE rid =>
    simp only [redoAction, hb, slotsAfter, ridOf, setSlot]
    by_cases hp : rid.page_id = p
    · subst hp
      simp only [Function.update_same, if_true, and_self]
    · simp only [Function.update_noteq (Ne.symm hp), if_neg hp, and_self]
  | UPDATE rid o n =>
    simp only [redoAction, hb, slotsAfter, ridOf, setSlot]
    by_cases hp : rid.page_id = p
    · subst hp
      simp only [Function.update_same, if_true, and_self]
    · simp only [Function.update_noteq (Ne.symm hp), if_neg hp, and_self]

/-- A record whose target is not page `p` leaves the slots of `p` as they
were. -/
theorem slotsAfter_other (newPageId : Int → Int) (r : LogRecord) (p : Int)
    (slots : Int → Slot) (h : targetPage newPageId r ≠ some p) :
    slotsAfter p r.body slots = slots := by
  cases hb : r.body with
  | NEWPAGE prev => simp only [slotsAfter, ridOf]
  | BEGIN => simp only [slotsAfter, ridOf]
  | COMMIT => simp only [slotsAfter, ridOf]
  | ABORT => simp only [slotsAfter, ridOf]
  | INSERT rid t =>
    simp only [targetPage, hb, ridOf, Option.map, ne_eq, Option.some.injEq] at h
    simp only [slotsAfter, ridOf, if_neg h]
  | APPLYDELETE rid t =>
    simp only [targetPage, hb, ridOf, Option.map, ne_eq, Option.some.injEq] at h
    simp only [slotsAfter, ridOf, if_neg h]
  | MARKDELETE rid =>
    simp only [targetPage, hb, ridOf, Option.map, ne_eq, Option.some.injEq] at h
    simp only [slotsAfter, ridOf, if_neg h]
  | ROLLBACKDELETE rid =>
    simp only [targetPage, hb, ridOf, Option.map, ne_eq, Option.some.injEq] at h
    simp only [slotsAfter, ridOf, if_neg h]
  | UPDATE rid o n =>
    simp only [targetPage, hb, ridOf, Option.map, ne_eq, Option.some.injEq] at h
    simp only [slotsAfter, ridOf, if_neg h]

/-- The LSN and slots of page `p` after the action of a record followed by the
write of the record's LSN to page `q`. -/
theorem setLsn_redoAction_view (newPageId : Int → Int) (r : LogRecord) (d : Disk) (p q : Int) :
    pageView (setLsn (redoAction newPageId r d) q r.lsn) p =
      (if p = q then r.lsn else (d p).lsn, slotsAfter p r.body (d p).slots) := by
  obtain ⟨h1, h2⟩ := redoAction_page newPageId r d p
  by_cases hpq : p = q
  · subst hpq
    simp only [pageView, setLsn, Function.update_same, if_true, h2]
  · simp only [pageView, setLsn, Function.update_noteq hpq, if_neg hpq, h1, h2]

/-- `applyRecord` seen from page `p`. -/
theorem applyRecord_view (newPageId : Int → Int) (r : LogRecord) (d : Disk) (p : Int) :
    pageView (applyRecord newPageId r d) p = applyLocal newPageId p (pageView d p) r := by
  unfold applyRecord applyLocal
  cases ht : targetPage newPageId r with
  | none => simp only [reduceCtorEq, if_false]
  | some q =>
    rw [setLsn_redoAction_view]
    by_cases hpq : p = q
    · subst hpq
      simp only [if_true, pageView]
    · have hne : targetPage newPageId r ≠ some p := by
        rw [ht]
        intro h
        exact hpq (Option.some.inj h).symm
      have hq : ¬ (some q = some p) := fun h => hpq (Option.some.inj h).symm
      simp only [if_neg hpq, if_neg hq, pageView, slotsAfter_other newPageId r p _ hne]

/-- `redoRecord` seen from page `p`. -/
theorem redoRecord_view (newPageId : Int → Int) (r : LogRecord) (d : Disk) (p : Int) :
    pageView (redoRecord newPageId r d) p = redoLocal newPageId p (pageView d p) r := by
  unfold redoRecord redoLocal
  cases ht : targetPage newPageId r with
  | none => simp only [reduceCtorEq, false_and, if_false]
  | some q =>
    dsimp only
    by_cases hlt : (d q).lsn < r.lsn
    · rw [if_pos hlt, setLsn_redoAction_view]
      by_cases hpq : p = q
      · subst hpq
        have hc : (some p = some p ∧ (pageView d p).1 < r.lsn) := ⟨rfl, hlt⟩
        rw [if_pos hc]
        simp only [if_true, pageView]
      · have hne : targetPage newPageId r ≠ some p := by
          rw [ht]
          intro h
          exact hpq (Option.some.inj h).symm
        have hq : ¬ (some q = some p ∧ (pageView d p).1 < r.lsn) :=
          fun h => hpq (Option.some.inj h.1).symm
        rw [if_neg hq]
        simp only [if_neg hpq, pageView, slotsAfter_other newPageId r p _ hne]
    · rw [if_neg hlt]
      by_cases hpq : p = q
      · subst hpq
        have hc : ¬ (some p = some p ∧ (pageView d p).1 < r.lsn) := fun h => hlt h.2
        rw [if_neg hc]
      · have hq : ¬ (some q = some p ∧ (pageView d p).1 < r.lsn) :=
          fun h => hpq (Option.some.inj h.1).symm
        rw [if_neg hq]

/-- A step of `crashImage` seen from page `p`. -/
theorem crashImage_step_view (newPageId : Int → Int) (cut : Int → Int) (r : LogRecord)
    (d : Disk) (p : Int) :
    pageView
        (match targetPage newPageId r with
        | some q => if r.lsn ≤ cut q then applyRecord newPageId r d else d
        | none => d) p =
      imageLocal newPageId p (cut p) (pageView d p) r := by
  unfold imageLocal
  cases ht : targetPage newPageId r with
  | none => simp only [reduceCtorEq, false_and, if_false]
  | some q =>
    dsimp only
    by_cases hpq : q = p
    · subst hpq
      by_cases hle : r.lsn ≤ cut q
      · have hc : (some q = some q ∧ r.lsn ≤ cut q) := ⟨rfl, hle⟩
        rw [if_pos hle, if_pos hc, applyRecord_view, applyLocal, if_pos ht]
      · have hc : ¬ (some q = some q ∧ r.lsn ≤ cut q) := fun h => hle h.2
        rw [if_neg hle, if_neg hc]
    · have hc : ¬ (some q = some p ∧ r.lsn ≤ cut p) := fun h => hpq (Option.some.inj h.1)
      have hne : targetPage newPageId r ≠ some p := by
        rw [ht]
        exact fun h => hpq (Option.some.inj h)
      rw [if_neg hc]
      by_cases hle : r.lsn ≤ cut q
      · rw [if_pos hle, applyRecord_view, applyLocal, if_neg hne]
      · rw [if_neg hle]

/-- A fold seen through a view that commutes with every step. -/
theorem foldl_view {α β γ : Type} (view : α → β) (f : α → γ → α) (g : β → γ → β)
    (h : ∀ a c, view (f a c) = g (view a) c) (l : List γ) (a : α) :
    view (l.foldl f a) = l.foldl g (view a) := by
  induction l generalizing a with
  | nil => rfl
  | cons c cs ih => simp only [List.foldl_cons, ih, h]

/-- After applying records whose LSNs are below `b` to a page whose LSN is
below `b`, the page's LSN is below `b`. -/
theorem applyLocal_lsn_lt (newPageId : Int → Int) (p b : Int) (l : List LogRecord)
    (v : Int × (Int → Slot)) (hl : ∀ r ∈ l, r.lsn < b) (hv : v.1 < b) :
    (l.foldl (applyLocal newPageId p) v).1 < b := by
  induction l generalizing v with
  | nil => exact hv
  | cons r rs ih =>
    simp only [List.foldl_cons]
    apply ih _ (fun x hx => hl x (List.mem_cons_of_mem _ hx))
    unfold applyLocal
    by_cases ht : targetPage newPageId r = some p
    · rw [if_pos ht]
      exact hl r (List.mem_cons_self _ _)
    · rw [if_neg ht]
      exact hv

/-- On records whose LSNs are at most the LSN up to which the page was
written, the crash image applies every record. -/
theorem imageLocal_eq_applyLocal (newPageId : Int → Int) (p c : Int) (l : List LogRecord)
    (v : Int × (Int → Slot)) (hl : ∀ r ∈ l, r.lsn ≤ c) :
    l.foldl (imageLocal newPageId p c) v = l.foldl (applyLocal newPageId p) v := by
  induction l generalizing v with
  | nil => rfl
  | cons r rs ih =>
    simp only [List.foldl_cons]
    have hr := hl r (List.mem_cons_self _ _)
    have hstep : imageLocal newPageId p c v r = applyLocal newPageId p v r := by
      unfold imageLocal applyLocal
      by_cases ht : targetPage newPageId r = some p
      · rw [if_pos ⟨ht, hr⟩, if_pos ht]
      · rw [if_neg (fun h => ht h.1), if_neg ht]
    rw [hstep]
    exact ih _ (fun x hx => hl x (List.mem_cons_of_mem _ hx))

/-- Redo skips every record whose LSN is at most the page's LSN. -/
theorem redoLocal_skip (newPageId : Int → Int) (p : Int) (l : List LogRecord)
    (v : Int × (Int → Slot)) (hl : ∀ r ∈ l, r.lsn ≤ v.1) :
    l.foldl (redoLocal newPageId p) v = v := by
  induction l generalizing v with
  | nil => rfl
  | cons r rs ih =>
    simp only [List.foldl_cons]
    have hr := hl r (List.mem_cons_self _ _)
    have hstep : redoLocal newPageId p v r = v := by
      unfold redoLocal
      rw [if_neg (fun h => by omega)]
    rw [hstep]
    exact ih _ (fun x hx => hl x (List.mem_cons_of_mem _ hx))

/-- Redo repeats history on a page: on a log with strictly increasing LSNs,
redo run on the page as it was written to disk, with the records up to some
LSN `c` applied, gives the page with every record applied. -/
theorem redoLocal_imageLocal (newPageId : Int → Int) (p c : Int) (l : List LogRecord)
    (v : Int × (Int → Slot)) (hsorted : l.Pairwise (fun a b => a.lsn < b.lsn))
    (hv : ∀ r ∈ l, v.1 < r.lsn) :
    l.foldl (redoLocal newPageId p) (l.foldl (imageLocal newPageId p c) v) =
      l.foldl (applyLocal newPageId p) v := by
  induction l using List.reverseRecOn with
  | nil => rfl
  | append_singleton l a ih =>
    obtain ⟨hl, _, hla⟩ := List.pairwise_append.mp hsorted
    have hlt : ∀ r ∈ l, r.lsn < a.lsn := fun r hr => hla r hr a (List.mem_singleton_self a)
    have hvl : ∀ r ∈ l, v.1 < r.lsn := fun r hr => hv r (List.mem_append_left _ hr)
    have hva : v.1 < a.lsn := hv a (List.mem_append_right _ (List.mem_singleton_self a))
    have ih1 := ih hl hvl
    by_cases hc : targetPage newPageId a = some p ∧ a.lsn ≤ c
    · have hall : ∀ r ∈ l ++ [a], r.lsn ≤ c := by
        intro r hr
        rcases List.mem_append.mp hr with h | h
        · have := hlt r h
          omega
        · rw [List.mem_singleton.mp h]
          exact hc.2
      rw [imageLocal_eq_applyLocal newPageId p c (l ++ [a]) v hall]
      apply redoLocal_skip
      intro r hr
      have hlast : (List.foldl (applyLocal newPageId p) v (l ++ [a])).1 = a.lsn := by
        rw [List.foldl_append]
        simp only [List.foldl_cons, List.foldl_nil, applyLocal, if_pos hc.1]
      rw [hlast]
      rcases List.mem_append.mp hr with h | h
      · have := hlt r h
        omega
      · rw [List.mem_singleton.mp h]
    · have himg : List.foldl (imageLocal newPageId p c) v (l ++ [a]) =
          List.foldl (imageLocal newPageId p c) v l := by
        rw [List.foldl_append]
        simp only [List.foldl_cons, List.foldl_nil, imageLocal, if_neg hc]
      rw [himg, List.foldl_append, ih1, List.foldl_append]
      simp only [List.foldl_cons, List.foldl_nil]
      unfold redoLocal applyLocal
      by_cases ht : targetPage newPageId a = some p
      · have hlsn := applyLocal_lsn_lt newPageId p a.lsn l v hlt hva
        rw [if_pos ⟨ht, hlsn⟩, if_pos ht]
      · rw [if_neg (fun h => ht h.1), if_neg ht]

/-- The analysis of a log extended by one record. -/
theorem Analysis_append_singleton (newPageId : Int → Int) (l : List LogRecord) (a : LogRecord) :
    Analysis newPageId (l ++ [a]) = analysisStep newPageId (Analysis newPageId l) a := by
  simp only [Analysis, List.foldl_append, List.foldl_cons, List.foldl_nil]

/-- The dirty page table after analysis: every record that updates a page
finds that page in the table with a `recLSN` of at most its own LSN, and every
`recLSN` of the table is the LSN of a record of the log. -/
theorem Analysis_dpt (newPageId : Int → Int) (log : List LogRecord)
    (hsorted : log.Pairwise (fun a b => a.lsn < b.lsn)) :
    (∀ r ∈ log, ∀ p, targetPage newPageId r = some p →
      ∃ l, (p, l) ∈ (Analysis newPageId log).dpt ∧ l ≤ r.lsn) ∧
    (∀ e ∈ (Analysis newPageId log).dpt, ∃ r ∈ log, r.lsn = e.2) := by
  induction log using List.reverseRecOn with
  | nil =>
    refine ⟨fun r hr => absurd hr (List.not_mem_nil _), fun e he => ?_⟩
    exact absurd he (List.not_mem_nil _)
  | append_singleton l a ih =>
    obtain ⟨hl, _, hla⟩ := List.pairwise_append.mp hsorted
    have hlt : ∀ r ∈ l, r.lsn < a.lsn := fun r hr => hla r hr a (List.mem_singleton_self a)
    obtain ⟨ih1, ih2⟩ := ih hl
    rw [Analysis_append_singleton]
    cases ht : targetPage newPageId a with
    | none =>
      simp only [analysisStep, ht]
      refine ⟨fun r hr p hp => ?_, fun e he => ?_⟩
      · rcases List.mem_append.mp hr with h | h
        · exact ih1 r h p hp
        · rw [List.mem_singleton.mp h, ht] at hp
          exact absurd hp (by simp)
      · obtain ⟨r, hr, hre⟩ := ih2 e he
        exact ⟨r, List.mem_append_left _ hr, hre⟩
    | some q =>
      simp only [analysisStep, ht]
      by_cases hany : ((Analysis newPageId l).dpt.any fun e => decide (e.1 = q)) = true
      · rw [if_pos hany]
        refine ⟨fun r hr p hp => ?_, fun e he => ?_⟩
        · rcases List.mem_append.mp hr with h | h
          · exact ih1 r h p hp
          · rw [List.mem_singleton.mp h, ht] at hp
            have hqp : q = p := Option.some.inj hp
            obtain ⟨e, he, heq⟩ := List.any_eq_true.mp hany
            have heq1 : e.1 = q := of_decide_eq_true heq
            obtain ⟨r1, hr1, hr1e⟩ := ih2 e he
            have hlt1 := hlt r1 hr1
            refine ⟨e.2, ?_, ?_⟩
            · rw [← hqp, ← heq1]
              exact he
            · rw [List.mem_singleton.mp h]
              omega
        · obtain ⟨r, hr, hre⟩ := ih2 e he
          exact ⟨r, List.mem_append_left _ hr, hre⟩
      · rw [if_neg hany]
        refine ⟨fun r hr p hp => ?_, fun e he => ?_⟩
        · rcases List.mem_append.mp hr with h | h
          · obtain ⟨l1, hl1, hle⟩ := ih1 r h p hp
            exact ⟨l1, List.mem_append_left _ hl1, hle⟩
          · rw [List.mem_singleton.mp h, ht] at hp
            have hqp : q = p := Option.some.inj hp
            refine ⟨a.lsn, ?_, ?_⟩
            · rw [← hqp]
              exact List.mem_append_right _ (List.mem_singleton_self _)
            · rw [List.mem_singleton.mp h]
        · rcases List.mem_append.mp he with h | h
          · obtain ⟨r, hr, hre⟩ := ih2 e h
            exact ⟨r, List.mem_append_left _ hr, hre⟩
          · refine ⟨a, List.mem_append_right _ (List.mem_singleton_self _), ?_⟩
            rw [List.mem_singleton.mp h]

/-- Where redo starts: nowhere when the table is empty, otherwise at an LSN
that is at most every `recLSN` of the table. -/
theorem redoStart_spec (dpt : List (Int × Int)) :
    (redoStart dpt = none → dpt = []) ∧
    (∀ m, redoStart dpt = some m → ∀ e ∈ dpt, m ≤ e.2) := by
  induction dpt with
  | nil =>
    refine ⟨fun _ => rfl, fun m _ e he => absurd he (List.not_mem_nil _)⟩
  | cons e es ih =>
    obtain ⟨ih1, ih2⟩ := ih
    cases hs : redoStart es with
    | none =>
      simp only [redoStart, hs, reduceCtorEq, false_implies, true_and, Option.some.injEq]
      intro m hm x hx
      rw [ih1 hs] at hx
      rw [List.mem_singleton.mp hx, hm]
    | some m0 =>
      simp only [redoStart, hs, reduceCtorEq, false_implies, true_and, Option.some.injEq]
      intro m hm x hx
      rcases List.mem_cons.mp hx with h | h
      · rw [h, ← hm]
        exact min_le_left _ _
      · have := ih2 m0 hs x h
        rw [← hm]
        exact le_trans (min_le_right _ _) this

/-- A fold over the records that pass a filter, when the step does nothing on
the others. -/
theorem foldl_filter_skip {α β : Type} (f : α → β → α) (P : β → Bool) (l : List β)
    (h : ∀ b ∈ l, P b = false → ∀ a, f a b = a) (a : α) :
    (l.filter P).foldl f a = l.foldl f a := by
  induction l generalizing a with
  | nil => rfl
  | cons b bs ih =>
    have ih1 := ih (fun x hx => h x (List.mem_cons_of_mem _ hx))
    cases hP : P b with
    | true =>
      rw [List.filter_cons_of_pos hP]
      simp only [List.foldl_cons, ih1]
    | false =>
      rw [List.filter_cons_of_neg (by simp [hP])]
      simp only [List.foldl_cons, h b (List.mem_cons_self _ _) hP a, ih1]

/-- A fold whose step does nothing on any element. -/
theorem foldl_skip_all {α β : Type} (f : α → β → α) (l : List β)
    (h : ∀ b ∈ l, ∀ a, f a b = a) (a : α) : l.foldl f a = a := by
  induction l generalizing a with
  | nil => rfl
  | cons b bs ih =>
    simp only [List.foldl_cons, h b (List.mem_cons_self _ _) a]
    exact ih (fun x hx => h x (List.mem_cons_of_mem _ hx)) a

/-- Redo of a record that updates no page. -/
theorem redoRecord_no_target (newPageId : Int → Int) (r : LogRecord) (d : Disk)
    (h : targetPage newPageId r = none) : redoRecord newPageId r d = d := by
  simp only [redoRecord, h]

/-- The redo phase redoes every record of the log: the records before its
starting point update no page. -/
theorem Redo_eq_foldl (newPageId : Int → Int) (log : List LogRecord) (d : Disk)
    (hsorted : log.Pairwise (fun a b => a.lsn < b.lsn)) :
    Redo newPageId log d = log.foldl (fun d r => redoRecord newPageId r d) d := by
  obtain ⟨hdpt, _⟩ := Analysis_dpt newPageId log hsorted
  obtain ⟨hnone, hsome⟩ := redoStart_spec (Analysis newPageId log).dpt
  unfold Redo
  cases hs : redoStart (Analysis newPageId log).dpt with
  | none =>
    dsimp only
    symm
    apply foldl_skip_all
    intro r hr a
    apply redoRecord_no_target
    cases ht : targetPage newPageId r with
    | none => rfl
    | some p =>
      obtain ⟨l, hl, _⟩ := hdpt r hr p ht
      rw [hnone hs] at hl
      exact absurd hl (List.not_mem_nil _)
  | some start =>
    dsimp only
    apply foldl_filter_skip
    intro r hr hP a
    apply redoRecord_no_target
    cases ht : targetPage newPageId r with
    | none => rfl
    | some p =>
      obtain ⟨l, hl, hle⟩ := hdpt r hr p ht
      have hm := hsome start hs (p, l) hl
      have hlt : ¬ start ≤ r.lsn := of_decide_eq_false hP
      exact absurd (le_trans hm hle) hlt

/-- Redo repeats history: on a log with non-negative, strictly increasing
LSNs, redo run on the data file found after a crash gives every page the LSN
and the slots it has when every logged update is applied. -/
theorem Redo_crashImage (newPageId : Int → Int) (cut : Int → Int) (log : List LogRecord)
    (hsorted : log.Pairwise (fun a b => a.lsn < b.lsn)) (hlsn : ∀ r ∈ log, 0 ≤ r.lsn)
    (p : Int) :
    pageView (Redo newPageId log (crashImage newPageId cut log)) p =
      pageView (replay newPageId log) p := by
  rw [Redo_eq_foldl newPageId log _ hsorted]
  rw [foldl_view (fun d => pageView d p) (fun d r => redoRecord newPageId r d)
    (redoLocal newPageId p) (fun d r => redoRecord_view newPageId r d p)]
  unfold crashImage replay
  rw [foldl_view (fun d => pageView d p) _ (imageLocal newPageId p (cut p))
    (fun d r => crashImage_step_view newPageId cut r d p)]
  rw [foldl_view (fun d => pageView d p) (fun d r => applyRecord newPageId r d)
    (applyLocal newPageId p) (fun d r => applyRecord_view newPageId r d p)]
  apply redoLocal_imageLocal newPageId p (cut p) log _ hsorted
  intro r hr
  have := hlsn r hr
  show INVALID_LSN < r.lsn
  unfold INVALID_LSN
  omega

/-! ## Theorems: the active transaction table and the undo chains -/

/-- The records of one transaction in a log extended by one record. -/
theorem filter_txn_append_singleton (l : List LogRecord) (a : LogRecord) (txn : Int) :
    (l ++ [a]).filter (fun r => r.txn_id = txn) =
      l.filter (fun r => r.txn_id = txn) ++ (if a.txn_id = txn then [a] else []) := by
  rw [List.filter_append]
  by_cases h : a.txn_id = txn
  · simp only [List.filter_cons, h, decide_True, if_true, List.filter_nil]
  · simp only [List.filter_cons, h, decide_False, if_false, List.filter_nil, Bool.false_eq_true]

/-- The active transaction table after analysis: a transaction is in the table
exactly when the last record it wrote is neither `COMMIT` nor `ABORT`, and its
`lastLSN` is the LSN of that record. -/
theorem Analysis_att (newPageId : Int → Int) (log : List LogRecord) (txn l : Int) :
    (txn, l) ∈ (Analysis newPageId log).att ↔
      ∃ r, (log.filter (fun x => x.txn_id = txn)).getLast? = some r ∧
        endsTransaction r.body = false ∧ r.lsn = l := by
  induction log using List.reverseRecOn generalizing l with
  | nil =>
    simp only [Analysis, List.foldl_nil, List.not_mem_nil, List.filter_nil, List.getLast?_nil,
      reduceCtorEq, false_and, exists_false]
  | append_singleton log a ih =>
    rw [Analysis_append_singleton, filter_txn_append_singleton]
    by_cases ha : a.txn_id = txn
    · rw [if_pos ha, List.getLast?_append_of_ne_nil _ (List.cons_ne_nil _ _)]
      simp only [List.getLast?_singleton, Option.some.injEq]
      cases hend : endsTransaction a.body with
      | true =>
        simp only [analysisStep, hend, if_true, List.mem_filter, ha, ne_eq, not_true_eq_false,
          decide_False, Bool.false_eq_true, and_false, false_iff, not_exists, not_and]
        intro r hr hr2
        rw [← hr, hend] at hr2
        exact absurd hr2 (by simp)
      | false =>
        simp only [analysisStep, hend, Bool.false_eq_true, if_false, List.mem_cons,
          Prod.mk.injEq, List.mem_filter, ha, ne_eq, not_true_eq_false, decide_False,
          and_false, or_false, true_and]
        constructor
        · intro h
          exact ⟨a, rfl, hend, h.symm⟩
        · rintro ⟨r, hr, _, hl⟩
          rw [← hl, ← hr]
    · rw [if_neg ha, List.append_nil, ← ih]
      have hne : txn ≠ a.txn_id := fun h => ha h.symm
      by_cases hend : endsTransaction a.body = true
      · simp only [analysisStep, hend, if_true, List.mem_filter, ne_eq, hne, not_false_eq_true,
          decide_True, and_true]
      · simp only [analysisStep, hend, Bool.false_eq_true, if_false, List.mem_cons,
          Prod.mk.injEq, hne, false_and, List.mem_filter, ne_eq, not_false_eq_true,
          decide_True, and_true, false_or]

/-- The `lastLSN` of an entry of the active transaction table is the last LSN
its transaction wrote. -/
theorem Analysis_att_lastLsn (newPageId : Int → Int) (log : List LogRecord) (e : Int × Int)
    (he : e ∈ (Analysis newPageId log).att) : e.2 = lastLsnOf e.1 log := by
  obtain ⟨r, hr, _, hl⟩ := (Analysis_att newPageId log e.1 e.2).mp he
  simp only [lastLsnOf, hr, hl]

/-- In a log with strictly increasing LSNs, the record found under the LSN of a
record of the log is that record. -/
theorem findRecord_mem (log : List LogRecord)
    (hsorted : log.Pairwise (fun a b => a.lsn < b.lsn)) (r : LogRecord) (hr : r ∈ log) :
    findRecord log r.lsn = some r := by
  induction log with
  | nil => exact absurd hr (List.not_mem_nil _)
  | cons a l ih =>
    obtain ⟨ha, hl⟩ := List.pairwise_cons.mp hsorted
    unfold findRecord
    rcases List.mem_cons.mp hr with h | h
    · subst h
      simp only [List.find?_cons, decide_True]
    · have hlt := ha r h
      have hne : ¬ a.lsn = r.lsn := by omega
      simp only [List.find?_cons, hne, decide_False]
      exact ih hl h

/-- No record is found under an LSN that no record of the log has. -/
theorem findRecord_none (log : List LogRecord) (lsn : Int) (h : ∀ r ∈ log, r.lsn ≠ lsn) :
    findRecord log lsn = none := by
  unfold findRecord
  rw [List.find?_eq_none]
  intro r hr
  simp only [decide_eq_true_eq]
  exact h r hr

/-- The walk of undo compensates the records of its chain in order. -/
theorem undoChain_eq_foldl (log : List LogRecord) (fuel : Nat) (lsn : Int) (d : Disk) :
    undoChain log fuel lsn d =
      (chainRecords log fuel lsn).foldl (fun d r => undoAction r d) d := by
  induction fuel generalizing lsn d with
  | zero => rfl
  | succ n ih =>
    unfold undoChain chainRecords
    cases findRecord log lsn with
    | none => rfl
    | some r =>
      simp only [List.foldl_cons]
      exact ih _ _

/-- The `prev_lsn` of a record of a chained log is the last LSN its
transaction wrote before it. -/
theorem chainedAfter_split (pre l : List LogRecord) (a : LogRecord) (suf : List LogRecord)
    (h : chainedAfter pre (l ++ a :: suf) = true) :
    a.prev_lsn = lastLsnOf a.txn_id (pre ++ l) := by
  induction l generalizing pre with
  | nil =>
    simp only [List.nil_append, chainedAfter, Bool.and_eq_true, decide_eq_true_eq] at h
    rw [List.append_nil]
    exact h.1
  | cons b l ih =>
    simp only [List.cons_append, chainedAfter, Bool.and_eq_true, decide_eq_true_eq] at h
    have := ih (pre ++ [b]) h.2
    rw [List.append_assoc] at this
    exact this

/-- The last LSN a transaction wrote in a log extended by one record. -/
theorem lastLsnOf_append_singleton (l : List LogRecord) (a : LogRecord) (txn : Int) :
    lastLsnOf txn (l ++ [a]) = if a.txn_id = txn then a.lsn else lastLsnOf txn l := by
  unfold lastLsnOf
  rw [filter_txn_append_singleton]
  by_cases h : a.txn_id = txn
  · rw [if_pos h, if_pos h, List.getLast?_append_of_ne_nil _ (List.cons_ne_nil _ _)]
    rfl
  · rw [if_neg h, if_neg h, List.append_nil]

/-- The chain of a transaction: in a well-formed log, the walk from the last
LSN a transaction wrote in a leading stretch of the log visits the records the
transaction wrote in that stretch, last first. -/
theorem chainRecords_of_lastLsn (pre suf : List LogRecord) (txn : Int) (fuel : Nat)
    (hwf : wellFormedLog (pre ++ suf))
    (hfuel : (pre.filter (fun r => r.txn_id = txn)).length ≤ fuel) :
    chainRecords (pre ++ suf) fuel (lastLsnOf txn pre) =
      (pre.filter (fun r => r.txn_id = txn)).reverse := by
  induction pre using List.reverseRecOn generalizing suf fuel with
  | nil =>
    obtain ⟨_, hlsn, _⟩ := hwf
    cases fuel with
    | zero => rfl
    | succ n =>
      unfold chainRecords
      rw [findRecord_none]
      · rfl
      · intro r hr
        have := hlsn r hr
        show r.lsn ≠ INVALID_LSN
        unfold INVALID_LSN
        omega
  | append_singleton l a ih =>
    have hwf1 : wellFormedLog (l ++ a :: suf) := by
      rw [List.append_assoc] at hwf
      exact hwf
    rw [lastLsnOf_append_singleton, filter_txn_append_singleton]
    rw [filter_txn_append_singleton] at hfuel
    by_cases ha : a.txn_id = txn
    · rw [if_pos ha] at hfuel ⊢
      rw [if_pos ha]
      simp only [List.length_append, List.length_singleton] at hfuel
      obtain ⟨hsorted, _, hchain⟩ := hwf
      cases fuel with
      | zero => omega
      | succ n =>
        unfold chainRecords
        rw [findRecord_mem _ hsorted a
          (List.mem_append_left _ (List.mem_append_right _ (List.mem_singleton_self a)))]
        have hprev : a.prev_lsn = lastLsnOf a.txn_id l := by
          have := chainedAfter_split [] l a suf (by
            rw [List.append_assoc] at hchain
            exact hchain)
          rw [List.nil_append] at this
          exact this
        have ih1 := ih (a :: suf) n hwf1 (by omega)
        rw [List.append_assoc]
        simp only [List.singleton_append, List.reverse_append, List.reverse_cons,
          List.reverse_nil, List.nil_append]
        rw [hprev, ha, ih1]
    · rw [if_neg ha] at hfuel ⊢
      rw [if_neg ha, List.append_nil]
      rw [List.append_nil] at hfuel
      rw [List.append_assoc]
      exact ih (a :: suf) fuel hwf1 hfuel

/-- The undo of one loser: in a well-formed log, the walk of undo from the
`lastLSN` of an entry of the active transaction table compensates the records
of that transaction, last first. -/
theorem undoChain_of_entry (newPageId : Int → Int) (log : List LogRecord)
    (hwf : wellFormedLog log) (e : Int × Int) (he : e ∈ (Analysis newPageId log).att)
    (d : Disk) :
    undoChain log log.length e.2 d =
      ((log.filter (fun r => r.txn_id = e.1)).reverse).foldl (fun d r => undoAction r d) d := by
  rw [undoChain_eq_foldl, Analysis_att_lastLsn newPageId log e he]
  have h := chainRecords_of_lastLsn log [] e.1 log.length (by
    rw [List.append_nil]
    exact hwf) (List.length_filter_le _ _)
  rw [List.append_nil] at h
  rw [h]

/-! ## Theorems: one slot through redo and undo -/

/-- The slot `rid` after a write to the slot `rid1`. -/
theorem slotAt_setSlot (d : Disk) (rid1 rid : RID) (f : Slot → Slot) :
    slotAt (setSlot d rid1 f) rid = if rid1 = rid then f (slotAt d rid) else slotAt d rid := by
  by_cases h : rid1 = rid
  · subst h
    simp only [slotAt, setSlot, Function.update_same, if_true]
  · rw [if_neg h]
    by_cases hp : rid.page_id = rid1.page_id
    · have hs : rid.slot_num ≠ rid1.slot_num := by
        intro hs
        apply h
        cases rid1
        cases rid
        simp only [RID.mk.injEq]
        exact ⟨hp.symm, hs.symm⟩
      unfold slotAt setSlot
      rw [hp, Function.update_same]
      exact Function.update_noteq hs _ _
    · simp only [slotAt, setSlot, Function.update_noteq hp]

/-- A write to a next pointer leaves every slot as it was. -/
theorem slotAt_setNext (d : Disk) (p next : Int) (rid : RID) :
    slotAt (setNext d p next) rid = slotAt d rid := by
  by_cases h : rid.page_id = p
  · subst h
    simp only [slotAt, setNext, Function.update_same]
  · simp only [slotAt, setNext, Function.update_noteq h]

/-- A write to a page LSN leaves every slot as it was. -/
theorem slotAt_setLsn (d : Disk) (p lsn : Int) (rid : RID) :
    slotAt (setLsn d p lsn) rid = slotAt d rid := by
  by_cases h : rid.page_id = p
  · subst h
    simp only [slotAt, setLsn, Function.update_same]
  · simp only [slotAt, setLsn, Function.update_noteq h]

/-- The compensation of a record changes the slot `rid` by `undoSlot` when the
record acts on `rid`, and not at all otherwise. -/
theorem undoAction_slot (r : LogRecord) (d : Disk) (rid : RID) :
    slotAt (undoAction r d) rid =
      if ridOf r.body = some rid then undoSlot r.body (slotAt d rid) else slotAt d rid := by
  cases hb : r.body with
  | NEWPAGE prev =>
    simp only [undoAction, hb, ridOf, reduceCtorEq, if_false]
    by_cases hprev : prev = INVALID_PAGE_ID
    · rw [if_pos hprev]
    · rw [if_neg hprev, slotAt_setNext]
  | BEGIN => simp only [undoAction, hb, ridOf, reduceCtorEq, if_false]
  | COMMIT => simp only [undoAction, hb, ridOf, reduceCtorEq, if_false]
  | ABORT => simp only [undoAction, hb, ridOf, reduceCtorEq, if_false]
  | INSERT rid1 t => simp only [undoAction, hb, ridOf, slotAt_setSlot, Option.some.injEq]
  | APPLYDELETE rid1 t => simp only [undoAction, hb, ridOf, slotAt_setSlot, Option.some.injEq]
  | MARKDELETE rid1 => simp only [undoAction, hb, ridOf, slotAt_setSlot, Option.some.injEq]
  | ROLLBACKDELETE rid1 => simp only [undoAction, hb, ridOf, slotAt_setSlot, Option.some.injEq]
  | UPDATE rid1 o n => simp only [undoAction, hb, ridOf, slotAt_setSlot, Option.some.injEq]

/-- A logged update changes the slot `rid` by `redoSlot` when the record acts
on `rid`, and not at all otherwise. -/
theorem applyRecord_slot (newPageId : Int → Int) (r : LogRecord) (d : Disk) (rid : RID) :
    slotAt (applyRecord newPageId r d) rid =
      if ridOf r.body = some rid then redoSlot r.body (slotAt d rid) else slotAt d rid := by
  cases hb : r.body with
  | NEWPAGE prev =>
    simp only [applyRecord, targetPage, redoAction, hb, ridOf, reduceCtorEq, if_false,
      slotAt_setLsn]
    by_cases hprev : prev = INVALID_PAGE_ID
    · rw [if_pos hprev]
    · rw [if_neg hprev, slotAt_setNext]
  | BEGIN => simp only [applyRecord, targetPage, hb, ridOf, Option.map, reduceCtorEq, if_false]
  | COMMIT => simp only [applyRecord, targetPage, hb, ridOf, Option.map, reduceCtorEq, if_false]
  | ABORT => simp only [applyRecord, targetPage, hb, ridOf, Option.map, reduceCtorEq, if_false]
  | INSERT rid1 t =>
    simp only [applyRecord, targetPage, redoAction, hb, ridOf, Option.map, slotAt_setLsn,
      slotAt_setSlot, Option.some.injEq]
  | APPLYDELETE rid1 t =>
    simp only [applyRecord, targetPage, redoAction, hb, ridOf, Option.map, slotAt_setLsn,
      slotAt_setSlot, Option.some.injEq]
  | MARKDELETE rid1 =>
    simp only [applyRecord, targetPage, redoAction, hb, ridOf, Option.map, slotAt_setLsn,
      slotAt_setSlot, Option.some.injEq]
  | ROLLBACKDELETE rid1 =>
    simp only [applyRecord, targetPage, redoAction, hb, ridOf, Option.map, slotAt_setLsn,
      slotAt_setSlot, Option.some.injEq]
  | UPDATE rid1 o n =>
    simp only [applyRecord, targetPage, redoAction, hb, ridOf, Option.map, slotAt_setLsn,
      slotAt_setSlot, Option.some.injEq]

/-- A fold of steps that change the slot `rid` only on the records acting on
`rid`, seen from that slot. -/
theorem slotAt_foldl (f : Disk → LogRecord → Disk) (g : LogBody → Slot → Slot) (rid : RID)
    (h : ∀ d r, slotAt (f d r) rid =
      if ridOf r.body = some rid then g r.body (slotAt d rid) else slotAt d rid)
    (l : List LogRecord) (d : Disk) :
    slotAt (l.foldl f d) rid =
      (l.filter (fun r => ridOf r.body = some rid)).foldl (fun s r => g r.body s)
        (slotAt d rid) := by
  induction l generalizing d with
  | nil => rfl
  | cons r rs ih =>
    simp only [List.foldl_cons, ih, h]
    by_cases hr : ridOf r.body = some rid
    · simp only [List.filter_cons, hr, decide_True, if_true, List.foldl_cons]
    · simp only [List.filter_cons, hr, decide_False, if_false, Bool.false_eq_true]

/-- The slot `rid` after the history of the log: the slot actions of the
records on `rid`, in log order, from the empty slot. -/
theorem replay_slot (newPageId : Int → Int) (log : List LogRecord) (rid : RID) :
    slotAt (replay newPageId log) rid =
      (recordsOn log rid).foldl (fun s r => redoSlot r.body s) Slot.empty := by
  unfold replay recordsOn
  rw [slotAt_foldl (fun d r => applyRecord newPageId r d) redoSlot rid
    (fun d r => applyRecord_slot newPageId r d rid)]
  rfl

/-- The slot `rid` after redo on the data file found after a crash is the slot
after the history of the log. -/
theorem Redo_slot (newPageId : Int → Int) (cut : Int → Int) (log : List LogRecord)
    (hwf : wellFormedLog log) (rid : RID) :
    slotAt (Redo newPageId log (crashImage newPageId cut log)) rid =
      (recordsOn log rid).foldl (fun s r => redoSlot r.body s) Slot.empty := by
  rw [← replay_slot newPageId log rid]
  have h := Redo_crashImage newPageId cut log hwf.1 hwf.2.1 rid.page_id
  have h2 := congrArg (fun v => v.2 rid.slot_num) h
  exact h2

/-- The slot `rid` after the undo of one loser: the compensations of the
records that this transaction wrote on `rid`, last first. -/
theorem undoChain_slot (newPageId : Int → Int) (log : List LogRecord) (hwf : wellFormedLog log)
    (e : Int × Int) (he : e ∈ (Analysis newPageId log).att) (d : Disk) (rid : RID) :
    slotAt (undoChain log log.length e.2 d) rid =
      (((recordsOn log rid).filter (fun r => r.txn_id = e.1)).reverse).foldl
        (fun s r => undoSlot r.body s) (slotAt d rid) := by
  rw [undoChain_of_entry newPageId log hwf e he,
    slotAt_foldl (fun d r => undoAction r d) undoSlot rid (fun d r => undoAction_slot r d rid)]
  have hfil : List.filter (fun r => decide (ridOf r.body = some rid))
      (List.filter (fun r => decide (r.txn_id = e.1)) log).reverse =
      (List.filter (fun r => decide (r.txn_id = e.1)) (recordsOn log rid)).reverse := by
    unfold recordsOn
    rw [List.filter_reverse, List.filter_filter, List.filter_filter]
    congr 1
    apply List.filter_congr
    intro x _
    exact Bool.and_comm _ _
  rw [hfil]

/-- A fold over the losers that leaves the slot `rid` as it was at every
step. -/
theorem foldl_slot_frame (step : Disk → Int × Int → Disk) (rid : RID) (att : List (Int × Int))
    (h : ∀ e ∈ att, ∀ d, slotAt (step d e) rid = slotAt d rid) (d : Disk) :
    slotAt (att.foldl step d) rid = slotAt d rid := by
  induction att generalizing d with
  | nil => rfl
  | cons e es ih =>
    simp only [List.foldl_cons]
    rw [ih (fun x hx => h x (List.mem_cons_of_mem _ hx)), h e (List.mem_cons_self _ _)]

/-- A fold over the losers, no transaction twice, in which the step of the
transaction `txn` takes the slot `rid` from `S` to `G` and the other steps
leave the slot as it was: when `txn` is among the losers and the slot starts
with `S`, it ends with `G`. -/
theorem foldl_slot_once (step : Disk → Int × Int → Disk) (rid : RID) (txn : Int) (S G : Slot)
    (att : List (Int × Int)) (hnodup : (att.map Prod.fst).Nodup)
    (hset : ∀ e ∈ att, e.1 = txn → ∀ d, slotAt d rid = S → slotAt (step d e) rid = G)
    (hframe : ∀ e ∈ att, e.1 ≠ txn → ∀ d, slotAt (step d e) rid = slotAt d rid)
    (hmem : ∃ e ∈ att, e.1 = txn) (d : Disk) (hd : slotAt d rid = S) :
    slotAt (att.foldl step d) rid = G := by
  induction att generalizing d with
  | nil =>
    obtain ⟨e, he, _⟩ := hmem
    exact absurd he (List.not_mem_nil _)
  | cons e es ih =>
    simp only [List.map_cons, List.nodup_cons] at hnodup
    obtain ⟨hnot, hes⟩ := hnodup
    simp only [List.foldl_cons]
    by_cases he : e.1 = txn
    · have hall : ∀ x ∈ es, x.1 ≠ txn := by
        intro x hx hx1
        apply hnot
        rw [he, ← hx1]
        exact List.mem_map_of_mem Prod.fst hx
      rw [foldl_slot_frame step rid es
        (fun x hx d1 => hframe x (List.mem_cons_of_mem _ hx) (hall x hx) d1)]
      exact hset e (List.mem_cons_self _ _) he d hd
    · have hmem1 : ∃ x ∈ es, x.1 = txn := by
        obtain ⟨x, hx, hx1⟩ := hmem
        rcases List.mem_cons.mp hx with h | h
        · rw [h] at hx1
          exact absurd hx1 he
        · exact ⟨x, h, hx1⟩
      apply ih hes (fun x hx => hset x (List.mem_cons_of_mem _ hx))
        (fun x hx => hframe x (List.mem_cons_of_mem _ hx)) hmem1
      rw [hframe e (List.mem_cons_self _ _) he d]
      exact hd

/-- No transaction is twice in the active transaction table. -/
theorem Analysis_att_nodup (newPageId : Int → Int) (log : List LogRecord) :
    ((Analysis newPageId log).att.map Prod.fst).Nodup := by
  induction log using List.reverseRecOn with
  | nil => exact List.nodup_nil
  | append_singleton l a ih =>
    rw [Analysis_append_singleton]
    have hsub : (((Analysis newPageId l).att.filter (fun e => e.1 ≠ a.txn_id)).map
        Prod.fst).Nodup :=
      List.Nodup.sublist (List.Sublist.map _ (List.filter_sublist _)) ih
    by_cases hend : endsTransaction a.body = true
    · simp only [analysisStep, hend, if_true]
      exact hsub
    · simp only [analysisStep, hend, Bool.false_eq_true, if_false, List.map_cons,
        List.nodup_cons]
      refine ⟨?_, hsub⟩
      intro hmem
      obtain ⟨x, hx, hx1⟩ := List.mem_map.mp hmem
      have hx2 := (List.mem_filter.mp hx).2
      simp only [ne_eq, decide_not, Bool.not_eq_true', decide_eq_false_iff_not] at hx2
      exact hx2 hx1

/-- The compensation of a record takes back what the record did to a slot on
which its operation could take place. -/
theorem undoSlot_redoSlot (b : LogBody) (s : Slot) (h : applicable b s = true) :
    undoSlot b (redoSlot b s) = s := by
  cases b <;> cases s <;>
    simp_all [applicable, undoSlot, redoSlot, markDelete, rollbackDelete, reinstall]

/-- Compensating, last first, a valid sequence of records on a slot gives the
slot back as it was before the first of them. -/
theorem undo_redo_inverse (B : List LogRecord) (s : Slot) (h : validFrom s B = true) :
    (B.reverse).foldl (fun x r => undoSlot r.body x)
      (B.foldl (fun x r => redoSlot r.body x) s) = s := by
  induction B generalizing s with
  | nil => rfl
  | cons r rs ih =>
    simp only [validFrom, Bool.and_eq_true] at h
    simp only [List.foldl_cons, List.reverse_cons, List.foldl_append, List.foldl_nil,
      ih _ h.2]
    exact undoSlot_redoSlot r.body s h.1

/-- A committed transaction is not among the losers. -/
theorem committed_not_loser (newPageId : Int → Int) (log : List LogRecord) (txn : Int)
    (hc : committedIn log txn) (e : Int × Int) (he : e ∈ (Analysis newPageId log).att) :
    e.1 ≠ txn := by
  intro h
  obtain ⟨c, hlast, hbody⟩ := hc
  obtain ⟨r, hr, hend, _⟩ := (Analysis_att newPageId log e.1 e.2).mp he
  rw [h, hlast] at hr
  have hcr : c = r := Option.some.inj hr
  rw [← hcr, hbody] at hend
  exact absurd hend (by decide)

/-- A transaction that finished, by `COMMIT` or by `ABORT`, is not among the
losers. -/
theorem finished_not_loser (newPageId : Int → Int) (log : List LogRecord) (txn : Int)
    (hc : finishedIn log txn) (e : Int × Int) (he : e ∈ (Analysis newPageId log).att) :
    e.1 ≠ txn := by
  intro h
  obtain ⟨c, hlast, hbody⟩ := hc
  obtain ⟨r, hr, hend, _⟩ := (Analysis_att newPageId log e.1 e.2).mp he
  rw [h, hlast] at hr
  have hcr : c = r := Option.some.inj hr
  rw [← hcr, hbody] at hend
  exact absurd hend (by decide)

/-- A committed transaction finished. -/
theorem committed_finished (log : List LogRecord) (txn : Int) (hc : committedIn log txn) :
    finishedIn log txn := by
  obtain ⟨c, hlast, hbody⟩ := hc
  exact ⟨c, hlast, by rw [hbody]; rfl⟩

/-- An unfinished transaction that wrote a record is among the losers. -/
theorem unfinished_is_loser (newPageId : Int → Int) (log : List LogRecord) (r : LogRecord)
    (hr : r ∈ log) (hu : unfinishedIn log r.txn_id) :
    ∃ e ∈ (Analysis newPageId log).att, e.1 = r.txn_id := by
  have hmem : r ∈ log.filter (fun x => x.txn_id = r.txn_id) := by
    rw [List.mem_filter]
    exact ⟨hr, by simp⟩
  cases hlast : (log.filter (fun x => x.txn_id = r.txn_id)).getLast? with
  | none =>
    rw [List.getLast?_eq_none_iff] at hlast
    rw [hlast] at hmem
    exact absurd hmem (List.not_mem_nil _)
  | some c =>
    have hc : c ∈ log.filter (fun x => x.txn_id = r.txn_id) := List.mem_of_getLast?_eq_some hlast
    rw [List.mem_filter] at hc
    have hctxn : c.txn_id = r.txn_id := of_decide_eq_true hc.2
    refine ⟨(r.txn_id, c.lsn), ?_, rfl⟩
    rw [Analysis_att]
    exact ⟨c, hlast, hu c hc.1 hctxn, rfl⟩

/-! ## Theorems: recovery -/

/-- `get_tuple` reads the slot. -/
theorem GetTuple_eq (d : Disk) (rid : RID) :
    GetTuple d rid = match slotAt d rid with
      | Slot.live t => some t
      | _ => none := rfl

/-- The slot `rid` after recovery. In a well-formed durable log whose records
on `rid` are first records `A` of transactions that finished, by `COMMIT` or
by `ABORT`, and then records `B` of one unfinished transaction, each written
by an operation that could take place, whatever part of the pages had reached
the disk at the crash, `Redo` followed by `Undo` leaves in the slot what the
records `A` left there. -/
theorem recovered_slot_finished (newPageId : Int → Int) (cut : Int → Int)
    (log : List LogRecord)
    (hwf : wellFormedLog log) (rid : RID) (A B : List LogRecord) (txn : Int)
    (hon : recordsOn log rid = A ++ B) (hA : ∀ r ∈ A, finishedIn log r.txn_id)
    (hB : ∀ r ∈ B, r.txn_id = txn) (hT : unfinishedIn log txn)
    (hvalid : validFrom (slotAfter A) B = true) :
    slotAt (Undo newPageId log (Redo newPageId log (crashImage newPageId cut log))) rid =
      slotAfter A := by
  have hredo : slotAt (Redo newPageId log (crashImage newPageId cut log)) rid =
      B.foldl (fun x r => redoSlot r.body x) (slotAfter A) := by
    rw [Redo_slot newPageId cut log hwf rid, hon, List.foldl_append]
    rfl
  have hfilA : ∀ e ∈ (Analysis newPageId log).att,
      A.filter (fun r => r.txn_id = e.1) = [] := by
    intro e he
    rw [List.filter_eq_nil_iff]
    intro r hr
    have hne := finished_not_loser newPageId log r.txn_id (hA r hr) e he
    simp only [decide_eq_true_eq]
    exact fun h => hne h.symm
  have hentry : ∀ e ∈ (Analysis newPageId log).att, ∀ d,
      slotAt (undoChain log log.length e.2 d) rid =
        ((B.filter (fun r => r.txn_id = e.1)).reverse).foldl (fun x r => undoSlot r.body x)
          (slotAt d rid) := by
    intro e he d
    rw [undoChain_slot newPageId log hwf e he d rid, hon, List.filter_append, hfilA e he,
      List.nil_append]
  have hframe : ∀ e ∈ (Analysis newPageId log).att, e.1 ≠ txn → ∀ d,
      slotAt (undoChain log log.length e.2 d) rid = slotAt d rid := by
    intro e he hne d
    rw [hentry e he d]
    have hnil : B.filter (fun r => r.txn_id = e.1) = [] := by
      rw [List.filter_eq_nil_iff]
      intro r hr
      simp only [decide_eq_true_eq]
      rw [hB r hr]
      exact fun h => hne h.symm
    rw [hnil]
    rfl
  unfold Undo
  by_cases hB0 : B = []
  · rw [foldl_slot_frame (fun d e => undoChain log log.length e.2 d) rid _, hredo, hB0]
    · rfl
    · intro e he d
      rw [hentry e he d, hB0]
      rfl
  · obtain ⟨r, hr⟩ := List.exists_mem_of_ne_nil B hB0
    have hrlog : r ∈ log := by
      have h1 : r ∈ recordsOn log rid := by
        rw [hon]
        exact List.mem_append_right _ hr
      exact (List.mem_filter.mp h1).1
    have hloser : ∃ e ∈ (Analysis newPageId log).att, e.1 = txn := by
      have hu : unfinishedIn log r.txn_id := by
        rw [hB r hr]
        exact hT
      have := unfinished_is_loser newPageId log r hrlog hu
      rw [hB r hr] at this
      exact this
    apply foldl_slot_once (fun d e => undoChain log log.length e.2 d) rid txn
      (B.foldl (fun x r => redoSlot r.body x) (slotAfter A)) (slotAfter A) _
      (Analysis_att_nodup newPageId log) _ hframe hloser _ hredo
    intro e he he1 d hd
    rw [hentry e he d, hd]
    have hall : B.filter (fun r => r.txn_id = e.1) = B := by
      rw [List.filter_eq_self]
      intro x hx
      simp only [decide_eq_true_eq]
      rw [hB x hx, he1]
    rw [hall]
    exact undo_redo_inverse B (slotAfter A) hvalid

/-- The slot `rid` after recovery when the records before those of the
unfinished transaction are of committed transactions. -/
theorem recovered_slot (newPageId : Int → Int) (cut : Int → Int) (log : List LogRecord)
    (hwf : wellFormedLog log) (rid : RID) (A B : List LogRecord) (txn : Int)
    (hon : recordsOn log rid = A ++ B) (hA : ∀ r ∈ A, committedIn log r.txn_id)
    (hB : ∀ r ∈ B, r.txn_id = txn) (hT : unfinishedIn log txn)
    (hvalid : validFrom (slotAfter A) B = true) :
    slotAt (Undo newPageId log (Redo newPageId log (crashImage newPageId cut log))) rid =
      slotAfter A :=
  recovered_slot_finished newPageId cut log hwf rid A B txn hon
    (fun r hr => committed_finished log r.txn_id (hA r hr)) hB hT hvalid

/-- C13. Redo of a committed transaction: in a well-formed durable log in
which a committed transaction inserted the tuple `t` at `rid`, whatever part
of the pages had reached the disk at the crash, after `Redo` followed by
`Undo` `GetTuple` at `rid` succeeds and returns `t`. The tuple is the one the
finished transactions left at `rid`: the records on `rid` before the insert
(`A`) are of transactions that committed or aborted, the records of such
transactions after it (`R`, those of an aborted transaction with its rollback,
or none) leave the inserted tuple in place, and the last records on `rid`
(`B`, or none) are valid records of one transaction still unfinished at the
crash. -/
theorem committed_insert_is_recovered (newPageId : Int → Int) (cut : Int → Int)
    (log : List LogRecord) (rI : LogRecord) (rid : RID) (t : Tuple)
    (A R B : List LogRecord) (txn : Int) (hwf : wellFormedLog log)
    (hbody : rI.body = LogBody.INSERT rid t) (hcommit : committedIn log rI.txn_id)
    (hon : recordsOn log rid = A ++ rI :: (R ++ B))
    (hA : ∀ r ∈ A, finishedIn log r.txn_id) (hR : ∀ r ∈ R, finishedIn log r.txn_id)
    (hnet : R.foldl (fun s r => redoSlot r.body s) (Slot.live t) = Slot.live t)
    (hB : ∀ r ∈ B, r.txn_id = txn) (hT : unfinishedIn log txn)
    (hvalid : validFrom (Slot.live t) B = true) :
    GetTuple (Undo newPageId log (Redo newPageId log (crashImage newPageId cut log))) rid =
      some t := by
  have hafter : slotAfter (A ++ rI :: R) = Slot.live t := by
    simp only [slotAfter, List.foldl_append, List.foldl_cons, hbody, redoSlot]
    exact hnet
  have hslot := recovered_slot_finished newPageId cut log hwf rid (A ++ rI :: R) B txn
    (by rw [hon, List.append_assoc]; rfl)
    (fun r hr => by
      rcases List.mem_append.mp hr with h | h
      · exact hA r h
      · rcases List.mem_cons.mp h with h1 | h1
        · rw [h1]
          exact committed_finished log rI.txn_id hcommit
        · exact hR r h1)
    hB hT (by rw [hafter]; exact hvalid)
  rw [GetTuple_eq, hslot, hafter]

/-- C13 at two logs. The log of the redo test, with page 0 written to disk
before the insert: the sample tuple is read back at the sample record id. The
log in which transaction 1 then mark-deletes the tuple, rolls back and aborts
and transaction 2 mark-deletes it without finishing, with page 0 written to
disk after the last record: the sample tuple is read back as well. -/
theorem committed_insert_is_recovered_witness :
    (wellFormedLog committedInsertLog ∧ committedIn committedInsertLog 0 ∧
      GetTuple (Undo (fun _ => 0) committedInsertLog
        (Redo (fun _ => 0) committedInsertLog
          (crashImage (fun _ => 0) (fun _ => 1) committedInsertLog))) sampleRid =
        some sampleTuple) ∧
    wellFormedLog abortedDeleteLog ∧ committedIn abortedDeleteLog 0 ∧
    finishedIn abortedDeleteLog 1 ∧ unfinishedIn abortedDeleteLog 2 ∧
    GetTuple (Undo (fun _ => 0) abortedDeleteLog
      (Redo (fun _ => 0) abortedDeleteLog
        (crashImage (fun _ => 0) (fun _ => 9) abortedDeleteLog))) sampleRid =
      some sampleTuple :=
  have hwf : wellFormedLog committedInsertLog := ⟨by decide, by decide, by decide⟩
  have hc : committedIn committedInsertLog 0 := ⟨⟨3, 0, 2, LogBody.COMMIT⟩, by decide, rfl⟩
  have hu : unfinishedIn committedInsertLog 1 := by
    unfold unfinishedIn
    decide
  have hwf2 : wellFormedLog abortedDeleteLog := ⟨by decide, by decide, by decide⟩
  have hc2 : committedIn abortedDeleteLog 0 := ⟨⟨3, 0, 2, LogBody.COMMIT⟩, by decide, rfl⟩
  have hf2 : finishedIn abortedDeleteLog 1 := ⟨⟨7, 1, 6, LogBody.ABORT⟩, by decide, rfl⟩
  have hu2 : unfinishedIn abortedDeleteLog 2 := by
    unfold unfinishedIn
    decide
  ⟨⟨hwf, hc,
    committed_insert_is_recovered (fun _ => 0) (fun _ => 1) committedInsertLog
      ⟨2, 0, 1, LogBody.INSERT sampleRid sampleTuple⟩ sampleRid sampleTuple [] [] [] 1 hwf rfl hc
      (by decide) (fun r hr => absurd hr (List.not_mem_nil _))
      (fun r hr => absurd hr (List.not_mem_nil _)) rfl
      (fun r hr => absurd hr (List.not_mem_nil _)) hu rfl⟩,
    hwf2, hc2, hf2, hu2,
    committed_insert_is_recovered (fun _ => 0) (fun _ => 9) abortedDeleteLog
      ⟨2, 0, 1, LogBody.INSERT sampleRid sampleTuple⟩ sampleRid sampleTuple []
      [⟨5, 1, 4, LogBody.MARKDELETE sampleRid⟩, ⟨6, 1, 5, LogBody.ROLLBACKDELETE sampleRid⟩]
      [⟨9, 2, 8, LogBody.MARKDELETE sampleRid⟩] 2 hwf2 rfl hc2
      (by decide) (fun r hr => absurd hr (List.not_mem_nil _))
      (fun r hr => by
        simp only [List.mem_cons, List.mem_singleton, List.not_mem_nil, or_false] at hr
        rcases hr with h | h
        · rw [h]; exact hf2
        · rw [h]; exact hf2)
      rfl
      (fun r hr => by
        rw [List.mem_singleton.mp hr])
      hu2 rfl⟩

/-- C14. Undo of losers: in a well-formed durable log, whatever part of the
pages had reached the disk at the crash, after `Redo` followed by `Undo`
(1) `GetTuple` fails at the record id of a tuple inserted by a transaction that
has neither `COMMIT` nor `ABORT` in the log, and (2) `GetTuple` succeeds and
returns the original tuple at the record id of a tuple that a committed
transaction inserted and such a transaction mark-deleted and apply-deleted.
The records on the record id are those of an engine with record locks: before
the write of the unfinished transaction only records of committed
transactions, from it on only valid records of that transaction. -/
theorem loser_writes_are_undone (newPageId : Int → Int) (cut : Int → Int)
    (log : List LogRecord) (hwf : wellFormedLog log) :
    (∀ (rI : LogRecord) (rid : RID) (t : Tuple) (A B : List LogRecord),
      rI.body = LogBody.INSERT rid t → unfinishedIn log rI.txn_id →
      recordsOn log rid = A ++ rI :: B → (∀ r ∈ A, committedIn log r.txn_id) →
      (∀ r ∈ B, r.txn_id = rI.txn_id) → validFrom (slotAfter A) (rI :: B) = true →
      GetTuple (Undo newPageId log (Redo newPageId log (crashImage newPageId cut log))) rid =
        none) ∧
    (∀ (rI rM rA : LogRecord) (rid : RID) (t : Tuple) (A B : List LogRecord),
      rI.body = LogBody.INSERT rid t → committedIn log rI.txn_id →
      rM.body = LogBody.MARKDELETE rid → rA.body = LogBody.APPLYDELETE rid t →
      rM.txn_id = rA.txn_id → unfinishedIn log rA.txn_id →
      recordsOn log rid = A ++ rI :: rM :: rA :: B → (∀ r ∈ A, committedIn log r.txn_id) →
      (∀ r ∈ B, r.txn_id = rA.txn_id) → validFrom Slot.empty B = true →
      GetTuple (Undo newPageId log (Redo newPageId log (crashImage newPageId cut log))) rid =
        some t) := by
  refine ⟨fun rI rid t A B hbody hloser hon hA hB hvalid => ?_,
    fun rI rM rA rid t A B hI hcommit hM hA1 htxn hloser hon hA hB hvalid => ?_⟩
  · have hslot := recovered_slot newPageId cut log hwf rid A (rI :: B) rI.txn_id hon hA
      (fun r hr => by
        rcases List.mem_cons.mp hr with h | h
        · rw [h]
        · exact hB r h)
      hloser hvalid
    have hempty : slotAfter A = Slot.empty := by
      simp only [validFrom, hbody, applicable, Bool.and_eq_true, decide_eq_true_eq] at hvalid
      exact hvalid.1
    rw [GetTuple_eq, hslot, hempty]
  · have hafter : slotAfter (A ++ [rI]) = Slot.live t := by
      simp only [slotAfter, List.foldl_append, List.foldl_cons, List.foldl_nil, hI, redoSlot]
    have hslot := recovered_slot newPageId cut log hwf rid (A ++ [rI]) (rM :: rA :: B)
      rA.txn_id (by rw [hon, List.append_assoc]; rfl)
      (fun r hr => by
        rcases List.mem_append.mp hr with h | h
        · exact hA r h
        · rw [List.mem_singleton.mp h]
          exact hcommit)
      (fun r hr => by
        rcases List.mem_cons.mp hr with h | h
        · rw [h, htxn]
        · rcases List.mem_cons.mp h with h2 | h2
          · rw [h2]
          · exact hB r h2)
      hloser (by
        rw [hafter]
        simp only [validFrom, hM, hA1, applicable, redoSlot, markDelete, decide_True,
          Bool.true_and]
        exact hvalid)
    rw [GetTuple_eq, hslot, hafter]

/-- C14 at the log of the undo tests, with page 0 written to disk after all
eight records: the uncommitted insert in slot 1 is not found, and the tuple of
slot 0, mark-deleted and apply-deleted without commit, is read back. -/
theorem loser_writes_are_undone_witness :
    wellFormedLog loserLog ∧
    GetTuple (Undo (fun _ => 0) loserLog
      (Redo (fun _ => 0) loserLog (crashImage (fun _ => 0) (fun _ => 7) loserLog))) ⟨0, 1⟩ =
      none ∧
    GetTuple (Undo (fun _ => 0) loserLog
      (Redo (fun _ => 0) loserLog (crashImage (fun _ => 0) (fun _ => 7) loserLog))) sampleRid =
      some sampleTuple :=
  have hwf : wellFormedLog loserLog := ⟨by decide, by decide, by decide⟩
  have hc : committedIn loserLog 0 := ⟨⟨3, 0, 2, LogBody.COMMIT⟩, by decide, rfl⟩
  have hu : unfinishedIn loserLog 1 := by
    unfold unfinishedIn
    decide
  ⟨hwf,
    (loser_writes_are_undone (fun _ => 0) (fun _ => 7) loserLog hwf).1
      ⟨5, 1, 4, LogBody.INSERT ⟨0, 1⟩ [1, 2]⟩ ⟨0, 1⟩ [1, 2] [] [] rfl hu (by decide)
      (fun r hr => absurd hr (List.not_mem_nil _)) (fun r hr => absurd hr (List.not_mem_nil _))
      (by decide),
    (loser_writes_are_undone (fun _ => 0) (fun _ => 7) loserLog hwf).2
      ⟨2, 0, 1, LogBody.INSERT sampleRid sampleTuple⟩ ⟨6, 1, 5, LogBody.MARKDELETE sampleRid⟩
      ⟨7, 1, 6, LogBody.APPLYDELETE sampleRid sampleTuple⟩ sampleRid sampleTuple [] [] rfl hc
      rfl rfl rfl hu (by decide) (fun r hr => absurd hr (List.not_mem_nil _))
      (fun r hr => absurd hr (List.not_mem_nil _)) rfl⟩

/-! ## Theorems: insertion into an ordered page -/

/-- The two outcomes of the scan of `Lookup`: no slot of `1 .. size - 1` has a
key `<= key` and the child of slot 0 is returned, or the child of the largest
such slot is returned. -/
theorem Lookup_cases (p : BPlusTreeInternalPage K) (key : K) (comparator : K → K → Int) :
    ((∀ j, 1 ≤ j → j < p.size → ¬ comparator (p.array j).1 key ≤ 0) ∧
        Lookup p key comparator = (p.array 0).2) ∨
    (∃ r, 1 ≤ r ∧ r < p.size ∧ comparator (p.array r).1 key ≤ 0 ∧
        (∀ j, r < j → j < p.size → ¬ comparator (p.array j).1 key ≤ 0) ∧
        Lookup p key comparator = (p.array r).2) := by
  unfold Lookup GetSize
  rcases lookup_scan (fun b => comparator (p.array b).1 key ≤ 0) (p.size - 1).toNat 1 0 with
    ⟨hno, heq⟩ | ⟨r, h1, h2, h3, h4, heq⟩
  · left
    refine ⟨fun j hj1 hj2 => hno j hj1 (by omega), ?_⟩
    simp only [heq]
  · right
    refine ⟨r, h1, by omega, h3, fun j hj1 hj2 => h4 j hj1 (by omega), ?_⟩
    simp only [heq]

/-- The child returned by `Lookup` when slot `r` is the largest slot with a key
`<= key`. -/
theorem Lookup_of_largest (p : BPlusTreeInternalPage K) (key : K) (comparator : K → K → Int)
    (r : Int) (hr1 : 1 ≤ r) (hr2 : r < p.size) (hle : comparator (p.array r).1 key ≤ 0)
    (hmax : ∀ j, r < j → j < p.size → ¬ comparator (p.array j).1 key ≤ 0) :
    Lookup p key comparator = (p.array r).2 := by
  rcases Lookup_cases p key comparator with ⟨hno, _⟩ | ⟨s, h1, h2, h3, h4, heq⟩
  · exact absurd hle (hno r hr1 hr2)
  · have hsr : s = r := by
      rcases lt_trichotomy s r with hlt | heq2 | hgt
      · exact absurd hle (h4 r hlt hr2)
      · exact heq2
      · exact absurd h3 (hmax s hgt h2)
    rw [heq, hsr]

/-- The child returned by `Lookup` when no slot has a key `<= key`. -/
theorem Lookup_of_none (p : BPlusTreeInternalPage K) (key : K) (comparator : K → K → Int)
    (hnone : ∀ j, 1 ≤ j → j < p.size → ¬ comparator (p.array j).1 key ≤ 0) :
    Lookup p key comparator = (p.array 0).2 := by
  rcases Lookup_cases p key comparator with ⟨_, heq⟩ | ⟨s, h1, h2, h3, _, _⟩
  · exact heq
  · exact absurd h3 (hnone s h1 h2)

/-- The slots after `InsertNodeAfter` when `old_value` is first stored at slot
`pidx`: the slots up to `pidx` are kept, slot `pidx + 1` holds the new pair,
and a later slot `j <= size` holds what slot `j - 1` held. -/
theorem InsertNodeAfter_slots (p : BPlusTreeInternalPage K) (old_value : Int) (new_key : K)
    (new_value : Int) (pidx : Int) (hp0 : 0 ≤ pidx) (hp1 : pidx < p.size)
    (hval : (p.array pidx).2 = old_value)
    (hfirst : ∀ j, 0 ≤ j → j < pidx → (p.array j).2 ≠ old_value) :
    ∃ q, InsertNodeAfter p old_value new_key new_value = some (p.size + 1, q) ∧
      q.size = p.size + 1 ∧
      (∀ j, j ≤ pidx → q.array j = p.array j) ∧
      q.array (pidx + 1) = (new_key, new_value) ∧
      (∀ j, pidx + 1 < j → j ≤ p.size → q.array j = p.array (j - 1)) := by
  obtain ⟨hv0, hv1, hv2, hv3⟩ := ValueIndex_first p old_value ⟨pidx, hp0, hp1, hval⟩
  have hvi : ValueIndex p old_value = pidx := by
    rcases lt_trichotomy (ValueIndex p old_value) pidx with hlt | heq | hgt
    · exact absurd hv2 (hfirst _ hv0 hlt)
    · exact heq
    · exact absurd hval (hv3 pidx hp0 hgt)
  have hne : ValueIndex p old_value ≠ -1 := by omega
  refine ⟨_, InsertNodeAfter_eq p old_value new_key new_value hne, rfl, fun j hj => ?_, ?_,
    fun j hj1 hj2 => ?_⟩
  · show Function.update _ _ _ j = _
    rw [hvi, Function.update_noteq (by omega), loopDown_shift, if_neg (by omega)]
  · show Function.update _ _ _ (pidx + 1) = _
    rw [hvi, Function.update_same]
  · show Function.update _ _ _ j = _
    rw [hvi, Function.update_noteq (by omega), loopDown_shift, if_pos (by omega)]

/-- C21. On a page whose keys in the slots `1 .. n - 1` are strictly ascending
under a comparator that is a strict total order, and whose child array holds
`old_value` first at slot `pidx`: when `new_key` is greater than the key of
slot `pidx` (for `pidx >= 1`) and less than the key of slot `pidx + 1` (for
`pidx + 1 < n`), `InsertNodeAfter` returns, the keys of the slots `1 .. n` of
the new page are strictly ascending, `Lookup new_key` returns `new_value`, and
`Lookup k` for every `k` less than `new_key` returns what it returned before. -/
theorem InsertNodeAfter_keeps_order (p : BPlusTreeInternalPage K) (comparator : K → K → Int)
    (old_value : Int) (new_key : K) (new_value : Int) (pidx : Int)
    (hcmp : strictTotalOrder comparator) (hasc : keysAscending p comparator)
    (hp0 : 0 ≤ pidx) (hp1 : pidx < GetSize p) (hval : ValueAt p pidx = old_value)
    (hfirst : ∀ j, 0 ≤ j → j < pidx → ValueAt p j ≠ old_value)
    (hlo : 1 ≤ pidx → comparator (KeyAt p pidx) new_key < 0)
    (hhi : pidx + 1 < GetSize p → comparator new_key (KeyAt p (pidx + 1)) < 0) :
    ∃ q, InsertNodeAfter p old_value new_key new_value = some (GetSize p + 1, q) ∧
      GetSize q = GetSize p + 1 ∧
      keysAscending q comparator ∧
      Lookup q new_key comparator = new_value ∧
      ∀ k, comparator k new_key < 0 → Lookup q k comparator = Lookup p k comparator := by
  obtain ⟨hrefl, hanti, htrans, _⟩ := hcmp
  have hp1' : pidx < p.size := hp1
  have hasc' : ∀ i j, 1 ≤ i → i < j → j < p.size →
      comparator (p.array i).1 (p.array j).1 < 0 := hasc
  obtain ⟨q, hq, hsz, hlow, hmid, hhigh⟩ :=
    InsertNodeAfter_slots p old_value new_key new_value pidx hp0 hp1' hval hfirst
  have hbelow : ∀ i, 1 ≤ i → i ≤ pidx → comparator (p.array i).1 new_key < 0 := by
    intro i hi1 hi2
    rcases eq_or_lt_of_le hi2 with heq | hlt
    · rw [heq]; exact hlo (by omega)
    · exact htrans _ _ _ (hasc' i pidx hi1 hlt hp1') (hlo (by omega))
  have habove : ∀ j, pidx + 1 ≤ j → j < p.size → comparator new_key (p.array j).1 < 0 := by
    intro j hj1 hj2
    rcases eq_or_lt_of_le hj1 with heq | hlt
    · rw [← heq]; exact hhi (by show pidx + 1 < p.size; omega)
    · exact htrans _ _ _ (hhi (by show pidx + 1 < p.size; omega))
        (hasc' (pidx + 1) j (by omega) hlt hj2)
  refine ⟨q, hq, hsz, ?_, ?_, ?_⟩
  · intro i j hi hij hj
    have hj' : j < p.size + 1 := by rw [← hsz]; exact hj
    show comparator (q.array i).1 (q.array j).1 < 0
    rcases lt_trichotomy j (pidx + 1) with hjl | hje | hjg
    · rw [hlow i (by omega), hlow j (by omega)]
      exact hasc' i j hi hij (by omega)
    · rw [hlow i (by omega), hje, hmid]
      exact hbelow i hi (by omega)
    · rw [hhigh j hjg (by omega)]
      rcases lt_trichotomy i (pidx + 1) with hil | hie | hig
      · rw [hlow i (by omega)]
        exact hasc' i (j - 1) hi (by omega) (by omega)
      · rw [hie, hmid]
        exact habove (j - 1) (by omega) (by omega)
      · rw [hhigh i hig (by omega)]
        exact hasc' (i - 1) (j - 1) (by omega) (by omega) (by omega)
  · have h := Lookup_of_largest q new_key comparator (pidx + 1) (by omega)
      (by rw [hsz]; omega)
      (by rw [hmid]; exact le_of_eq (hrefl new_key))
      (fun j hj1 hj2 => by
        have hj' : j < p.size + 1 := by rw [← hsz]; exact hj2
        rw [hhigh j hj1 (by omega)]
        have := (hanti _ _).mp (habove (j - 1) (by omega) (by omega))
        omega)
    rw [h, hmid]
  · intro k hk
    have hknew : ¬ comparator new_key k ≤ 0 := by
      have := (hanti _ _).mp hk
      omega
    have hkabove : ∀ j, pidx + 1 ≤ j → j < p.size → ¬ comparator (p.array j).1 k ≤ 0 := by
      intro j hj1 hj2
      have := (hanti _ _).mp (htrans _ _ _ hk (habove j hj1 hj2))
      omega
    rcases Lookup_cases p k comparator with ⟨hno, heq⟩ | ⟨r, h1, h2, h3, h4, heq⟩
    · rw [heq, Lookup_of_none q k comparator, hlow 0 hp0]
      intro j hj1 hj2
      have hj' : j < p.size + 1 := by rw [← hsz]; exact hj2
      rcases lt_trichotomy j (pidx + 1) with hjl | hje | hjg
      · rw [hlow j (by omega)]; exact hno j hj1 (by omega)
      · rw [hje, hmid]; exact hknew
      · rw [hhigh j hjg (by omega)]; exact hno (j - 1) (by omega) (by omega)
    · have hr : r ≤ pidx := by
        by_contra hc
        exact hkabove r (by omega) h2 h3
      rw [heq, Lookup_of_largest q k comparator r h1 (by rw [hsz]; omega)
        (by rw [hlow r hr]; exact h3) ?_, hlow r hr]
      intro j hj1 hj2
      have hj' : j < p.size + 1 := by rw [← hsz]; exact hj2
      rcases lt_trichotomy j (pidx + 1) with hjl | hje | hjg
      · rw [hlow j (by omega)]; exact h4 j hj1 (by omega)
      · rw [hje, hmid]; exact hknew
      · rw [hhigh j hjg (by omega)]; exact h4 (j - 1) (by omega) (by omega)

/-- Witness of C21: inserting (15, 150) after the child 101 of `samplePage`,
between the keys 10 and 20. -/
theorem InsertNodeAfter_keeps_order_witness :
    ∃ q, InsertNodeAfter samplePage 101 15 150 = some (GetSize samplePage + 1, q) ∧
      GetSize q = GetSize samplePage + 1 ∧
      keysAscending q sampleComparator ∧
      Lookup q 15 sampleComparator = 150 ∧
      ∀ k, sampleComparator k 15 < 0 →
        Lookup q k sampleComparator = Lookup samplePage k sampleComparator :=
  InsertNodeAfter_keeps_order samplePage sampleComparator 101 15 150 1
    sampleComparator_strictTotalOrder samplePage_keysAscending (by decide) (by decide)
    (by decide)
    (fun j hj0 hj1 => by
      have hj : j = 0 := by omega
      rw [hj]; decide)
    (fun _ => by decide) (fun _ => by decide)

/-! ## Theorems: pin counts and dirty flags -/

/-- Replacing the frame of a page by one with the same pin count changes no
pin count of the pool. -/
theorem pinCount_update (bpm : BufferPoolManager K) (page_id : Int) (f g : Frame K)
    (h : bpm page_id = some f) (hpin : g.pin_count = f.pin_count) (q : Int) :
    pinCount (Function.update bpm page_id (some g)) q = pinCount bpm q := by
  unfold pinCount
  by_cases hq : q = page_id
  · rw [hq, Function.update_same, h, Option.map_some', Option.map_some', hpin]
  · rw [Function.update_noteq hq]

/-- Reparenting the frame of a page, if any, keeps its pin count. -/
theorem pinCount_map_reparented (o : Option (Frame K)) (parent : Int) :
    (o.map (reparented parent)).map (fun f => f.pin_count) = o.map (fun f => f.pin_count) := by
  cases o <;> rfl

/-- The pool after the fetch / write / unpin of one child and then of the
parent, as in the two redistribution methods: every pin count is as before,
and the child and the parent are dirty. -/
theorem child_then_parent_frames (bpm : BufferPoolManager K) (child parent new_parent : Int)
    (f0 fq : Frame K) (g : BPlusTreeInternalPage K → BPlusTreeInternalPage K)
    (h0 : bpm child = some f0)
    (hq : Function.update bpm child (some (reparented new_parent f0)) parent = some fq) :
    (∀ q, pinCount
        (Function.update (Function.update bpm child (some (reparented new_parent f0))) parent
          (some (rewritten g fq))) q = pinCount bpm q) ∧
    dirtyFlag
        (Function.update (Function.update bpm child (some (reparented new_parent f0))) parent
          (some (rewritten g fq))) child = some true ∧
    dirtyFlag
        (Function.update (Function.update bpm child (some (reparented new_parent f0))) parent
          (some (rewritten g fq))) parent = some true := by
  refine ⟨fun q => ?_, ?_, ?_⟩
  · rw [pinCount_update _ parent fq (rewritten g fq) hq rfl,
      pinCount_update bpm child f0 (reparented new_parent f0) h0 rfl]
  · unfold dirtyFlag
    by_cases hc : child = parent
    · rw [hc, Function.update_same]; rfl
    · rw [Function.update_noteq hc, Function.update_same]; rfl
  · unfold dirtyFlag
    rw [Function.update_same]; rfl

/-- C22. With the pool providing the pages a method fetches (for `MoveHalfTo`
the children of the moved slots only, no parent), each of `MoveHalfTo`,
`MoveAllTo`, `MoveFirstToEndOf` and `MoveLastToFrontOf` completes and leaves
the pin count of every page as it was before the call (every fetch is matched
by one unpin), and every page it fetched, each reparented child and the
parent where it is fetched, is dirty. -/
theorem move_methods_balance_pins (self recipient : BPlusTreeInternalPage K)
    (index_in_parent parent_index : Int) (bpm : BufferPoolManager K)
    (hn : 1 ≤ GetSize self) :
    ((∀ i, (GetSize self + 1) / 2 ≤ i → i < GetSize self → (bpm (ValueAt self i)).isSome) →
      ∃ r, MoveHalfTo self recipient bpm = some r ∧
      (∀ q, pinCount r.bpm q = pinCount bpm q) ∧
      (∀ i, (GetSize self + 1) / 2 ≤ i → i < GetSize self →
        dirtyFlag r.bpm (ValueAt self i) = some true)) ∧
    ((∀ i, 0 ≤ i → i < GetSize self → (bpm (ValueAt self i)).isSome) →
      (∃ fp, bpm (GetParentPageId self) = some fp ∧
        ValueAt fp.data index_in_parent = GetPageId self) →
      ∃ r, MoveAllTo self recipient index_in_parent bpm = some r ∧
      (∀ q, pinCount r.bpm q = pinCount bpm q) ∧
      (∀ i, 0 ≤ i → i < GetSize self → dirtyFlag r.bpm (ValueAt self i) = some true) ∧
      dirtyFlag r.bpm (GetParentPageId self) = some true) ∧
    ((bpm (ValueAt self 0)).isSome → (bpm (GetParentPageId self)).isSome →
      ∃ r, MoveFirstToEndOf self recipient bpm = some r ∧
      (∀ q, pinCount r.bpm q = pinCount bpm q) ∧
      dirtyFlag r.bpm (ValueAt self 0) = some true ∧
      dirtyFlag r.bpm (GetParentPageId self) = some true) ∧
    ((bpm (ValueAt self (GetSize self - 1))).isSome → (bpm (GetParentPageId self)).isSome →
      ∃ r, MoveLastToFrontOf self recipient parent_index bpm = some r ∧
      (∀ q, pinCount r.bpm q = pinCount bpm q) ∧
      dirtyFlag r.bpm (ValueAt self (GetSize self - 1)) = some true ∧
      dirtyFlag r.bpm (GetParentPageId self) = some true) := by
  have hn' : 1 ≤ self.size := hn
  -- a single moved slot `m`, as in the two redistribution methods
  have hone : ∀ m : Int, (bpm (self.array m).2).isSome → (bpm self.parent_page_id).isSome →
      ∃ f0 fq, bpm (self.array m).2 = some f0 ∧
        Function.update bpm (self.array m).2 (some (reparented recipient.page_id f0))
          self.parent_page_id = some fq := by
    intro m hm hpp
    obtain ⟨f0, hf0⟩ := Option.isSome_iff_exists.mp hm
    obtain ⟨fp, hfp⟩ := Option.isSome_iff_exists.mp hpp
    by_cases hc : self.parent_page_id = (self.array m).2
    · exact ⟨f0, _, hf0, by rw [hc, Function.update_same]⟩
    · exact ⟨f0, fp, hf0, by rw [Function.update_noteq hc, hfp]⟩
  refine ⟨fun hres => ?_, fun hres hpar => ?_, fun h0 hpp => ?_, fun h0 hpp => ?_⟩
  · have hres' : ∀ i, (self.size + 1) / 2 ≤ i → i < self.size →
        (bpm (self.array i).2).isSome := hres
    obtain ⟨b, hb, hin, hout⟩ := MoveHalfTo_eq self recipient bpm (by omega) hres'
    refine ⟨_, hb, fun q => ?_, fun i h1 h2 => ?_⟩
    · show pinCount b q = pinCount bpm q
      unfold pinCount
      by_cases hq : ∃ i, (self.size + 1) / 2 ≤ i ∧ i < self.size ∧ (self.array i).2 = q
      · rw [hin q hq, pinCount_map_reparented]
      · rw [hout q (fun i h1 h2 h3 => hq ⟨i, h1, h2, h3⟩)]
    · show dirtyFlag b (self.array i).2 = some true
      obtain ⟨f, hf⟩ := Option.isSome_iff_exists.mp (hres' i h1 h2)
      unfold dirtyFlag
      rw [hin _ ⟨i, h1, h2, rfl⟩, hf]
      rfl
  · have hres' : ∀ i, 0 ≤ i → i < self.size → (bpm (self.array i).2).isSome := hres
    obtain ⟨fp, hfp, hidx⟩ := hpar
    have hfp' : bpm self.parent_page_id = some fp := hfp
    obtain ⟨b, hb, hin, hout⟩ := MoveAllTo_eq self recipient index_in_parent bpm fp (by omega)
      hfp' hidx hres'
    have hsome : ∀ q, (bpm q).isSome →
        ∃ f, Function.update bpm self.parent_page_id (some (rewritten id fp)) q = some f := by
      intro q hq
      by_cases hc : q = self.parent_page_id
      · exact ⟨_, by rw [hc, Function.update_same]⟩
      · obtain ⟨f, hf⟩ := Option.isSome_iff_exists.mp hq
        exact ⟨f, by rw [Function.update_noteq hc, hf]⟩
    refine ⟨_, hb, fun q => ?_, fun i h1 h2 => ?_, ?_⟩
    · show pinCount b q = pinCount bpm q
      rw [← pinCount_update bpm self.parent_page_id fp (rewritten id fp) hfp' rfl q]
      unfold pinCount
      by_cases hq : ∃ i, 0 ≤ i ∧ i < self.size ∧ (self.array i).2 = q
      · rw [hin q hq, pinCount_map_reparented]
      · rw [hout q (fun i h1 h2 h3 => hq ⟨i, h1, h2, h3⟩)]
    · show dirtyFlag b (self.array i).2 = some true
      obtain ⟨f, hf⟩ := hsome _ (hres' i h1 h2)
      unfold dirtyFlag
      rw [hin _ ⟨i, h1, h2, rfl⟩, hf]
      rfl
    · show dirtyFlag b self.parent_page_id = some true
      unfold dirtyFlag
      by_cases hq : ∃ i, 0 ≤ i ∧ i < self.size ∧ (self.array i).2 = self.parent_page_id
      · rw [hin _ hq, Function.update_same]
        rfl
      · rw [hout _ (fun i h1 h2 h3 => hq ⟨i, h1, h2, h3⟩), Function.update_same]
        rfl
  · obtain ⟨f0, fq, hf0, hfq⟩ := hone 0 h0 hpp
    obtain ⟨h1, h2, h3⟩ := child_then_parent_frames bpm (self.array 0).2 self.parent_page_id
      recipient.page_id f0 fq
      (fun node => SetKeyAt node (ValueIndex fq.data self.page_id) (KeyAt (Remove self 0) 0))
      hf0 hfq
    exact ⟨_, MoveFirstToEndOf_eq self recipient bpm f0 fq hf0 hfq, h1, h2, h3⟩
  · obtain ⟨f0, fq, hf0, hfq⟩ := hone (self.size - 1) h0 hpp
    obtain ⟨h1, h2, h3⟩ := child_then_parent_frames bpm (self.array (self.size - 1)).2
      self.parent_page_id recipient.page_id f0 fq
      (fun node => SetKeyAt node parent_index (self.array (self.size - 1)).1) hf0 hfq
    exact ⟨_, MoveLastToFrontOf_eq self recipient parent_index bpm f0 fq hf0 hfq, h1, h2, h3⟩

/-- C22 at the sample pages. A root split: `MoveHalfTo` from the root
`sampleParent`, for which the pool holds no parent, leaves every pin count as
it was and the moved child 8, clean before, dirty. A merge: `MoveAllTo` from
the sample page to its left sibling leaves every pin count as it was, and the
child 100 and the parent (page 1), both clean before, are dirty. -/
theorem move_methods_balance_pins_witness :
    (samplePool (GetParentPageId sampleParent) = none ∧ dirtyFlag samplePool 8 = some false ∧
      ∃ r, MoveHalfTo sampleParent (Init sampleLayout blankPage 9 INVALID_PAGE_ID) samplePool =
          some r ∧
        (∀ q, pinCount r.bpm q = pinCount samplePool q) ∧ dirtyFlag r.bpm 8 = some true) ∧
    dirtyFlag samplePool 100 = some false ∧ dirtyFlag samplePool 1 = some false ∧
    ∃ r, MoveAllTo samplePage sampleSibling 1 samplePool = some r ∧
      (∀ q, pinCount r.bpm q = pinCount samplePool q) ∧
      dirtyFlag r.bpm 100 = some true ∧ dirtyFlag r.bpm 1 = some true :=
  ⟨⟨rfl, by decide, by
    obtain ⟨r, hr, hpin, hch⟩ :=
      (move_methods_balance_pins sampleParent (Init sampleLayout blankPage 9 INVALID_PAGE_ID)
        0 0 samplePool (by decide)).1
        (fun i h1 h2 => by
          have hs : GetSize sampleParent = 3 := rfl
          rw [hs] at h1 h2
          have hi : i = 2 := by omega
          rw [hi]
          decide)
    exact ⟨r, hr, hpin, hch 2 (by decide) (by decide)⟩⟩, by decide, by decide, by
    obtain ⟨r, hr, hpin, hch, hp⟩ :=
      (move_methods_balance_pins samplePage sampleSibling 1 1 samplePool (by decide)).2.1
        sample_children_resident ⟨⟨sampleParent, 1, false⟩, rfl, rfl⟩
    exact ⟨r, hr, hpin, hch 0 (by decide) (by decide), hp⟩⟩

/-! ## Theorems: QueueUpChildren -/

/-- The loop of `QueueUpChildren` over the slots `lo .. lo + n - 1`, for any
buffer pool manager: it raises the index exception exactly when one of the
fetches it performs returns no page, the earlier ones having returned pages;
when it does not raise, all `n` fetches returned pages, these pages are
appended to the queue in slot order, and the pool is the one the last fetch
left. -/
theorem queueUpFrom_spec {σ : Type}
    (fetch : σ → Int → Option (BPlusTreeInternalPage K × σ)) (arr : Int → MappingType K)
    (d : BPlusTreeInternalPage K) (n : Nat) (lo : Int)
    (queue : List (BPlusTreeInternalPage K)) (bpm : σ) :
    ((queueUpFrom fetch arr n lo queue bpm).raised = some ExceptionType.EXCEPTION_TYPE_INDEX ↔
      ∃ (i : Nat) (s : Nat → σ) (nd : Nat → BPlusTreeInternalPage K), i < n ∧ s 0 = bpm ∧
        (∀ j : Nat, j < i → fetch (s j) (arr (lo + j)).2 = some (nd j, s (j + 1))) ∧
        fetch (s i) (arr (lo + i)).2 = none) ∧
    ((queueUpFrom fetch arr n lo queue bpm).raised ≠ some ExceptionType.EXCEPTION_TYPE_INDEX →
      ∃ (s : Nat → σ) (nd : Nat → BPlusTreeInternalPage K), s 0 = bpm ∧
        (∀ j : Nat, j < n → fetch (s j) (arr (lo + j)).2 = some (nd j, s (j + 1))) ∧
        (queueUpFrom fetch arr n lo queue bpm).raised = none ∧
        (queueUpFrom fetch arr n lo queue bpm).queue = queue ++ (List.range n).map nd ∧
        (queueUpFrom fetch arr n lo queue bpm).bpm = s n) := by
  induction n generalizing lo queue bpm with
  | zero =>
    refine ⟨⟨fun h => ?_, fun h => ?_⟩, fun _ =>
      ⟨fun _ => bpm, fun _ => d, rfl, fun j hj => ?_, rfl, ?_, rfl⟩⟩
    · simp only [queueUpFrom] at h
      cases h
    · obtain ⟨i, _, _, hi, _⟩ := h
      omega
    · omega
    · simp only [queueUpFrom, List.range_zero, List.map_nil, List.append_nil]
  | succ n ih =>
    cases hf : fetch bpm (arr lo).2 with
    | none =>
      have hstep : queueUpFrom fetch arr (n + 1) lo queue bpm =
          ⟨queue, bpm, some ExceptionType.EXCEPTION_TYPE_INDEX⟩ := by
        simp only [queueUpFrom, hf]
      rw [hstep]
      refine ⟨⟨fun _ => ⟨0, fun _ => bpm, fun _ => d, by omega, rfl, fun j hj => ?_, ?_⟩,
        fun _ => rfl⟩, fun h => absurd rfl h⟩
      · omega
      · simp only [Nat.cast_zero, add_zero]
        exact hf
    | some res =>
      obtain ⟨node, b1⟩ := res
      have hstep : queueUpFrom fetch arr (n + 1) lo queue bpm =
          queueUpFrom fetch arr n (lo + 1) (queue ++ [node]) b1 := by
        simp only [queueUpFrom, hf]
      have hidx : ∀ k : Nat, lo + 1 + (k : Int) = lo + ((k + 1 : Nat) : Int) := by
        intro k
        push_cast
        omega
      have hlo0 : lo + ((0 : Nat) : Int) = lo := by simp
      obtain ⟨ih1, ih2⟩ := ih (lo + 1) (queue ++ [node]) b1
      rw [hstep]
      refine ⟨ih1.trans ⟨fun h => ?_, fun h => ?_⟩, fun h => ?_⟩
      · obtain ⟨i, s, nd, hi, hs0, htr, hfail⟩ := h
        refine ⟨i + 1, fun j => Nat.casesOn j bpm (fun k => s k),
          fun j => Nat.casesOn j node (fun k => nd k), by omega, rfl, fun j hj => ?_, ?_⟩
        · cases j with
          | zero =>
            show fetch bpm (arr (lo + ((0 : Nat) : Int))).2 = some (node, s 0)
            rw [hlo0, hs0]
            exact hf
          | succ k =>
            show fetch (s k) (arr (lo + ((k + 1 : Nat) : Int))).2 = some (nd k, s (k + 1))
            rw [← hidx k]
            exact htr k (by omega)
        · show fetch (s i) (arr (lo + ((i + 1 : Nat) : Int))).2 = none
          rw [← hidx i]
          exact hfail
      · obtain ⟨i, s, nd, hi, hs0, htr, hfail⟩ := h
        cases i with
        | zero =>
          rw [hlo0, hs0, hf] at hfail
          cases hfail
        | succ k =>
          have h0 := htr 0 (by omega)
          rw [hlo0, hs0, hf] at h0
          have hb1 : s 1 = b1 := by
            have := congrArg (fun o => o.map Prod.snd) h0
            simp only [Option.map_some', Option.some.injEq] at this
            exact this.symm
          refine ⟨k, fun j => s (j + 1), fun j => nd (j + 1), by omega, hb1, fun j hj => ?_, ?_⟩
          · rw [hidx j]
            exact htr (j + 1) (by omega)
          · rw [hidx k]
            exact hfail
      · obtain ⟨s, nd, hs0, htr, hr, hq, hb⟩ := ih2 h
        refine ⟨fun j => Nat.casesOn j bpm (fun k => s k),
          fun j => Nat.casesOn j node (fun k => nd k), rfl, fun j hj => ?_, hr, ?_, hb⟩
        · cases j with
          | zero =>
            show fetch bpm (arr (lo + ((0 : Nat) : Int))).2 = some (node, s 0)
            rw [hlo0, hs0]
            exact hf
          | succ k =>
            show fetch (s k) (arr (lo + ((k + 1 : Nat) : Int))).2 = some (nd k, s (k + 1))
            rw [← hidx k]
            exact htr k (by omega)
        · rw [hq, List.append_assoc, List.range_succ_eq_map, List.map_cons, List.map_map]
          rfl

/-- On the fixed-capacity pool a fetch gives no page exactly when the page is
not resident, no frame is free and every frame is pinned. -/
theorem fixedPool_fetch_none_iff (pool : FixedPool K) (page_id : Int) :
    FixedPool.FetchPage pool page_id = none ↔
      (∀ e ∈ pool.frames, e.1 ≠ page_id) ∧ pool.free = 0 ∧
        ∀ e ∈ pool.frames, e.2.pin_count ≠ 0 := by
  unfold FixedPool.FetchPage
  cases h1 : pool.frames.find? (fun e => decide (e.1 = page_id)) with
  | some e =>
    have hmem := List.mem_of_find?_eq_some h1
    have hp := List.find?_some h1
    simp only [decide_eq_true_eq] at hp
    exact ⟨fun h => (by cases h), fun h => absurd hp (h.1 e hmem)⟩
  | none =>
    have hno : ∀ e ∈ pool.frames, e.1 ≠ page_id := by
      intro e he
      have := List.find?_eq_none.mp h1 e he
      simpa using this
    by_cases hfree : 0 < pool.free
    · simp only [if_pos hfree]
      exact ⟨fun h => (by cases h), fun h => (by omega)⟩
    · simp only [if_neg hfree]
      cases h2 : pool.frames.find? (fun e => decide (e.2.pin_count = 0)) with
      | none =>
        refine ⟨fun _ => ⟨hno, by omega, fun e he => ?_⟩, fun _ => rfl⟩
        have := List.find?_eq_none.mp h2 e he
        simpa using this
      | some v =>
        have hmem := List.mem_of_find?_eq_some h2
        have hp := List.find?_some h2
        simp only [decide_eq_true_eq] at hp
        exact ⟨fun h => (by cases h), fun h => absurd hp (h.2.2 v hmem)⟩

/-- C23. For any buffer pool manager, `QueueUpChildren` on a page of size `n`
raises the index exception if and only if one of the fetches the loop
performs, for the child of a slot `i` in `0 .. n - 1` in the pool the earlier
fetches left, returns no page; otherwise it raises nothing, all `n` fetches
returned pages, and the queue becomes the old queue followed by exactly these
`n` child pages, in slot order. -/
theorem QueueUpChildren_spec {σ : Type}
    (fetch : σ → Int → Option (BPlusTreeInternalPage K × σ)) (p : BPlusTreeInternalPage K)
    (queue : List (BPlusTreeInternalPage K)) (bpm : σ) :
    ((QueueUpChildren fetch p queue bpm).raised = some ExceptionType.EXCEPTION_TYPE_INDEX ↔
      ∃ (i : Nat) (s : Nat → σ) (nd : Nat → BPlusTreeInternalPage K),
        (i : Int) < GetSize p ∧ fetchesBefore fetch p bpm s nd i ∧
        fetch (s i) (ValueAt p i) = none) ∧
    ((QueueUpChildren fetch p queue bpm).raised ≠ some ExceptionType.EXCEPTION_TYPE_INDEX →
      ∃ (s : Nat → σ) (nd : Nat → BPlusTreeInternalPage K),
        fetchesBefore fetch p bpm s nd (GetSize p).toNat ∧
        (QueueUpChildren fetch p queue bpm).raised = none ∧
        (QueueUpChildren fetch p queue bpm).queue =
          queue ++ (List.range (GetSize p).toNat).map nd ∧
        (QueueUpChildren fetch p queue bpm).bpm = s (GetSize p).toNat) := by
  obtain ⟨h1, h2⟩ := queueUpFrom_spec fetch p.array p (GetSize p).toNat 0 queue bpm
  simp only [zero_add] at h1 h2
  refine ⟨h1.trans ⟨fun h => ?_, fun h => ?_⟩, fun h => ?_⟩
  · obtain ⟨i, s, nd, hi, hs0, htr, hfail⟩ := h
    exact ⟨i, s, nd, by omega, ⟨hs0, htr⟩, hfail⟩
  · obtain ⟨i, s, nd, hi, ⟨hs0, htr⟩, hfail⟩ := h
    exact ⟨i, s, nd, by omega, hs0, htr, hfail⟩
  · obtain ⟨s, nd, hs0, htr, hr, hq, hb⟩ := h2 h
    exact ⟨s, nd, ⟨hs0, htr⟩, hr, hq, hb⟩

/-- C23 at the sample page, whose four children are not resident. In a pool
of three frames the loop pins a frame for each of the children of the slots 0,
1 and 2 itself; the fetch for slot 3 then finds every frame pinned and the
index exception is raised, with three pages queued. In a pool of four frames
nothing is raised and the four children follow the page already queued. -/
theorem QueueUpChildren_spec_witness :
    ((QueueUpChildren FixedPool.FetchPage samplePage [] (emptyPool 3)).queue.length = 3 ∧
      (QueueUpChildren FixedPool.FetchPage samplePage [] (emptyPool 3)).bpm.free = 0 ∧
      ((QueueUpChildren FixedPool.FetchPage samplePage [] (emptyPool 3)).bpm.frames.map
        (fun e => (e.1, e.2.pin_count))) = [(100, 1), (101, 1), (102, 1)] ∧
      ∃ (i : Nat) (s : Nat → FixedPool Int) (nd : Nat → BPlusTreeInternalPage Int),
        (i : Int) < GetSize samplePage ∧
        fetchesBefore FixedPool.FetchPage samplePage (emptyPool 3) s nd i ∧
        FixedPool.FetchPage (s i) (ValueAt samplePage i) = none) ∧
    ∃ (s : Nat → FixedPool Int) (nd : Nat → BPlusTreeInternalPage Int),
      fetchesBefore FixedPool.FetchPage samplePage (emptyPool 4) s nd 4 ∧
      (QueueUpChildren FixedPool.FetchPage samplePage [sampleParent] (emptyPool 4)).raised =
        none ∧
      (QueueUpChildren FixedPool.FetchPage samplePage [sampleParent] (emptyPool 4)).queue =
        [sampleParent] ++ (List.range 4).map nd ∧
      (QueueUpChildren FixedPool.FetchPage samplePage [sampleParent] (emptyPool 4)).bpm = s 4 :=
  ⟨⟨by decide, by decide, by decide,
    (QueueUpChildren_spec FixedPool.FetchPage samplePage [] (emptyPool 3)).1.mp (by decide)⟩,
    (QueueUpChildren_spec FixedPool.FetchPage samplePage [sampleParent] (emptyPool 4)).2
      (by decide)⟩

end cmudb
